import Mathlib

/-!
# eqselect: a verification development

A shallow embedding of `eqselect.c` (v0.91) and theorems about it.

Modelling conventions.

* A C string is a `List Char` (its characters before the terminating NUL).
  `strcmp(a, b) == 0` is list equality, `strlen` is `List.length`.
* `int` values are `Nat`; every quantity that the program stores in an `int`
  (string lengths, list counts, error codes) is non-negative and far below
  `2^31` for inputs that fit in memory.
* Boolean results of C functions (`FilenameValid`, `FilelistExist`, `fgetsz`)
  are `Bool`.
* libc functions (`strcasestr`, `tolower`, `fgets`, `strncpy`) are modelled
  from their POSIX / BSD descriptions, in the "C" locale.
* `FilelistAdd` is modelled with both outcomes of its allocation; the walk
  and the history load, which ignore its result, are modelled for the case
  where allocation succeeds.
* The file system is explicit data: a directory is the list of entries that
  `readdir` returns (`Listing`), the history file is its content
  (`Option (List Char)`), and the outcome of the system calls that may fail
  is recorded in `World`.  The tree does not change during a run.
* `main` is modelled for option flags already parsed and the working
  directory already changed (lines 432-459); what it does to the outside is
  recorded as a list of `Event`s.
-/

namespace Eqselect

/-! ## Constants (lines 57-74) -/

/-- A filename buffer `typedef char FILENAME[LNSZ]`, seen as its C string. -/
abbrev FILENAME := List Char

def LNSZ : Nat := 500
def DEFAULTPLAYER : List Char := "vlc".toList
def DIRSEP : List Char := "/".toList
def NL : List Char := "\n".toList
def VALIDFILETYPES : List Char :=
  ".avi .flv .mkv .mov .mp3 .mp4 .mpeg .mpg .ogg .ts .wav .wmv".toList

def ERROR_EQSELECT_DIR : Nat := 1
def ERROR_EQSELECT_EMPTY : Nat := 2
def ERROR_EQSELECT_MEM : Nat := 3
def ERROR_EQSELECT_ERRNO : Nat := 4
def ERROR_EQSELECT_QUIT : Nat := 99

/-- Values of `d_type` from `<dirent.h>`. -/
def DT_UNKNOWN : Nat := 0
def DT_FIFO : Nat := 1
def DT_CHR : Nat := 2
def DT_DIR : Nat := 4
def DT_BLK : Nat := 6
def DT_REG : Nat := 8
def DT_LNK : Nat := 10
def DT_SOCK : Nat := 12
def DT_WHT : Nat := 14

/-! ## libc string helpers -/

/-- The function `tolower` of the "C" locale: only `A`..`Z` are mapped. -/
def tolower (c : Char) : Char :=
  if 'A' ≤ c ∧ c ≤ 'Z' then Char.ofNat (c.toNat + 32) else c

/-- Case-insensitive test that `needle` is a prefix of `hay`
(`strncasecmp(hay, needle, strlen(needle)) == 0`). -/
def prefixCI : List Char → List Char → Bool
  | [], _ => true
  | _ :: _, [] => false
  | n :: ns, h :: hs => tolower n == tolower h && prefixCI ns hs

/-- The test `strcasestr(hay, needle) != NULL`: `needle` occurs in `hay`,
ignoring case, at some offset. -/
def strcasestr : List Char → List Char → Bool
  | [], needle => prefixCI needle []
  | h :: hs, needle => prefixCI needle (h :: hs) || strcasestr hs needle

/-- The function `StrnCopy(dst, src, l)` (lines 378-388): `dst` receives at most `l - 1`
characters of `src`; the result is the C string left in `dst`. -/
def StrnCopy (src : List Char) (l : Nat) : List Char :=
  if l > 1 then src.take (l - 1) else []

/-! ## FilenameSplit and FilenameValid (lines 240-281) -/

/-- The loop `while (l && szFilename[l-1] != '.') l--;` of `FilenameSplit`,
started at `l`: the result is the position just after the last `'.'` among the
first `l` characters, or `0` when there is none. -/
def lastDot (szFilename : List Char) : Nat → Nat
  | 0 => 0
  | l + 1 => if szFilename.getD l ' ' = '.' then l + 1 else lastDot szFilename l

/-- The function `FilenameSplit(szFilename, szBase, szExt)`: the pair `(szBase, szExt)`.
Both stay empty for names of length at most 2 and for names without a dot. -/
def FilenameSplit (szFilename : List Char) : List Char × List Char :=
  let l := szFilename.length
  if l > 2 then
    let l1 := lastDot szFilename l
    if l1 ≠ 0 then
      (StrnCopy szFilename l1, StrnCopy (szFilename.drop l1) LNSZ)
    else ([], [])
  else ([], [])

/-- The buffer `szExt` of `FilenameValid` just before the `strcasestr` call:
`"." ++ ext` when `FilenameSplit` found a non-empty extension, `"..."`
otherwise. -/
def FilenameValidExt (szFilename : List Char) : List Char :=
  let ext := (FilenameSplit szFilename).2
  if ext ≠ [] then '.' :: ext else "...".toList

/-- The function `FilenameValid(szFilename)`. -/
def FilenameValid (szFilename : List Char) : Bool :=
  strcasestr VALIDFILETYPES (FilenameValidExt szFilename)

/-! ## FILELIST (lines 83-88, 174-233) -/

/-- The structure `FILELIST`.  `array` holds the allocated slots (`[]` is the
`NULL` pointer); a slot that was never written is shown as the empty string
and is never read, since every reader stops at index `n`. -/
structure FILELIST where
  max : Nat
  n : Nat
  array : List FILENAME
deriving DecidableEq

/-- The list after `memset(&list, 0, sizeof(FILELIST))`. -/
def FILELIST.zero : FILELIST := { max := 0, n := 0, array := [] }

/-- The filenames held by a list: the first `n` slots, in insertion order. -/
def FILELIST.names (fl : FILELIST) : List FILENAME := fl.array.take fl.n

/-- The function `FilelistAdd(szFilename, pFilelist)`: the returned `iErr` and the updated
list.  `allocOk` tells whether the `malloc` / `realloc` call, if one is made,
succeeds.  `szFilename` is assumed to fit a slot (fewer than `LNSZ`
characters), which holds at every call site. -/
def FilelistAdd (allocOk : Bool) (szFilename : FILENAME) (fl : FILELIST) : Nat × FILELIST :=
  if fl.n ≥ fl.max then
    if allocOk then
      if fl.max ≠ 0 then
        (0, { max := fl.max * 2, n := fl.n + 1,
              array := (fl.array ++ List.replicate (fl.max * 2 - fl.array.length) []).set
                fl.n szFilename })
      else
        (0, { max := 16, n := fl.n + 1,
              array := (List.replicate 16 ([] : FILENAME)).set fl.n szFilename })
    else
      (ERROR_EQSELECT_MEM, { max := 0, n := fl.n, array := [] })
  else
    (0, { max := fl.max, n := fl.n + 1, array := fl.array.set fl.n szFilename })

/-- The loop of `FilelistExist`, entered with index `i` and `iNotFound = 1`:
the result is `!iNotFound` at loop exit. -/
def FilelistExistLoop (szFilename : FILENAME) (array : List FILENAME) : Nat → Bool
  | 0 => false
  | i + 1 =>
    if szFilename = array.getD i [] then true else FilelistExistLoop szFilename array i

/-- The function `FilelistExist(szFilename, pFilelist)`. -/
def FilelistExist (szFilename : FILENAME) (fl : FILELIST) : Bool :=
  FilelistExistLoop szFilename fl.array fl.n

/-! ## The directory tree -/

/-- The fields of `struct dirent` that the program reads. -/
structure Dirent where
  d_name : List Char
  d_type : Nat
deriving DecidableEq

/-- The entries that successive `readdir` calls return for one directory,
in that order.  For each entry `e`: `chdirOk` tells whether `chdir(e.d_name)`
succeeds, `opendirOk` whether `opendir(".")` succeeds once inside, and `sub`
is the listing of that directory.  The three are only consulted for an entry
that the walk tries to enter. -/
inductive Listing where
  | nil : Listing
  | cons (e : Dirent) (chdirOk opendirOk : Bool) (sub rest : Listing) : Listing
deriving DecidableEq

/-! ## ParseCurrentDirectory (lines 288-355) -/

/-- The variable `iDirectoryNameLen` after lines 299-301. -/
def iDirectoryNameLen (pDirectoryName : List Char) : Nat :=
  if pDirectoryName.length ≠ 0 then pDirectoryName.length + 1 else 0

/-- The buffer `sz` after lines 314-318. -/
def entryPath (pDirectoryName d_name : List Char) : List Char :=
  if iDirectoryNameLen pDirectoryName ≠ 0 then pDirectoryName ++ DIRSEP ++ d_name
  else d_name

/-- Lines 351-352: `if (iErr == ERROR_EQSELECT_QUIT) iErr = 0;`. -/
def quitToZero (r : Nat × FILELIST) : Nat × FILELIST :=
  (if r.1 = ERROR_EQSELECT_QUIT then 0 else r.1, r.2)

/-- The `do ... while (pEntry && !iErr)` loop of `ParseCurrentDirectory`
(lines 307-345) over the entries not yet read.  `executed` is
`gaExecutedFilenames`, the last argument is `gaAvailableFilenames`; the
result is `iErr` at loop exit and the updated `gaAvailableFilenames`.
The recursive call of line 338 is the body of `ParseCurrentDirectory` on the
sub-directory (see `ParseCurrentDirectory_sub`).  Allocation in `FilelistAdd`
is taken to succeed. -/
def ParseEntries (continu leaf : Bool) (executed : FILELIST) (pDirectoryName : List Char) :
    Listing → FILELIST → Nat × FILELIST
  | .nil, avail => (0, avail)
  | .cons e chdirOk opendirOk sub rest, avail =>
    if e.d_name.length + iDirectoryNameLen pDirectoryName < LNSZ then
      if (e.d_type &&& DT_REG != 0) && FilenameValid (entryPath pDirectoryName e.d_name) then
        if !FilelistExist (entryPath pDirectoryName e.d_name) executed then
          if continu then
            (ERROR_EQSELECT_QUIT,
              (FilelistAdd true (entryPath pDirectoryName e.d_name) avail).2)
          else
            ParseEntries continu leaf executed pDirectoryName rest
              (FilelistAdd true (entryPath pDirectoryName e.d_name) avail).2
        else ParseEntries continu leaf executed pDirectoryName rest avail
      else if !leaf && (e.d_type &&& DT_DIR != 0) && e.d_name != ".".toList
          && e.d_name != "..".toList then
        if !chdirOk then ParseEntries continu leaf executed pDirectoryName rest avail
        else
          let r :=
            if opendirOk then
              quitToZero
                (ParseEntries continu leaf executed (entryPath pDirectoryName e.d_name) sub avail)
            else (ERROR_EQSELECT_DIR, avail)
          if r.1 ≠ 0 then r
          else ParseEntries continu leaf executed pDirectoryName rest r.2
      else ParseEntries continu leaf executed pDirectoryName rest avail
    else ParseEntries continu leaf executed pDirectoryName rest avail

/-- The function `ParseCurrentDirectory(pDirectoryName)` in a directory whose
`opendir(".")` succeeds iff `opendirOk` and whose entries are `entries`. -/
def ParseCurrentDirectory (continu leaf : Bool) (executed : FILELIST)
    (pDirectoryName : List Char) (opendirOk : Bool) (entries : Listing) (avail : FILELIST) :
    Nat × FILELIST :=
  if opendirOk then quitToZero (ParseEntries continu leaf executed pDirectoryName entries avail)
  else (ERROR_EQSELECT_DIR, avail)

/-! ## fgetsz (lines 142-167) -/

/-- The characters that `fgets` stores when it may still store `k` of them,
and the unread remainder of the stream: reading stops after a newline, at end
of file, or when `k` characters have been stored. -/
def fgetsPiece : Nat → List Char → List Char × List Char
  | 0, s => ([], s)
  | _ + 1, [] => ([], [])
  | k + 1, c :: s =>
    if c = '\n' then ([c], s)
    else ((c :: (fgetsPiece k s).1), (fgetsPiece k s).2)

/-- The function `fgets(buf, size, stream)`: `none` at end of file (nothing read),
otherwise the at most `size - 1` characters stored and the rest of the
stream. -/
def fgets (size : Nat) (stream : List Char) : Option (List Char × List Char) :=
  if stream = [] then none else some (fgetsPiece (size - 1) stream)

/-- The C string that starts a buffer: its characters before the first NUL. -/
def cstr (buf : List Char) : List Char := buf.takeWhile (fun c => c ≠ '\x00')

/-- The `while (i)` loop of `fgetsz` (lines 154-161) entered with index `i`:
the C string left in `szLine`. -/
def fgetszTrim : Nat → List Char → List Char
  | 0, szLine => szLine
  | i + 1, szLine =>
    if szLine.getD i ' ' = '\n' ∨ szLine.getD i ' ' = '\r' then fgetszTrim i (szLine.take i)
    else szLine

/-- The function `fgetsz(hFile, szLine)`: the returned flag, the C string left in
`szLine`, and the rest of the stream. -/
def fgetsz (stream : List Char) : Bool × List Char × List Char :=
  match fgets (LNSZ - 1) stream with
  | some (buf, rest) => (true, fgetszTrim (cstr buf).length (cstr buf), rest)
  | none => (false, [], stream)

/-- The loop of lines 469-471, `while (fgetsz(hFile, sz)) if (FilenameValid(sz))
FilelistAdd(sz, &gaExecutedFilenames);`, run for at most `fuel` iterations.
Every iteration consumes at least one character, so `stream.length`
iterations always reach end of file (`readExecuted_fuel`).  Allocation in
`FilelistAdd` is taken to succeed. -/
def readExecuted : Nat → List Char → FILELIST → FILELIST
  | 0, _, fl => fl
  | fuel + 1, stream, fl =>
    match fgetsz stream with
    | (true, sz, rest) =>
      readExecuted fuel rest (if FilenameValid sz then (FilelistAdd true sz fl).2 else fl)
    | (false, _, _) => fl

/-! ## main (lines 395-560) -/

/-- The option flags set by the command line (lines 95-98). -/
structure Options where
  continu : Bool
  leaf : Bool
  repeatLast : Bool
  reset : Bool
deriving DecidableEq

/-- What the run finds outside the program.
* `stateDirErr`: the state directory is missing and `mkdir` fails (line 419);
* `canRead`: `fopen(gszExecutedFileName, "r")` succeeds on an existing file;
* `canWrite`: `fopen` of the history file for `"w"` or `"a"` succeeds;
* `rootOpen`, `root`: `opendir(".")` in the working directory and its entries;
* `random`: the value returned by `random()` (non-negative). -/
structure World where
  stateDirErr : Bool
  canRead : Bool
  canWrite : Bool
  rootOpen : Bool
  root : Listing
  random : Nat

/-- The observable actions of a run, in order. -/
inductive Event where
  /-- The function `ResetExecutedFilenames()` was called. -/
  | reset : Event
  /-- The function `ParseCurrentDirectory("")` was called from `main` and returned `iErr`,
  leaving `n` candidates in `gaAvailableFilenames`. -/
  | walk (iErr n : Nat) : Event
  /-- The call `fprintf(hFile, "%s\n", f)` on the history file opened for append. -/
  | append (f : FILENAME) : Event
  /-- The call `system(sz)` with `sz` the player command for `f` (`playerCommand f`). -/
  | play (f : FILENAME) : Event
deriving DecidableEq

/-- The program state that `main` threads through its phases.  `hist` is the
content of the history file, `none` when the file does not exist. -/
structure State where
  iErr : Nat
  avail : FILELIST
  executed : FILELIST
  hist : Option (List Char)
  trace : List Event
deriving DecidableEq

/-- The command of lines 479 and 522: `sprintf(sz, "%s \"%s\" &", DEFAULTPLAYER, f)`. -/
def playerCommand (f : FILENAME) : List Char :=
  DEFAULTPLAYER ++ " \"".toList ++ f ++ "\" &".toList

/-- The function `ResetExecutedFilenames()`: the history file after the call. -/
def ResetExecutedFilenames (w : World) (hist : Option (List Char)) : Option (List Char) :=
  if w.canWrite then some [] else hist

/-- Lines 461-475: reset, or read the executed files list. -/
def mainLoad (o : Options) (w : World) (s : State) : State :=
  if o.reset then
    { s with hist := ResetExecutedFilenames w s.hist, trace := s.trace ++ [Event.reset] }
  else
    match s.hist with
    | some content =>
      if w.canRead then
        { s with executed := readExecuted content.length content s.executed }
      else s
    | none => s

/-- Lines 477-483: repeat the last executed file. -/
def mainRepeat (o : Options) (s : State) : State :=
  if o.repeatLast && s.executed.n != 0 then
    { s with
      iErr := ERROR_EQSELECT_QUIT
      trace := s.trace ++
        [Event.play (s.executed.array.getD (s.executed.n - 1) [])] }
  else s

/-- A call `iErr = ParseCurrentDirectory("")` from `main`. -/
def mainWalk (o : Options) (w : World) (s : State) : State :=
  let r := ParseCurrentDirectory o.continu o.leaf s.executed [] w.rootOpen w.root s.avail
  { s with iErr := r.1, avail := r.2, trace := s.trace ++ [Event.walk r.1 r.2.n] }

/-- Lines 485-487. -/
def mainFind (o : Options) (w : World) (s : State) : State :=
  if s.iErr = 0 then mainWalk o w s else s

/-- Lines 490-497: all files have been executed once, start over. -/
def mainStartOver (o : Options) (w : World) (s : State) : State :=
  if s.iErr = 0 ∧ s.avail.n = 0 then
    mainWalk o w
      { s with
        executed := { s.executed with n := 0 }
        hist := ResetExecutedFilenames w s.hist
        trace := s.trace ++ [Event.reset] }
  else s

/-- The index `i` chosen at lines 504-510. -/
def selectIndex (o : Options) (w : World) (n : Nat) : Nat :=
  if o.continu || n == 1 then 0 else w.random % n

/-- Lines 499-527: execute a filename. -/
def mainExecute (o : Options) (w : World) (s : State) : State :=
  if s.iErr = 0 then
    if s.avail.n ≠ 0 then
      let f := s.avail.array.getD (selectIndex o w s.avail.n) []
      if w.canWrite then
        { s with
          hist := some (s.hist.getD [] ++ (f ++ NL))
          trace := s.trace ++ [Event.append f, Event.play f] }
      else
        { s with
          iErr := ERROR_EQSELECT_ERRNO
          trace := s.trace ++ [Event.play f] }
    else { s with iErr := ERROR_EQSELECT_EMPTY }
  else s

/-- The state of `main` after its initialisation (lines 406-423): both lists
zeroed, `iErr` set when the state directory cannot be created. -/
def initState (w : World) (hist : Option (List Char)) : State :=
  { iErr := if w.stateDirErr then ERROR_EQSELECT_ERRNO else 0
    avail := FILELIST.zero, executed := FILELIST.zero, hist := hist, trace := [] }

/-- The state of `main` at the `switch` of line 535, for option flags `o`, in
world `w`, started with history file `hist`. -/
def mainRun (o : Options) (w : World) (hist : Option (List Char)) : State :=
  let s0 := initState w hist
  let s1 := if s0.iErr = 0 then mainFind o w (mainRepeat o (mainLoad o w s0)) else s0
  mainExecute o w (mainStartOver o w s1)

/-- The list `gaExecutedFilenames` after lines 461-475 of a run. -/
def loadedHistory (o : Options) (w : World) (hist : Option (List Char)) : FILELIST :=
  (mainLoad o w (initState w hist)).executed

/-- The exit status of `main` (lines 535-559): `0` is `EXIT_SUCCESS`, `1` is
`EXIT_FAILURE`. -/
def exitStatus (s : State) : Nat :=
  if s.iErr = ERROR_EQSELECT_QUIT ∨ s.iErr = 0 then 0 else 1

/-- The file of a `play` event. -/
def Event.file : Event → Option FILENAME
  | .play f => some f
  | _ => none

/-- The file that the player was launched on, if any. -/
def State.played (s : State) : Option FILENAME :=
  s.trace.findSome? Event.file

/-- The `system` commands issued by a run. -/
def State.commands (s : State) : List (List Char) :=
  s.trace.filterMap (fun e =>
    match e with
    | Event.play f => some (playerCommand f)
    | _ => none)

/-! ## Views of the model used in the proofs -/

/-- The invariant of a `FILELIST`: the count does not exceed the capacity and
`array` has exactly `max` slots. -/
def FILELIST.WF (fl : FILELIST) : Prop := fl.n ≤ fl.max ∧ fl.array.length = fl.max

instance (fl : FILELIST) : Decidable fl.WF := by
  unfold FILELIST.WF; infer_instance

/-- The test of lines 312 and 320 together: the entry's path fits the buffer
and the entry is taken as a candidate file. -/
def isFile (pDirectoryName : List Char) (e : Dirent) : Bool :=
  decide (e.d_name.length + iDirectoryNameLen pDirectoryName < LNSZ)
    && (e.d_type &&& DT_REG != 0) && FilenameValid (entryPath pDirectoryName e.d_name)

/-- The tests of lines 312, 329-331 and 333 together, for an entry that is not
taken as a file: the walk changes into the entry. -/
def isEntered (leaf : Bool) (pDirectoryName : List Char) (e : Dirent) (chdirOk : Bool) : Bool :=
  decide (e.d_name.length + iDirectoryNameLen pDirectoryName < LNSZ)
    && !leaf && (e.d_type &&& DT_DIR != 0) && e.d_name != ".".toList
    && e.d_name != "..".toList && chdirOk

/-- Sequencing of a sub-directory walk `r1` with the walk `r2` of the
remaining entries: a real error of `r1` stops the loop, anything else
(success, or the quit signal that `ParseCurrentDirectory` turns into
success) lets it go on. -/
def seqWalk (r1 r2 : Nat × List FILENAME) : Nat × List FILENAME :=
  if r1.1 ≠ 0 ∧ r1.1 ≠ ERROR_EQSELECT_QUIT then r1 else (r2.1, r1.2 ++ r2.2)

/-- The list-level view of `ParseEntries`, used to reason about it: the `iErr`
at loop exit and the names appended to the candidate list, in order.  `ex` is
the test "already executed" (`ParseEntries_walkList`). -/
def walkList (continu leaf : Bool) (ex : FILENAME → Bool) (pDirectoryName : List Char) :
    Listing → Nat × List FILENAME
  | .nil => (0, [])
  | .cons e chdirOk opendirOk sub rest =>
    if isFile pDirectoryName e then
      if ex (entryPath pDirectoryName e.d_name) then
        walkList continu leaf ex pDirectoryName rest
      else if continu then (ERROR_EQSELECT_QUIT, [entryPath pDirectoryName e.d_name])
      else
        ((walkList continu leaf ex pDirectoryName rest).1,
          entryPath pDirectoryName e.d_name :: (walkList continu leaf ex pDirectoryName rest).2)
    else if isEntered leaf pDirectoryName e chdirOk then
      if opendirOk then
        seqWalk (walkList continu leaf ex (entryPath pDirectoryName e.d_name) sub)
          (walkList continu leaf ex pDirectoryName rest)
      else (ERROR_EQSELECT_DIR, [])
    else walkList continu leaf ex pDirectoryName rest

/-- The reading loop of lines 469-471 run to end of file. -/
def readAll (stream : List Char) (fl : FILELIST) : FILELIST :=
  readExecuted stream.length stream fl

/-- The history file after lines 461-475 of a run. -/
def histAfterLoad (o : Options) (w : World) (hist : Option (List Char)) : Option (List Char) :=
  if o.reset then ResetExecutedFilenames w hist else hist

/-- The trace after lines 461-475 of a run. -/
def traceAfterLoad (o : Options) : List Event :=
  if o.reset then [Event.reset] else []

/-- The part of `main` from the first walk on (lines 487-527). -/
def mainTail (o : Options) (w : World) (s : State) : State :=
  mainExecute o w (mainStartOver o w (mainWalk o w s))

/-! ## Notions used to state the properties -/

/-- The twelve extensions of the allow-list, without their dot. -/
def allowedExtensions : List (List Char) :=
  ["avi", "flv", "mkv", "mov", "mp3", "mp4", "mpeg", "mpg", "ogg", "ts", "wav", "wmv"].map
    String.toList

/-- The whole tokens of the space-separated allow-list
(`allowTokens_intercalate`). -/
def allowTokens : List (List Char) := allowedExtensions.map (fun e => '.' :: e)

/-- The text after the last `'.'` of `s` (all of `s` when it has no dot). -/
def afterLastDot (s : List Char) : List Char :=
  (s.reverse.takeWhile (fun c => c ≠ '.')).reverse

/-- Whole-token membership: `s` has a dot and the text from its last dot
onward equals, ignoring letter case, one whole token of the allow-list. -/
def WholeTokenMember (s : List Char) : Prop :=
  '.' ∈ s ∧ ('.' :: afterLastDot s).map tolower ∈ allowTokens

instance (s : List Char) : Decidable (WholeTokenMember s) := by
  unfold WholeTokenMember; infer_instance

/-- The whole-token reading of `FilenameValid` at one filename: it returns
true exactly for whole-token members. -/
def WholeTokenValid (s : List Char) : Prop :=
  FilenameValid s = true ↔ WholeTokenMember s

/-- The entries located directly in a directory, in `readdir` order. -/
def topLevel : Listing → List Dirent
  | .nil => []
  | .cons e _ _ _ rest => e :: topLevel rest

/-- The eligible files of the tree of `w`: the candidates of a full
(non-continuous) walk against an empty history, in traversal order. -/
def eligible (leaf : Bool) (w : World) : List FILENAME :=
  (ParseCurrentDirectory false leaf FILELIST.zero [] w.rootOpen w.root FILELIST.zero).2.names

/-- The full walk of the tree of `w` meets no directory error. -/
def walkOk (leaf : Bool) (w : World) : Prop :=
  (ParseCurrentDirectory false leaf FILELIST.zero [] w.rootOpen w.root FILELIST.zero).1 = 0

instance (leaf : Bool) (w : World) : Decidable (walkOk leaf w) := by
  unfold walkOk; infer_instance

/-- A text that is empty or ends with a newline. -/
def EndsNL (s : List Char) : Prop := s = [] ∨ ∃ q, s = q ++ ['\n']

/-- A filename that survives being written to the history file and read back:
valid, free of newline and NUL characters, and of at most `LNSZ - 2`
characters (what one `fgets(szLine, LNSZ-1, hFile)` call can return). -/
def Recordable (p : FILENAME) : Prop :=
  FilenameValid p = true ∧ '\n' ∉ p ∧ '\x00' ∉ p ∧ p.length ≤ LNSZ - 2

instance (p : FILENAME) : Decidable (Recordable p) := by
  unfold Recordable; infer_instance

/-- The history file that holds the names `l`, one per line, as lines 513-517
write them. -/
def historyText (l : List FILENAME) : List Char :=
  (l.map (fun p => p ++ NL)).flatten

/-- What the repeat-last property asks of a run started on the history file
`hist` whose last line names `f`: the player is launched on `f` and nothing
else happens (no walk, no reset, no append), the exit status is zero and the
history file is unchanged. -/
def RepeatsLast (o : Options) (w : World) (hist : List Char) (f : FILENAME) : Prop :=
  (mainRun o w (some hist)).trace = [Event.play f] ∧
  (mainRun o w (some hist)).commands = [playerCommand f] ∧
  exitStatus (mainRun o w (some hist)) = 0 ∧
  (mainRun o w (some hist)).hist = some hist

instance (o : Options) (w : World) (hist : List Char) (f : FILENAME) :
    Decidable (RepeatsLast o w hist f) := by
  unfold RepeatsLast; infer_instance

/-- What the exhaustion round trip asks of a run started on the history file
that lists the names `l`: the first walk finds no candidate, the history is
reset, the second walk finds candidates, one eligible file `f` is recorded and
played, the run succeeds and the history file is left with the one line `f`. -/
def ExhaustionRoundTrip (o : Options) (w : World) (l : List FILENAME) : Prop :=
  ∃ (f : FILENAME) (n : Nat), f ∈ eligible o.leaf w ∧
    (mainRun o w (some (historyText l))).trace =
      [Event.walk 0 0, Event.reset, Event.walk 0 n, Event.append f, Event.play f] ∧
    (mainRun o w (some (historyText l))).hist = some (historyText [f]) ∧
    exitStatus (mainRun o w (some (historyText l))) = 0

/-- The history file after `k` successive runs with the same options in the
same world, started on `hist`. -/
def histAfterRuns (o : Options) (w : World) (hist : Option (List Char)) :
    Nat → Option (List Char)
  | 0 => hist
  | k + 1 => (mainRun o w (histAfterRuns o w hist k)).hist

/-- The run number `k` (counted from 0) of a series of successive runs started
on `hist`. -/
def nthRun (o : Options) (w : World) (hist : Option (List Char)) (k : Nat) : State :=
  mainRun o w (histAfterRuns o w hist k)

/-- What cycle-freedom asks of the successive runs over the tree of `w`, with
`N` the number of eligible files: each of the first `N` runs plays an eligible
file that no earlier run played; after `N` runs the history file lists every
eligible file exactly once; run `N + 1` finds no candidate on its first walk,
resets the history, walks again and plays a file, leaving a history of one
line. -/
def CycleFree (o : Options) (w : World) (hist : Option (List Char)) : Prop :=
  (∀ k < (eligible o.leaf w).length, ∃ f ∈ eligible o.leaf w,
    (nthRun o w hist k).played = some f ∧
    ∀ j < k, (nthRun o w hist j).played ≠ some f) ∧
  (∃ l : List FILENAME, l.Perm (eligible o.leaf w) ∧
    histAfterRuns o w hist (eligible o.leaf w).length = some (historyText l)) ∧
  (∃ (f : FILENAME) (n : Nat),
    (nthRun o w hist (eligible o.leaf w).length).trace =
      [Event.walk 0 0, Event.reset, Event.walk 0 n, Event.append f, Event.play f] ∧
    (nthRun o w hist (eligible o.leaf w).length).hist = some (historyText [f]))

/-- The results `iErr` of the successive calls `FilelistAdd(name, &list)` for
the given names, each with its allocation outcome, and the list after the
last call. -/
def FilelistAddSeq : List (Bool × FILENAME) → FILELIST → List Nat × FILELIST
  | [], fl => ([], fl)
  | (allocOk, szFilename) :: rest, fl =>
    ((FilelistAdd allocOk szFilename fl).1 ::
        (FilelistAddSeq rest (FilelistAdd allocOk szFilename fl).2).1,
      (FilelistAddSeq rest (FilelistAdd allocOk szFilename fl).2).2)

/-- The four error messages of the `switch` of lines 535-557. -/
inductive Report where
  /-- The message "ERROR: Specified path can't be accessed." -/
  | pathNotAccessible : Report
  /-- The message "ERROR: No file to execute in the current directory." -/
  | noFileToExecute : Report
  /-- The message "ERROR: System Call Error#..." with the value of `errno`. -/
  | systemCallError : Report
  /-- The message "ERROR: Out of memory." -/
  | outOfMemory : Report
deriving DecidableEq

/-- The message that the `switch` of lines 535-557 prints for the final
`iErr`, if any. -/
def errorReport (iErr : Nat) : Option Report :=
  if iErr = ERROR_EQSELECT_DIR then some Report.pathNotAccessible
  else if iErr = ERROR_EQSELECT_EMPTY then some Report.noFileToExecute
  else if iErr = ERROR_EQSELECT_ERRNO then some Report.systemCallError
  else if iErr = ERROR_EQSELECT_MEM then some Report.outOfMemory
  else none

/-- Every directory of the tree is accessible: each entry whose type has the
directory bit can be entered and listed, and so on below it. -/
def accessible : Listing → Bool
  | .nil => true
  | .cons e chdirOk opendirOk sub rest =>
    ((e.d_type &&& DT_DIR == 0) || (chdirOk && opendirOk && accessible sub)) && accessible rest

/-- The path of every entry of a tree, whatever its type: the entry name in
the directory of the walk's start (`pDirectoryName` empty), the path of the
directory, a slash and the entry name below it. -/
def allPaths (pDirectoryName : List Char) : Listing → List (List Char)
  | .nil => []
  | .cons e _ _ sub rest =>
    entryPath pDirectoryName e.d_name ::
      (allPaths (entryPath pDirectoryName e.d_name) sub ++ allPaths pDirectoryName rest)

/-- The buffers filled by the successive `fgets` calls of the reading loop
(lines 469-471, through `fgetsz`), for at most `fuel` calls. -/
def fgetsBuffers : Nat → List Char → List (List Char)
  | 0, _ => []
  | fuel + 1, stream =>
    match fgets (LNSZ - 1) stream with
    | some (buf, rest) => buf :: fgetsBuffers fuel rest
    | none => []

/-- The buffers filled by the successive `fgets` calls of the reading loop run
to end of file: the pieces of the history file. -/
def allBuffers (stream : List Char) : List (List Char) :=
  fgetsBuffers stream.length stream

/-- A text without its trailing `'\n'` and `'\r'` characters, all of them
removed: what the trimming of a line is said to leave. -/
def trimEol (s : List Char) : List Char :=
  (s.reverse.dropWhile (fun c => c == '\n' || c == '\r')).reverse

/-! ## Sample inputs -/

/-- A small tree used to instantiate theorems: the regular files `b.mp4`
and `notes.txt` and the directory `d`, which holds the regular file `a.mp4`. -/
def sampleTree : Listing :=
  .cons ⟨"d".toList, DT_DIR⟩ true true
    (.cons ⟨"a.mp4".toList, DT_REG⟩ false false .nil .nil)
    (.cons ⟨"b.mp4".toList, DT_REG⟩ false false .nil
      (.cons ⟨"notes.txt".toList, DT_REG⟩ false false .nil .nil))

/-- A world in which every system call succeeds, over `sampleTree`. -/
def sampleWorld : World :=
  { stateDirErr := false, canRead := true, canWrite := true, rootOpen := true,
    root := sampleTree, random := 0 }

/-- A world in which every system call succeeds, over a tree that holds the
regular files `a\nb.mp4` (a name with a newline in it) and `c.mp4`. -/
def newlineWorld : World :=
  { stateDirErr := false, canRead := true, canWrite := true, rootOpen := true,
    root := .cons ⟨"a\nb.mp4".toList, DT_REG⟩ false false .nil
      (.cons ⟨"c.mp4".toList, DT_REG⟩ false false .nil .nil),
    random := 0 }

/-- The options of a run without any flag. -/
def normalOptions : Options :=
  { continu := false, leaf := false, repeatLast := false, reset := false }

/-- The options of a run with `-c` alone. -/
def continuOptions : Options :=
  { continu := true, leaf := false, repeatLast := false, reset := false }

/-- The options of a run with `-r` alone. -/
def repeatOptions : Options :=
  { continu := false, leaf := false, repeatLast := true, reset := false }

/-- A valid filename of `LNSZ - 1 = 499` characters, the longest path that
`ParseCurrentDirectory` accepts. -/
def longName : FILENAME := List.replicate 495 'a' ++ ".mp4".toList

/-- A candidate list that holds `b.mp4`, `a.mp4` and `c.avi`, in that order. -/
def sampleList : FILELIST :=
  (FilelistAdd true "c.avi".toList
    (FilelistAdd true "a.mp4".toList (FilelistAdd true "b.mp4".toList FILELIST.zero).2).2).2

/-- A root directory that holds the directory `d` and the regular file
`b.mp4`; `chdir("d")` succeeds iff `chdirOk`, and `opendir(".")` inside `d`
fails. -/
def unlistableTree (chdirOk : Bool) : Listing :=
  .cons ⟨"d".toList, DT_DIR⟩ chdirOk false .nil
    (.cons ⟨"b.mp4".toList, DT_REG⟩ false false .nil .nil)

/-- A root directory whose only entry is named `x.mp4` and has type `d_type`. -/
def typedTree (d_type : Nat) : Listing :=
  .cons ⟨"x.mp4".toList, d_type⟩ false false .nil .nil

/-- A root directory whose only entry is named `dev`, has type `d_type`, can
be entered and listed, and holds the regular file `a.mp4`. -/
def typedDirTree (d_type : Nat) : Listing :=
  .cons ⟨"dev".toList, d_type⟩ true true
    (.cons ⟨"a.mp4".toList, DT_REG⟩ false false .nil .nil) .nil

/-- The nine values of `d_type` defined by `<dirent.h>`. -/
def direntTypes : List Nat :=
  [DT_UNKNOWN, DT_FIFO, DT_CHR, DT_DIR, DT_BLK, DT_REG, DT_LNK, DT_SOCK, DT_WHT]

/-- A valid relative path of `LNSZ - 1 = 499` characters: a directory name of
249 characters and a file name of 249 characters. -/
def longPath : FILENAME :=
  List.replicate 249 'a' ++ "/".toList ++ (List.replicate 245 'b' ++ ".mp4".toList)

/-- A root directory that holds one directory, which holds one regular file:
the tree of `longPath`. -/
def longPathTree : Listing :=
  .cons ⟨List.replicate 249 'a', DT_DIR⟩ true true
    (.cons ⟨List.replicate 245 'b' ++ ".mp4".toList, DT_REG⟩ false false .nil .nil) .nil

/-- A world in which every system call succeeds, over `longPathTree`. -/
def longPathWorld : World :=
  { stateDirErr := false, canRead := true, canWrite := true, rootOpen := true,
    root := longPathTree, random := 0 }

/-! # Lemmas and theorems -/

/-! ## FilenameValid -/

theorem FilenameValid_short (s : List Char) (h : s.length ≤ 2) : FilenameValid s = false := by
  have h1 : FilenameSplit s = ([], []) := by
    unfold FilenameSplit
    simp only []
    rw [if_neg (by omega)]
  unfold FilenameValid FilenameValidExt
  simp only [h1]
  decide

/-- C2: every allow-list extension `ext` makes `"x." ++ ext` valid, `"noext"`
and `"a.xyz"` are invalid, and so is every name of length at most 2. -/
theorem C2_extension_filtering :
    (∀ ext ∈ allowedExtensions, FilenameValid ("x.".toList ++ ext) = true) ∧
    FilenameValid "noext".toList = false ∧
    FilenameValid "a.xyz".toList = false ∧
    (∀ s : List Char, s.length ≤ 2 → FilenameValid s = false) :=
  ⟨by decide, by decide, by decide, FilenameValid_short⟩

theorem C2_extension_filtering_witness :
    FilenameValid "x.mpeg".toList = true ∧ FilenameValid "..".toList = false :=
  ⟨C2_extension_filtering.1 "mpeg".toList (by decide),
   C2_extension_filtering.2.2.2 "..".toList (by decide)⟩

theorem allowTokens_intercalate : " ".toList.intercalate allowTokens = VALIDFILETYPES := by
  decide

theorem prefixCI_iff (n h : List Char) :
    prefixCI n h = true ↔ n.map tolower <+: h.map tolower := by
  induction n generalizing h with
  | nil => simp [prefixCI]
  | cons a n ih =>
    cases h with
    | nil => simp [prefixCI]
    | cons b h =>
      simp [prefixCI, ih, List.cons_prefix_cons]

theorem strcasestr_iff (hay needle : List Char) :
    strcasestr hay needle = true ↔ needle.map tolower <:+: hay.map tolower := by
  induction hay with
  | nil =>
    simp [strcasestr, prefixCI_iff]
  | cons b hay ih =>
    simp only [strcasestr, Bool.or_eq_true, ih, prefixCI_iff, List.map_cons]
    rw [List.infix_cons_iff]

theorem lastDot_append (s t : List Char) (l : Nat) (h : l ≤ s.length) :
    lastDot (s ++ t) l = lastDot s l := by
  induction l with
  | zero => rfl
  | succ l ih =>
    have hl : l < s.length := h
    simp only [lastDot]
    rw [ih (by omega)]
    simp [List.getD_eq_getElem?_getD, List.getElem?_append_left hl]

theorem afterLastDot_snoc (s : List Char) (c : Char) :
    afterLastDot (s ++ [c]) = if c = '.' then [] else afterLastDot s ++ [c] := by
  unfold afterLastDot
  by_cases hc : c = '.'
  · simp [hc, List.takeWhile]
  · simp [hc, List.takeWhile]

theorem lastDot_le (s : List Char) (l : Nat) : lastDot s l ≤ l := by
  induction l with
  | zero => simp [lastDot]
  | succ l ih =>
    simp only [lastDot]
    split <;> omega

theorem lastDot_spec (s : List Char) :
    (lastDot s s.length = 0 ↔ '.' ∉ s) ∧
    s.drop (lastDot s s.length) = (if '.' ∈ s then afterLastDot s else s) := by
  induction s using List.reverseRecOn with
  | nil => simp [lastDot]
  | append_singleton s c ih =>
    have hlen : (s ++ [c]).length = s.length + 1 := by simp
    rw [hlen]
    simp only [lastDot]
    have hget : (s ++ [c]).getD s.length ' ' = c := by
      simp [List.getD_eq_getElem?_getD]
    rw [hget, lastDot_append s [c] s.length (le_refl _), afterLastDot_snoc]
    by_cases hc : c = '.'
    · subst hc
      simp
    · simp only [hc, if_false]
      obtain ⟨ih1, ih2⟩ := ih
      constructor
      · rw [ih1]; simp [hc, eq_comm]
      · rw [List.drop_append_of_le_length (lastDot_le s s.length), ih2]
        by_cases hs : '.' ∈ s
        · simp [hs]
        · simp [hs, hc, eq_comm]
theorem VALIDFILETYPES_lower : VALIDFILETYPES.map tolower = VALIDFILETYPES := by decide

theorem strcasestr_dots : strcasestr VALIDFILETYPES "...".toList = false := by decide

theorem FilenameValidExt_eq (s : List Char) (h : 2 < s.length) :
    FilenameValidExt s =
      if '.' ∈ s ∧ afterLastDot s ≠ [] then '.' :: (afterLastDot s).take (LNSZ - 1)
      else "...".toList := by
  obtain ⟨h1, h2⟩ := lastDot_spec s
  unfold FilenameValidExt FilenameSplit
  simp only []
  rw [if_pos h]
  by_cases hd : '.' ∈ s
  · have hne : lastDot s s.length ≠ 0 := fun h0 => (h1.1 h0) hd
    rw [if_pos hne]
    rw [if_pos hd] at h2
    simp only [h2, StrnCopy, LNSZ, hd, true_and]
    by_cases he : afterLastDot s = []
    · simp [he]
    · have : List.take 499 (afterLastDot s) ≠ [] := by
        cases hh : afterLastDot s with
        | nil => exact absurd hh he
        | cons a t => simp
      simp [he, this]
  · have h0 : lastDot s s.length = 0 := h1.2 hd
    simp [h0, hd]

theorem FilenameValid_iff (s : List Char) (h : 2 < s.length) :
    FilenameValid s = true ↔
      '.' ∈ s ∧ afterLastDot s ≠ [] ∧
        ('.' :: afterLastDot s).map tolower <:+: VALIDFILETYPES := by
  unfold FilenameValid
  rw [FilenameValidExt_eq s h]
  by_cases hc : '.' ∈ s ∧ afterLastDot s ≠ []
  · rw [if_pos hc, strcasestr_iff, VALIDFILETYPES_lower]
    simp only [hc, true_and, ne_eq, not_false_eq_true]
    by_cases hl : (afterLastDot s).length ≤ LNSZ - 1
    · rw [List.take_of_length_le hl]
    · have hV : VALIDFILETYPES.length = 59 := by decide
      constructor
      · intro hi
        have := hi.length_le
        simp [LNSZ] at this hl
        omega
      · intro hi
        have := hi.length_le
        simp [LNSZ] at this hl
        omega
  · rw [if_neg hc, strcasestr_dots]
    simp only [Bool.false_eq_true, false_iff]
    intro hh
    exact hc ⟨hh.1, hh.2.1⟩

theorem token_infix : ∀ t ∈ allowTokens, t <:+: VALIDFILETYPES := by
  decide

/-- C3 (counterexample): the fragments `.m`, `.mp`, `.mpe` and the extension
`.avi ` with a trailing space are accepted by `FilenameValid` although none is
a whole token of the allow-list. -/
theorem C3_fragment_counterexample :
    2 < "x.m".toList.length ∧ ¬ WholeTokenValid "x.m".toList ∧
    2 < "x.mp".toList.length ∧ ¬ WholeTokenValid "x.mp".toList ∧
    2 < "x.mpe".toList.length ∧ ¬ WholeTokenValid "x.mpe".toList ∧
    2 < "x.avi ".toList.length ∧ ¬ WholeTokenValid "x.avi ".toList := by
  unfold WholeTokenValid
  decide

/-- C3 (amended): for a filename longer than 2 characters, a whole-token member
is valid, and `FilenameValid` holds exactly when the name has a dot followed
by a non-empty extension and the text from the last dot onward occurs,
ignoring letter case, as a contiguous substring of the allow-list string. -/
theorem C3_substring_membership (s : List Char) (h : 2 < s.length) :
    (WholeTokenMember s → FilenameValid s = true) ∧
    (FilenameValid s = true ↔
      '.' ∈ s ∧ afterLastDot s ≠ [] ∧
        ('.' :: afterLastDot s).map tolower <:+: VALIDFILETYPES) := by
  refine ⟨?_, FilenameValid_iff s h⟩
  intro hw
  rw [FilenameValid_iff s h]
  refine ⟨hw.1, ?_, token_infix _ hw.2⟩
  intro he
  have := hw.2
  rw [he] at this
  revert this
  decide

theorem C3_substring_membership_witness :
    FilenameValid "x.m".toList = true ∧ FilenameValid "movie.MKV".toList = true :=
  ⟨(C3_substring_membership "x.m".toList (by decide)).2.mpr (by decide),
   (C3_substring_membership "movie.MKV".toList (by decide)).1 (by decide)⟩

/-! ## FILELIST -/

theorem WF_zero : FILELIST.zero.WF := by
  simp [FILELIST.WF, FILELIST.zero]

theorem names_zero : FILELIST.zero.names = [] := by
  simp [FILELIST.names, FILELIST.zero]

theorem take_succ_set {α : Type} (l : List α) (n : Nat) (x : α) (h : n < l.length) :
    (l.set n x).take (n + 1) = l.take n ++ [x] := by
  induction l generalizing n with
  | nil => simp at h
  | cons a l ih =>
    cases n with
    | zero => simp
    | succ n =>
      simp only [List.set_cons_succ, List.take_succ_cons, List.cons_append, List.cons.injEq,
        true_and]
      exact ih n (by simpa using h)

theorem FilelistAdd_ok (x : FILENAME) (fl : FILELIST) (h : fl.WF) :
    (FilelistAdd true x fl).1 = 0 ∧ (FilelistAdd true x fl).2.WF ∧
    (FilelistAdd true x fl).2.names = fl.names ++ [x] ∧
    (FilelistAdd true x fl).2.n = fl.n + 1 := by
  obtain ⟨h1, h2⟩ := h
  unfold FilelistAdd
  by_cases hge : fl.n ≥ fl.max
  · have hn : fl.n = fl.max := le_antisymm h1 hge
    rw [if_pos hge]
    simp only [if_true]
    by_cases hm : fl.max ≠ 0
    · rw [if_pos hm]
      refine ⟨rfl, ⟨?_, ?_⟩, ?_, rfl⟩
      · simp only; omega
      · simp only [List.length_set, List.length_append, List.length_replicate]; omega
      · simp only [FILELIST.names]
        rw [take_succ_set _ _ _ (by simp; omega)]
        rw [List.take_append_of_le_length (by omega)]
    · rw [if_neg hm]
      have hm0 : fl.max = 0 := by omega
      have hn0 : fl.n = 0 := by omega
      refine ⟨rfl, ⟨?_, ?_⟩, ?_, rfl⟩
      · simp only; omega
      · simp
      · simp only [FILELIST.names, hn0]
        simp
  · rw [if_neg hge]
    have hlt : fl.n < fl.max := by omega
    refine ⟨rfl, ⟨?_, ?_⟩, ?_, rfl⟩
    · simp only; omega
    · simpa using h2
    · simp only [FILELIST.names]
      rw [take_succ_set _ _ _ (by omega)]

theorem FilelistExistLoop_iff (x : FILENAME) (arr : List FILENAME) (i : Nat)
    (h : i ≤ arr.length) : FilelistExistLoop x arr i = true ↔ x ∈ arr.take i := by
  induction i with
  | zero => simp [FilelistExistLoop]
  | succ i ih =>
    have hlt : i < arr.length := h
    simp only [FilelistExistLoop]
    rw [List.take_succ, List.mem_append]
    have hg : arr.getD i [] = arr[i] := by
      simp [List.getD_eq_getElem?_getD, List.getElem?_eq_getElem hlt]
    rw [hg]
    by_cases hx : x = arr[i]
    · simp [hx, List.getElem?_eq_getElem hlt]
    · rw [if_neg hx, ih (by omega)]
      simp [List.getElem?_eq_getElem hlt, hx]

theorem FilelistExist_iff (x : FILENAME) (fl : FILELIST) (h : fl.WF) :
    FilelistExist x fl = true ↔ x ∈ fl.names := by
  unfold FilelistExist FILELIST.names
  exact FilelistExistLoop_iff x fl.array fl.n (by rw [h.2]; exact h.1)

theorem FilelistExist_n_zero (x : FILENAME) (fl : FILELIST) (h : fl.n = 0) :
    FilelistExist x fl = false := by
  simp [FilelistExist, h, FilelistExistLoop]


/-! ## ParseCurrentDirectory -/

/-- The recursive call of line 338 is `ParseCurrentDirectory` on the
sub-directory. -/
theorem ParseCurrentDirectory_sub (c l : Bool) (executed : FILELIST) (dir : List Char)
    (e : Dirent) (opendirOk : Bool) (sub : Listing) (avail : FILELIST) :
    (if opendirOk then
        quitToZero (ParseEntries c l executed (entryPath dir e.d_name) sub avail)
      else (ERROR_EQSELECT_DIR, avail)) =
    ParseCurrentDirectory c l executed (entryPath dir e.d_name) opendirOk sub avail := rfl

theorem walkList_file_old {c l : Bool} {ex : FILENAME → Bool} {dir : List Char} {e : Dirent}
    (ck ok : Bool) (sub rest : Listing)
    (hf : isFile dir e = true) (hx : ex (entryPath dir e.d_name) = true) :
    walkList c l ex dir (.cons e ck ok sub rest) = walkList c l ex dir rest := by
  simp [walkList, hf, hx]

theorem walkList_file_quit {l : Bool} {ex : FILENAME → Bool} {dir : List Char} {e : Dirent}
    (ck ok : Bool) (sub rest : Listing)
    (hf : isFile dir e = true) (hx : ex (entryPath dir e.d_name) = false) :
    walkList true l ex dir (.cons e ck ok sub rest) =
      (ERROR_EQSELECT_QUIT, [entryPath dir e.d_name]) := by
  simp [walkList, hf, hx]

theorem walkList_file_new {l : Bool} {ex : FILENAME → Bool} {dir : List Char} {e : Dirent}
    (ck ok : Bool) (sub rest : Listing)
    (hf : isFile dir e = true) (hx : ex (entryPath dir e.d_name) = false) :
    walkList false l ex dir (.cons e ck ok sub rest) =
      ((walkList false l ex dir rest).1,
        entryPath dir e.d_name :: (walkList false l ex dir rest).2) := by
  simp [walkList, hf, hx]

theorem walkList_dir {c l : Bool} {ex : FILENAME → Bool} {dir : List Char} {e : Dirent}
    {ck : Bool} (sub rest : Listing)
    (hf : isFile dir e = false) (he : isEntered l dir e ck = true) :
    walkList c l ex dir (.cons e ck true sub rest) =
      seqWalk (walkList c l ex (entryPath dir e.d_name) sub) (walkList c l ex dir rest) := by
  simp [walkList, hf, he]

theorem walkList_closed {c l : Bool} {ex : FILENAME → Bool} {dir : List Char} {e : Dirent}
    {ck : Bool} (sub rest : Listing)
    (hf : isFile dir e = false) (he : isEntered l dir e ck = true) :
    walkList c l ex dir (.cons e ck false sub rest) = (ERROR_EQSELECT_DIR, []) := by
  simp [walkList, hf, he]

theorem walkList_skip {c l : Bool} {ex : FILENAME → Bool} {dir : List Char} {e : Dirent}
    {ck : Bool} (ok : Bool) (sub rest : Listing)
    (hf : isFile dir e = false) (he : isEntered l dir e ck = false) :
    walkList c l ex dir (.cons e ck ok sub rest) = walkList c l ex dir rest := by
  simp [walkList, hf, he]

theorem ParseEntries_walkList (c l : Bool) (executed : FILELIST) (t : Listing) :
    ∀ (dir : List Char) (avail : FILELIST), avail.WF →
      (ParseEntries c l executed dir t avail).1 =
        (walkList c l (fun p => FilelistExist p executed) dir t).1 ∧
      (ParseEntries c l executed dir t avail).2.WF ∧
      (ParseEntries c l executed dir t avail).2.names =
        avail.names ++ (walkList c l (fun p => FilelistExist p executed) dir t).2 ∧
      (ParseEntries c l executed dir t avail).2.n =
        avail.n + (walkList c l (fun p => FilelistExist p executed) dir t).2.length := by
  induction t with
  | nil =>
    intro dir avail h
    simp [ParseEntries, walkList, h]
  | cons e chdirOk opendirOk sub rest ihs ihr =>
    intro dir avail h
    simp only [ParseEntries]
    by_cases h1 : e.d_name.length + iDirectoryNameLen dir < LNSZ
    · simp only [h1, ↓reduceIte]
      by_cases h2 : ((e.d_type &&& DT_REG != 0) && FilenameValid (entryPath dir e.d_name)) = true
      · have hf : isFile dir e = true := by
          simp only [isFile, Bool.and_assoc, h2, h1, decide_True, Bool.and_self]
        simp only [h2, ↓reduceIte]
        by_cases h3 : FilelistExist (entryPath dir e.d_name) executed = true
        · simp only [h3, Bool.not_true, Bool.false_eq_true, ↓reduceIte]
          rw [walkList_file_old _ _ _ _ hf (by simpa using h3)]
          exact ihr dir avail h
        · have h3f : FilelistExist (entryPath dir e.d_name) executed = false := by
            simpa using h3
          simp only [h3f, Bool.not_false, ↓reduceIte]
          obtain ⟨a1, a2, a3, a4⟩ := FilelistAdd_ok (entryPath dir e.d_name) avail h
          cases c with
          | true =>
            rw [walkList_file_quit _ _ _ _ hf (by simpa using h3f)]
            simp only [↓reduceIte]
            exact ⟨trivial, a2, a3, by simpa using a4⟩
          | false =>
            rw [walkList_file_new _ _ _ _ hf (by simpa using h3f)]
            simp only [Bool.false_eq_true, ↓reduceIte]
            obtain ⟨r1, r2, r3, r4⟩ := ihr dir _ a2
            refine ⟨r1, r2, ?_, ?_⟩
            · rw [r3, a3]; simp
            · rw [r4, a4]; simp; omega
      · have hf : isFile dir e = false := by
          have h2f : ((e.d_type &&& DT_REG != 0) &&
              FilenameValid (entryPath dir e.d_name)) = false := by simpa using h2
          simp only [isFile, Bool.and_assoc, h2f, Bool.and_false]
        simp only [h2, Bool.false_eq_true, ↓reduceIte]
        by_cases h5 : (!l && (e.d_type &&& DT_DIR != 0) && e.d_name != ".".toList
            && e.d_name != "..".toList) = true
        · simp only [h5, ↓reduceIte]
          cases chdirOk with
          | false =>
            simp only [Bool.not_false, ↓reduceIte]
            rw [walkList_skip _ _ _ hf (by simp [isEntered])]
            exact ihr dir avail h
          | true =>
            have he : isEntered l dir e true = true := by
              have h5a : (decide (e.d_name.length + iDirectoryNameLen dir < LNSZ) &&
                  (!l && (e.d_type &&& DT_DIR != 0) && e.d_name != ".".toList
                    && e.d_name != "..".toList)) = true := by
                rw [h5]; simp [h1]
              simpa [isEntered, Bool.and_assoc] using h5a
            simp only [Bool.not_true, Bool.false_eq_true, ↓reduceIte]
            cases opendirOk with
            | true =>
              rw [walkList_dir _ _ hf he]
              simp only [↓reduceIte, quitToZero, seqWalk]
              obtain ⟨s1, s2, s3, s4⟩ := ihs (entryPath dir e.d_name) avail h
              rw [s1]
              by_cases h8 : (walkList c l (fun p => FilelistExist p executed)
                    (entryPath dir e.d_name) sub).1 ≠ 0 ∧
                  (walkList c l (fun p => FilelistExist p executed)
                    (entryPath dir e.d_name) sub).1 ≠ ERROR_EQSELECT_QUIT
              · have h8a : (if (walkList c l (fun p => FilelistExist p executed)
                    (entryPath dir e.d_name) sub).1 = ERROR_EQSELECT_QUIT then 0
                    else (walkList c l (fun p => FilelistExist p executed)
                      (entryPath dir e.d_name) sub).1) ≠ 0 := by
                  rw [if_neg h8.2]; exact h8.1
                rw [if_pos h8a, if_pos h8, if_neg h8.2]
                exact ⟨rfl, s2, s3, s4⟩
              · have h8a : ¬ (if (walkList c l (fun p => FilelistExist p executed)
                    (entryPath dir e.d_name) sub).1 = ERROR_EQSELECT_QUIT then 0
                    else (walkList c l (fun p => FilelistExist p executed)
                      (entryPath dir e.d_name) sub).1) ≠ 0 := by
                  by_cases hq : (walkList c l (fun p => FilelistExist p executed)
                    (entryPath dir e.d_name) sub).1 = ERROR_EQSELECT_QUIT
                  · rw [if_pos hq]; simp
                  · rw [if_neg hq]
                    intro h0
                    exact h8 ⟨h0, hq⟩
                rw [if_neg h8a, if_neg h8]
                obtain ⟨r1, r2, r3, r4⟩ := ihr dir _ s2
                refine ⟨r1, r2, ?_, ?_⟩
                · rw [r3, s3]; simp
                · rw [r4, s4]; simp; omega
            | false =>
              rw [walkList_closed _ _ hf he]
              simp [ERROR_EQSELECT_DIR, h]
        · simp only [h5, Bool.false_eq_true, ↓reduceIte]
          have he : isEntered l dir e chdirOk = false := by
            have h5f : (!l && (e.d_type &&& DT_DIR != 0) && e.d_name != ".".toList
              && e.d_name != "..".toList) = false := by simpa using h5
            have : (decide (e.d_name.length + iDirectoryNameLen dir < LNSZ) &&
                  ((!l && (e.d_type &&& DT_DIR != 0) && e.d_name != ".".toList
                    && e.d_name != "..".toList) && chdirOk)) = false := by
              rw [h5f]; simp
            simpa [isEntered, Bool.and_assoc] using this
          rw [walkList_skip _ _ _ hf he]
          exact ihr dir avail h
    · simp only [h1, ↓reduceIte]
      rw [walkList_skip _ _ _ (by simp [isFile, h1]) (by simp [isEntered, h1])]
      exact ihr dir avail h

theorem ParseCurrentDirectory_walkList (c l : Bool) (executed : FILELIST) (dir : List Char)
    (t : Listing) (avail : FILELIST) (h : avail.WF) :
    (ParseCurrentDirectory c l executed dir true t avail).1 =
      (if (walkList c l (fun p => FilelistExist p executed) dir t).1 = ERROR_EQSELECT_QUIT
        then 0 else (walkList c l (fun p => FilelistExist p executed) dir t).1) ∧
    (ParseCurrentDirectory c l executed dir true t avail).2.WF ∧
    (ParseCurrentDirectory c l executed dir true t avail).2.names =
      avail.names ++ (walkList c l (fun p => FilelistExist p executed) dir t).2 ∧
    (ParseCurrentDirectory c l executed dir true t avail).2.n =
      avail.n + (walkList c l (fun p => FilelistExist p executed) dir t).2.length := by
  obtain ⟨r1, r2, r3, r4⟩ := ParseEntries_walkList c l executed t dir avail h
  simp only [ParseCurrentDirectory, ↓reduceIte, quitToZero]
  exact ⟨by rw [r1], r2, r3, r4⟩

theorem ParseCurrentDirectory_closed (c l : Bool) (executed : FILELIST) (dir : List Char)
    (t : Listing) (avail : FILELIST) :
    ParseCurrentDirectory c l executed dir false t avail = (ERROR_EQSELECT_DIR, avail) := by
  simp [ParseCurrentDirectory]

/-- Case analysis on the first entry of a listing, as `walkList` sees it. -/
theorem walkList_cases (c l : Bool) (ex : FILENAME → Bool) (dir : List Char) (e : Dirent)
    (ck ok : Bool) (sub rest : Listing) :
    (isFile dir e = true ∧ ex (entryPath dir e.d_name) = true ∧
      walkList c l ex dir (.cons e ck ok sub rest) = walkList c l ex dir rest) ∨
    (isFile dir e = true ∧ ex (entryPath dir e.d_name) = false ∧ c = true ∧
      walkList c l ex dir (.cons e ck ok sub rest) =
        (ERROR_EQSELECT_QUIT, [entryPath dir e.d_name])) ∨
    (isFile dir e = true ∧ ex (entryPath dir e.d_name) = false ∧ c = false ∧
      walkList c l ex dir (.cons e ck ok sub rest) =
        ((walkList c l ex dir rest).1,
          entryPath dir e.d_name :: (walkList c l ex dir rest).2)) ∨
    (isFile dir e = false ∧ isEntered l dir e ck = true ∧ ok = true ∧
      walkList c l ex dir (.cons e ck ok sub rest) =
        seqWalk (walkList c l ex (entryPath dir e.d_name) sub) (walkList c l ex dir rest)) ∨
    (isFile dir e = false ∧ isEntered l dir e ck = true ∧ ok = false ∧
      walkList c l ex dir (.cons e ck ok sub rest) = (ERROR_EQSELECT_DIR, [])) ∨
    (isFile dir e = false ∧ isEntered l dir e ck = false ∧
      walkList c l ex dir (.cons e ck ok sub rest) = walkList c l ex dir rest) := by
  by_cases hf : isFile dir e = true
  · by_cases hx : ex (entryPath dir e.d_name) = true
    · exact Or.inl ⟨hf, hx, walkList_file_old _ _ _ _ hf hx⟩
    · have hx2 : ex (entryPath dir e.d_name) = false := by simpa using hx
      cases c with
      | true => exact Or.inr (Or.inl ⟨hf, hx2, rfl, walkList_file_quit _ _ _ _ hf hx2⟩)
      | false => exact Or.inr (Or.inr (Or.inl ⟨hf, hx2, rfl, walkList_file_new _ _ _ _ hf hx2⟩))
  · have hf2 : isFile dir e = false := by simpa using hf
    by_cases he : isEntered l dir e ck = true
    · cases ok with
      | true =>
        exact Or.inr (Or.inr (Or.inr (Or.inl ⟨hf2, he, rfl, walkList_dir _ _ hf2 he⟩)))
      | false =>
        exact Or.inr (Or.inr (Or.inr (Or.inr (Or.inl ⟨hf2, he, rfl,
          walkList_closed _ _ hf2 he⟩))))
    · have he2 : isEntered l dir e ck = false := by simpa using he
      exact Or.inr (Or.inr (Or.inr (Or.inr (Or.inr ⟨hf2, he2,
        walkList_skip _ _ _ hf2 he2⟩))))

theorem isFile_valid {dir : List Char} {e : Dirent} (h : isFile dir e = true) :
    FilenameValid (entryPath dir e.d_name) = true := by
  simp only [isFile, Bool.and_eq_true] at h
  exact h.2

theorem walkList_eligible (c l : Bool) (ex : FILENAME → Bool) (t : Listing) :
    ∀ (dir : List Char), ∀ p ∈ (walkList c l ex dir t).2,
      FilenameValid p = true ∧ ex p = false := by
  induction t with
  | nil => intro dir p hp; simp [walkList] at hp
  | cons e ck ok sub rest ihs ihr =>
    intro dir p hp
    rcases walkList_cases c l ex dir e ck ok sub rest with
      ⟨_, _, hw⟩ | ⟨hf, hx, _, hw⟩ | ⟨hf, hx, _, hw⟩ | ⟨_, _, _, hw⟩ | ⟨_, _, _, hw⟩ | ⟨_, _, hw⟩
    · rw [hw] at hp; exact ihr dir p hp
    · rw [hw] at hp
      simp only [List.mem_singleton] at hp
      subst hp
      exact ⟨isFile_valid hf, hx⟩
    · rw [hw] at hp
      simp only [List.mem_cons] at hp
      rcases hp with hp | hp
      · subst hp; exact ⟨isFile_valid hf, hx⟩
      · exact ihr dir p hp
    · rw [hw] at hp
      unfold seqWalk at hp
      split_ifs at hp
      · exact ihs _ p hp
      · simp only [List.mem_append] at hp
        rcases hp with hp | hp
        · exact ihs _ p hp
        · exact ihr dir p hp
    · rw [hw] at hp; simp at hp
    · rw [hw] at hp; exact ihr dir p hp

/-- C4: every path that `ParseCurrentDirectory` appends to the candidate list
passes `FilenameValid` and is not found by `FilelistExist` in the history
list, for every tree, history list and flag setting. -/
theorem C4_candidates_eligible (continu leaf : Bool) (executed : FILELIST)
    (pDirectoryName : List Char) (opendirOk : Bool) (entries : Listing) (avail : FILELIST)
    (h : avail.WF) :
    ∃ added : List FILENAME,
      (ParseCurrentDirectory continu leaf executed pDirectoryName opendirOk entries avail).2.names
        = avail.names ++ added ∧
      ∀ p ∈ added, FilenameValid p = true ∧ FilelistExist p executed = false := by
  cases opendirOk with
  | false =>
    exact ⟨[], by rw [ParseCurrentDirectory_closed]; simp, by simp⟩
  | true =>
    obtain ⟨_, _, r3, _⟩ :=
      ParseCurrentDirectory_walkList continu leaf executed pDirectoryName entries avail h
    exact ⟨_, r3, walkList_eligible continu leaf _ entries pDirectoryName⟩

theorem C4_candidates_eligible_witness :
    FILELIST.zero.WF ∧
    (ParseCurrentDirectory false false FILELIST.zero [] true sampleTree FILELIST.zero).2.names
      = ["d/a.mp4".toList, "b.mp4".toList] ∧
    ∃ added : List FILENAME,
      (ParseCurrentDirectory false false FILELIST.zero [] true sampleTree FILELIST.zero).2.names
        = FILELIST.zero.names ++ added ∧
      ∀ p ∈ added, FilenameValid p = true ∧ FilelistExist p FILELIST.zero = false :=
  ⟨WF_zero, by decide,
   C4_candidates_eligible false false FILELIST.zero [] true sampleTree FILELIST.zero WF_zero⟩

theorem isEntered_leaf (dir : List Char) (e : Dirent) (ck : Bool) :
    isEntered true dir e ck = false := by
  simp [isEntered]

theorem isFile_reg {dir : List Char} {e : Dirent} (h : isFile dir e = true) :
    e.d_type &&& DT_REG ≠ 0 := by
  simp only [isFile, Bool.and_eq_true, bne_iff_ne] at h
  exact h.1.2

theorem walkList_leaf (c : Bool) (ex : FILENAME → Bool) (dir : List Char) (t : Listing) :
    ∀ p ∈ (walkList c true ex dir t).2,
      ∃ e ∈ topLevel t, p = entryPath dir e.d_name ∧ isFile dir e = true ∧ ex p = false := by
  induction t with
  | nil => intro p hp; simp [walkList] at hp
  | cons e ck ok sub rest _ ihr =>
    intro p hp
    have step : ∀ q, (∃ e1 ∈ topLevel rest, q = entryPath dir e1.d_name ∧
          isFile dir e1 = true ∧ ex q = false) →
        ∃ e1 ∈ topLevel (.cons e ck ok sub rest), q = entryPath dir e1.d_name ∧
          isFile dir e1 = true ∧ ex q = false := by
      rintro q ⟨e1, h1, h2⟩
      exact ⟨e1, by simp [topLevel, h1], h2⟩
    have here : isFile dir e = true → ex (entryPath dir e.d_name) = false →
        ∃ e1 ∈ topLevel (.cons e ck ok sub rest), entryPath dir e.d_name =
          entryPath dir e1.d_name ∧ isFile dir e1 = true ∧
          ex (entryPath dir e.d_name) = false :=
      fun hf hx => ⟨e, by simp [topLevel], rfl, hf, hx⟩
    rcases walkList_cases c true ex dir e ck ok sub rest with
      ⟨_, _, hw⟩ | ⟨hf, hx, _, hw⟩ | ⟨hf, hx, _, hw⟩ | ⟨_, he, _, _⟩ | ⟨_, he, _, _⟩ | ⟨_, _, hw⟩
    · rw [hw] at hp; exact step p (ihr p hp)
    · rw [hw] at hp
      simp only [List.mem_singleton] at hp
      subst hp
      exact here hf hx
    · rw [hw] at hp
      simp only [List.mem_cons] at hp
      rcases hp with hp | hp
      · subst hp; exact here hf hx
      · exact step p (ihr p hp)
    · rw [isEntered_leaf] at he; exact absurd he (by decide)
    · rw [isEntered_leaf] at he; exact absurd he (by decide)
    · rw [hw] at hp; exact step p (ihr p hp)

theorem ParseEntries_leaf_congr (c : Bool) (executed : FILELIST) (dir : List Char)
    (t : Listing) :
    ∀ (t1 : Listing) (avail : FILELIST), topLevel t1 = topLevel t →
      ParseEntries c true executed dir t1 avail = ParseEntries c true executed dir t avail := by
  induction t with
  | nil =>
    intro t1 avail h
    cases t1 with
    | nil => rfl
    | cons e1 ck1 ok1 sub1 rest1 => simp [topLevel] at h
  | cons e ck ok sub rest _ ihr =>
    intro t1 avail h
    cases t1 with
    | nil => simp [topLevel] at h
    | cons e1 ck1 ok1 sub1 rest1 =>
      simp only [topLevel, List.cons.injEq] at h
      obtain ⟨he, hr⟩ := h
      subst he
      simp only [ParseEntries, Bool.not_true, Bool.false_and, Bool.false_eq_true, ↓reduceIte]
      split_ifs <;> first | rfl | exact ihr _ _ hr

/-- C8 (failing input): in continuous mode over `sampleTree` the first
candidate `d/a.mp4` is found inside the directory `d`; the quit signal is
turned into success when that call returns (lines 351-352), so the loop of the
root goes on, examines `b.mp4` and adds it: two candidates are left. -/
theorem C8_quit_lost_below_root :
    ParseEntries true false FILELIST.zero "d".toList
      (.cons ⟨"a.mp4".toList, DT_REG⟩ false false .nil .nil) FILELIST.zero
      = (ERROR_EQSELECT_QUIT, (FilelistAdd true "d/a.mp4".toList FILELIST.zero).2) ∧
    ParseCurrentDirectory true false FILELIST.zero "d".toList true
      (.cons ⟨"a.mp4".toList, DT_REG⟩ false false .nil .nil) FILELIST.zero
      = (0, (FilelistAdd true "d/a.mp4".toList FILELIST.zero).2) ∧
    (ParseCurrentDirectory true false FILELIST.zero [] true sampleTree FILELIST.zero).1 = 0 ∧
    (ParseCurrentDirectory true false FILELIST.zero [] true sampleTree FILELIST.zero).2.names
      = ["d/a.mp4".toList, "b.mp4".toList] ∧
    (ParseCurrentDirectory true false FILELIST.zero [] true sampleTree FILELIST.zero).2.n = 2 := by
  decide

/-! ## Continuous mode against the full walk -/

theorem walkList_full_ne_quit (l : Bool) (ex : FILENAME → Bool) (t : Listing) :
    ∀ dir : List Char, (walkList false l ex dir t).1 ≠ ERROR_EQSELECT_QUIT := by
  induction t with
  | nil => intro dir; simp [walkList, ERROR_EQSELECT_QUIT]
  | cons e ck ok sub rest ihs ihr =>
    intro dir
    rcases walkList_cases false l ex dir e ck ok sub rest with
      ⟨_, _, hw⟩ | ⟨_, _, hc, _⟩ | ⟨_, _, _, hw⟩ | ⟨_, _, _, hw⟩ | ⟨_, _, _, hw⟩ | ⟨_, _, hw⟩
    · rw [hw]; exact ihr dir
    · exact absurd hc (by decide)
    · rw [hw]; exact ihr dir
    · rw [hw]
      unfold seqWalk
      split_ifs with h
      · exact h.2
      · exact ihr dir
    · rw [hw]; decide
    · rw [hw]; exact ihr dir

theorem walkList_continu_head (l : Bool) (ex : FILENAME → Bool) (t : Listing) :
    ∀ dir : List Char,
      ((walkList false l ex dir t).2 = [] →
        walkList true l ex dir t = walkList false l ex dir t) ∧
      (∀ x xs, (walkList false l ex dir t).2 = x :: xs →
        ∃ ys, (walkList true l ex dir t).2 = x :: ys) := by
  induction t with
  | nil => intro dir; simp [walkList]
  | cons e ck ok sub rest ihs ihr =>
    intro dir
    rcases walkList_cases false l ex dir e ck ok sub rest with
      ⟨hf, hx, hw⟩ | ⟨_, _, hc, _⟩ | ⟨hf, hx, _, hw⟩ | ⟨hf, he, hok, hw⟩ |
      ⟨hf, he, hok, hw⟩ | ⟨hf, he, hw⟩
    · rw [hw, walkList_file_old _ _ _ _ hf hx]; exact ihr dir
    · exact absurd hc (by decide)
    · rw [hw, walkList_file_quit _ _ _ _ hf hx]
      constructor
      · intro h; simp at h
      · intro x xs h
        simp only [List.cons.injEq] at h
        exact ⟨[], by rw [h.1]⟩
    · subst hok
      rw [hw, walkList_dir _ _ hf he]
      obtain ⟨s1, s2⟩ := ihs (entryPath dir e.d_name)
      obtain ⟨r1, r2⟩ := ihr dir
      constructor
      · intro h
        have hs : (walkList false l ex (entryPath dir e.d_name) sub).2 = [] := by
          unfold seqWalk at h
          split_ifs at h
          · exact h
          · simp only [List.append_eq_nil] at h; exact h.1
        rw [s1 hs]
        by_cases hh : (walkList false l ex (entryPath dir e.d_name) sub).1 ≠ 0 ∧
            (walkList false l ex (entryPath dir e.d_name) sub).1 ≠ ERROR_EQSELECT_QUIT
        · unfold seqWalk
          rw [if_pos hh, if_pos hh]
        · have hr : (walkList false l ex dir rest).2 = [] := by
            unfold seqWalk at h
            rw [if_neg hh] at h
            simp only [List.append_eq_nil] at h; exact h.2
          rw [r1 hr]
      · intro x xs h
        cases hs : (walkList false l ex (entryPath dir e.d_name) sub).2 with
        | nil =>
          rw [s1 hs]
          unfold seqWalk at h ⊢
          split_ifs at h ⊢ with hh
          · rw [hs] at h; simp at h
          · rw [hs] at h ⊢
            simp only [List.nil_append] at h ⊢
            exact r2 x xs h
        | cons y ys0 =>
          obtain ⟨ys1, hco⟩ := s2 y ys0 hs
          have hxy : x = y := by
            unfold seqWalk at h
            split_ifs at h
            · rw [hs] at h; simp only [List.cons.injEq] at h; exact h.1.symm
            · rw [hs] at h; simp only [List.cons_append, List.cons.injEq] at h; exact h.1.symm
          subst hxy
          unfold seqWalk
          split_ifs
          · exact ⟨ys1, hco⟩
          · exact ⟨ys1 ++ (walkList true l ex dir rest).2, by rw [hco]; simp⟩
    · subst hok
      rw [hw, walkList_closed _ _ hf he]
      simp
    · rw [hw, walkList_skip _ _ _ hf he]; exact ihr dir

theorem walkList_continu_ok (l : Bool) (ex : FILENAME → Bool) (t : Listing) :
    ∀ dir : List Char, (walkList false l ex dir t).1 = 0 →
      (walkList true l ex dir t).1 = 0 ∨ (walkList true l ex dir t).1 = ERROR_EQSELECT_QUIT := by
  induction t with
  | nil => intro dir; simp [walkList]
  | cons e ck ok sub rest ihs ihr =>
    intro dir
    rcases walkList_cases false l ex dir e ck ok sub rest with
      ⟨hf, hx, hw⟩ | ⟨_, _, hc, _⟩ | ⟨hf, hx, _, hw⟩ | ⟨hf, he, hok, hw⟩ |
      ⟨hf, he, hok, hw⟩ | ⟨hf, he, hw⟩
    · rw [hw, walkList_file_old _ _ _ _ hf hx]; exact ihr dir
    · exact absurd hc (by decide)
    · rw [hw, walkList_file_quit _ _ _ _ hf hx]
      intro _; exact Or.inr rfl
    · subst hok
      rw [hw, walkList_dir _ _ hf he]
      intro h
      unfold seqWalk at h
      split_ifs at h with hh
      · exact absurd h hh.1
      · have hs0 : (walkList false l ex (entryPath dir e.d_name) sub).1 = 0 := by
          by_contra h0
          exact hh ⟨h0, walkList_full_ne_quit l ex sub _⟩
        have hsc := ihs _ hs0
        have hcc : ¬ ((walkList true l ex (entryPath dir e.d_name) sub).1 ≠ 0 ∧
            (walkList true l ex (entryPath dir e.d_name) sub).1 ≠ ERROR_EQSELECT_QUIT) := by
          rintro ⟨a, b⟩
          rcases hsc with hsc | hsc
          · exact a hsc
          · exact b hsc
        unfold seqWalk
        rw [if_neg hcc]
        exact ihr dir h
    · subst hok
      rw [hw]
      intro h
      exact absurd h (by decide)
    · rw [hw, walkList_skip _ _ _ hf he]; exact ihr dir

/-! ## main -/

theorem readExecuted_WF (k : Nat) : ∀ (s : List Char) (fl : FILELIST), fl.WF →
    (readExecuted k s fl).WF := by
  induction k with
  | zero => intro s fl h; exact h
  | succ k ih =>
    intro s fl h
    simp only [readExecuted]
    split
    · apply ih
      split_ifs
      · exact (FilelistAdd_ok _ fl h).2.1
      · exact h
    · exact h

theorem mainLoad_init (o : Options) (w : World) (hist : Option (List Char)) :
    mainLoad o w (initState w hist) =
      { iErr := if w.stateDirErr then ERROR_EQSELECT_ERRNO else 0
        avail := FILELIST.zero
        executed := loadedHistory o w hist
        hist := histAfterLoad o w hist
        trace := traceAfterLoad o } := by
  unfold loadedHistory histAfterLoad traceAfterLoad mainLoad initState
  cases hr : o.reset
  · cases hist with
    | none => simp
    | some c =>
      cases hc : w.canRead <;> simp
  · simp

theorem loadedHistory_reset (o : Options) (w : World) (hist : Option (List Char))
    (h : o.reset = true) : loadedHistory o w hist = FILELIST.zero := by
  simp [loadedHistory, mainLoad, initState, h]

theorem loadedHistory_none (o : Options) (w : World) :
    loadedHistory o w none = FILELIST.zero := by
  cases hr : o.reset <;> simp [loadedHistory, mainLoad, initState, hr]

theorem loadedHistory_some (o : Options) (w : World) (c : List Char)
    (h : o.reset = false) (hr : w.canRead = true) :
    loadedHistory o w (some c) = readExecuted c.length c FILELIST.zero := by
  simp [loadedHistory, mainLoad, initState, h, hr]

theorem loadedHistory_unreadable (o : Options) (w : World) (hist : Option (List Char))
    (hr : w.canRead = false) : loadedHistory o w hist = FILELIST.zero := by
  cases hist with
  | none => exact loadedHistory_none o w
  | some c => cases h : o.reset <;> simp [loadedHistory, mainLoad, initState, h, hr]

theorem loadedHistory_WF (o : Options) (w : World) (hist : Option (List Char)) :
    (loadedHistory o w hist).WF := by
  cases h : o.reset
  · cases hr : w.canRead
    · rw [loadedHistory_unreadable o w hist hr]; exact WF_zero
    · cases hist with
      | none => rw [loadedHistory_none]; exact WF_zero
      | some c =>
        rw [loadedHistory_some o w c h hr]
        exact readExecuted_WF _ _ _ WF_zero
  · rw [loadedHistory_reset o w hist h]; exact WF_zero

theorem names_head_getD (fl : FILELIST) (x : FILENAME) (xs : List FILENAME)
    (h : fl.names = x :: xs) : fl.array.getD 0 [] = x := by
  unfold FILELIST.names at h
  cases ha : fl.array with
  | nil => rw [ha] at h; simp at h
  | cons a as =>
    rw [ha] at h
    cases hn : fl.n with
    | zero => rw [hn] at h; simp at h
    | succ n =>
      rw [hn] at h
      simp only [List.take_succ_cons, List.cons.injEq] at h
      simp [h.1]

/-- The run when the state directory is fine and the repeat-last shortcut
does not fire: load, walk, possibly start over, execute. -/
theorem mainRun_walk (o : Options) (w : World) (hist : Option (List Char))
    (hdir : w.stateDirErr = false)
    (hrep : ¬ (o.repeatLast = true ∧ (loadedHistory o w hist).n ≠ 0)) :
    mainRun o w hist =
      mainExecute o w (mainStartOver o w (mainWalk o w
        { iErr := 0, avail := FILELIST.zero, executed := loadedHistory o w hist,
          hist := histAfterLoad o w hist, trace := traceAfterLoad o })) := by
  have h1 : (initState w hist).iErr = 0 := by simp [initState, hdir]
  unfold mainRun
  simp only [h1, ↓reduceIte]
  rw [mainLoad_init]
  simp only [hdir, Bool.false_eq_true, ↓reduceIte]
  have h2 : (o.repeatLast && (loadedHistory o w hist).n != 0) = false := by
    by_contra hc
    simp only [Bool.not_eq_false, Bool.and_eq_true, bne_iff_ne] at hc
    exact hrep hc
  simp only [mainRepeat, h2, Bool.false_eq_true, ↓reduceIte, mainFind]

/-- The end of a run whose first walk succeeded with a non-empty candidate
list `a`. -/
theorem mainRun_select (o : Options) (w : World) (hist : Option (List Char))
    (hdir : w.stateDirErr = false)
    (hrep : ¬ (o.repeatLast = true ∧ (loadedHistory o w hist).n ≠ 0))
    (a : FILELIST)
    (hw : ParseCurrentDirectory o.continu o.leaf (loadedHistory o w hist) [] w.rootOpen w.root
      FILELIST.zero = (0, a))
    (hn : a.n ≠ 0) :
    mainRun o w hist =
      if w.canWrite then
        { iErr := 0, avail := a, executed := loadedHistory o w hist,
          hist := some ((histAfterLoad o w hist).getD [] ++
            (a.array.getD (selectIndex o w a.n) [] ++ NL)),
          trace := traceAfterLoad o ++ [Event.walk 0 a.n] ++
            [Event.append (a.array.getD (selectIndex o w a.n) []),
             Event.play (a.array.getD (selectIndex o w a.n) [])] }
      else
        { iErr := ERROR_EQSELECT_ERRNO, avail := a, executed := loadedHistory o w hist,
          hist := histAfterLoad o w hist,
          trace := traceAfterLoad o ++ [Event.walk 0 a.n] ++
            [Event.play (a.array.getD (selectIndex o w a.n) [])] } := by
  rw [mainRun_walk o w hist hdir hrep]
  simp only [mainWalk, hw, mainStartOver, hn, and_false, ↓reduceIte, mainExecute, ne_eq,
    not_false_eq_true, List.append_assoc]

/-- The end of a run whose first walk failed. -/
theorem mainRun_walk_error (o : Options) (w : World) (hist : Option (List Char))
    (hdir : w.stateDirErr = false)
    (hrep : ¬ (o.repeatLast = true ∧ (loadedHistory o w hist).n ≠ 0))
    (e : Nat) (a : FILELIST)
    (hw : ParseCurrentDirectory o.continu o.leaf (loadedHistory o w hist) [] w.rootOpen w.root
      FILELIST.zero = (e, a))
    (he : e ≠ 0) :
    mainRun o w hist =
      { iErr := e, avail := a, executed := loadedHistory o w hist,
        hist := histAfterLoad o w hist,
        trace := traceAfterLoad o ++ [Event.walk e a.n] } := by
  rw [mainRun_walk o w hist hdir hrep]
  simp only [mainWalk, hw, mainStartOver, he, false_and, ↓reduceIte, mainExecute]

theorem played_walk_only (o : Options) (s : State) (e n : Nat)
    (h : s.trace = traceAfterLoad o ++ [Event.walk e n]) : s.played = none := by
  unfold State.played
  rw [h]
  cases hr : o.reset <;> simp [traceAfterLoad, hr, List.findSome?, Event.file]

theorem played_select (o : Options) (s : State) (n : Nat) (f : FILENAME)
    (h : s.trace = traceAfterLoad o ++ [Event.walk 0 n] ++ [Event.append f, Event.play f] ∨
      s.trace = traceAfterLoad o ++ [Event.walk 0 n] ++ [Event.play f]) :
    s.played = some f := by
  unfold State.played
  rcases h with h | h <;> rw [h] <;> cases hr : o.reset <;>
    simp [traceAfterLoad, hr, List.findSome?, Event.file]

theorem selectIndex_continu (o : Options) (w : World) (n : Nat) (h : o.continu = true) :
    selectIndex o w n = 0 := by
  simp [selectIndex, h]

/-- C9: in continuous mode, when the full (non-continuous) walk over the same
tree and loaded history yields a non-empty candidate list `x :: xs`, any file
the run plays is `x`; and the run does play `x` whenever that full walk
reports no error.  (The repeat-last shortcut is assumed not to fire and the
state directory to be usable.) -/
theorem C9_continuous_first (o : Options) (w : World) (hist : Option (List Char))
    (hc : o.continu = true) (hdir : w.stateDirErr = false)
    (hrep : ¬ (o.repeatLast = true ∧ (loadedHistory o w hist).n ≠ 0))
    (x : FILENAME) (xs : List FILENAME)
    (hnc : (ParseCurrentDirectory false o.leaf (loadedHistory o w hist) [] w.rootOpen w.root
      FILELIST.zero).2.names = x :: xs) :
    (∀ f, (mainRun o w hist).played = some f → f = x) ∧
    ((ParseCurrentDirectory false o.leaf (loadedHistory o w hist) [] w.rootOpen w.root
      FILELIST.zero).1 = 0 → (mainRun o w hist).played = some x) := by
  have hopen : w.rootOpen = true := by
    by_contra hno
    have hno2 : w.rootOpen = false := by simpa using hno
    rw [hno2, ParseCurrentDirectory_closed] at hnc
    simp [names_zero] at hnc
  rw [hopen] at hnc ⊢
  obtain ⟨n1, _, n3, _⟩ := ParseCurrentDirectory_walkList false o.leaf
    (loadedHistory o w hist) [] w.root FILELIST.zero WF_zero
  obtain ⟨c1, c2, c3, c4⟩ := ParseCurrentDirectory_walkList true o.leaf
    (loadedHistory o w hist) [] w.root FILELIST.zero WF_zero
  rw [n3, names_zero, List.nil_append] at hnc
  obtain ⟨ys, hys⟩ := (walkList_continu_head o.leaf _ w.root []).2 x xs hnc
  rw [hys, names_zero, List.nil_append] at c3
  rw [hys] at c4
  have hn : (ParseCurrentDirectory true o.leaf (loadedHistory o w hist) [] true w.root
      FILELIST.zero).2.n ≠ 0 := by
    rw [c4]; simp
  have hwalk : ParseCurrentDirectory o.continu o.leaf (loadedHistory o w hist) [] w.rootOpen
      w.root FILELIST.zero =
      ((ParseCurrentDirectory true o.leaf (loadedHistory o w hist) [] true w.root
        FILELIST.zero).1,
       (ParseCurrentDirectory true o.leaf (loadedHistory o w hist) [] true w.root
        FILELIST.zero).2) := by
    rw [hc, hopen]
  by_cases he : (ParseCurrentDirectory true o.leaf (loadedHistory o w hist) [] true w.root
      FILELIST.zero).1 = 0
  · rw [he] at hwalk
    have hrun := mainRun_select o w hist hdir hrep _ hwalk hn
    have hpl : (mainRun o w hist).played = some x := by
      rw [← names_head_getD _ x ys c3, ← selectIndex_continu o w _ hc]
      apply played_select o
      rw [hrun]
      cases w.canWrite
      · exact Or.inr rfl
      · exact Or.inl rfl
    constructor
    · intro f hf
      rw [hpl] at hf
      exact (Option.some.inj hf).symm
    · intro _; exact hpl
  · have hrun := mainRun_walk_error o w hist hdir hrep _ _ hwalk he
    have hpl : (mainRun o w hist).played = none :=
      played_walk_only o _ _ _ (by rw [hrun])
    constructor
    · intro f hf
      rw [hpl] at hf
      exact absurd hf (by simp)
    · intro h0
      exfalso
      apply he
      rw [n1] at h0
      have hz : (walkList false o.leaf (fun p => FilelistExist p (loadedHistory o w hist)) []
          w.root).1 = 0 := by
        by_contra hnz
        rw [if_neg (walkList_full_ne_quit _ _ _ _)] at h0
        exact hnz h0
      rw [c1]
      rcases walkList_continu_ok o.leaf _ w.root [] hz with h | h
      · rw [h]; simp
      · rw [if_pos h]

theorem C9_continuous_first_witness :
    (mainRun continuOptions sampleWorld none).played = some "d/a.mp4".toList :=
  (C9_continuous_first continuOptions sampleWorld none rfl rfl (by decide)
    "d/a.mp4".toList ["b.mp4".toList] (by decide)).2 (by decide)

/-! ## The reset flag -/

theorem mainTail_trace (o : Options) (w : World) (s : State) (t : List Event) :
    (mainTail o w { s with trace := t }).iErr = (mainTail o w s).iErr ∧
    (mainTail o w { s with trace := t }).hist = (mainTail o w s).hist ∧
    ∃ d : List Event, (mainTail o w s).trace = s.trace ++ d ∧
      (mainTail o w { s with trace := t }).trace = t ++ d := by
  simp only [mainTail, mainWalk, mainStartOver, mainExecute]
  split_ifs <;> simp

theorem mainTail_frame (o : Options) (w : World) (s : State) (t : List Event)
    (h : Option (List Char)) :
    (mainTail o w { s with trace := t, hist := h }).iErr = (mainTail o w s).iErr ∧
    ∃ d : List Event, (mainTail o w s).trace = s.trace ++ d ∧
      (mainTail o w { s with trace := t, hist := h }).trace = t ++ d := by
  simp only [mainTail, mainWalk, mainStartOver, mainExecute]
  split_ifs <;> simp

theorem mainTail_options (o o1 : Options) (w : World) (s : State)
    (hc : o1.continu = o.continu) (hl : o1.leaf = o.leaf) :
    mainTail o1 w s = mainTail o w s := by
  simp only [mainTail, mainWalk, mainStartOver, mainExecute, selectIndex, hc, hl]

theorem mainRun_stateDirErr (o : Options) (w : World) (hist : Option (List Char))
    (hdir : w.stateDirErr = true) :
    mainRun o w hist = initState w hist := by
  simp [mainRun, initState, hdir, mainStartOver, mainExecute, ERROR_EQSELECT_ERRNO]

theorem loadedHistory_empty (o : Options) (w : World) :
    loadedHistory o w (some []) = FILELIST.zero := by
  cases hr : w.canRead
  · exact loadedHistory_unreadable o w _ hr
  · cases h : o.reset
    · rw [loadedHistory_some o w [] h hr]; rfl
    · exact loadedHistory_reset o w _ h

theorem played_append_reset (d : List Event) :
    List.findSome? Event.file ([Event.reset] ++ d) = List.findSome? Event.file ([] ++ d) := by
  simp [List.findSome?, Event.file]

/-- C10: a run with the reset flag plays the same file and exits with the same
status as the same run without the reset flag started on an empty history
file, whatever the tree, the prior history content, the other flags and the
random value; and it leaves the same history file, provided the state
directory is usable and the history file can be opened for writing (so that
the truncation of line 462 takes effect). -/
theorem C10_reset_as_empty_history (o : Options) (w : World) (hist : Option (List Char)) :
    (mainRun { o with reset := true } w hist).played =
      (mainRun { o with reset := false } w (some [])).played ∧
    exitStatus (mainRun { o with reset := true } w hist) =
      exitStatus (mainRun { o with reset := false } w (some [])) ∧
    (w.stateDirErr = false → w.canWrite = true →
      (mainRun { o with reset := true } w hist).hist =
        (mainRun { o with reset := false } w (some [])).hist) := by
  cases hdir : w.stateDirErr
  · have hl1 : loadedHistory { o with reset := true } w hist = FILELIST.zero :=
      loadedHistory_reset _ w hist rfl
    have hl2 : loadedHistory { o with reset := false } w (some []) = FILELIST.zero :=
      loadedHistory_empty _ w
    have hr1 : ¬ (({ o with reset := true } : Options).repeatLast = true ∧
        (loadedHistory { o with reset := true } w hist).n ≠ 0) := by
      rw [hl1]; simp [FILELIST.zero]
    have hr2 : ¬ (({ o with reset := false } : Options).repeatLast = true ∧
        (loadedHistory { o with reset := false } w (some [])).n ≠ 0) := by
      rw [hl2]; simp [FILELIST.zero]
    rw [mainRun_walk _ w hist hdir hr1, mainRun_walk _ w (some []) hdir hr2, hl1, hl2]
    change (mainTail _ w _).played = (mainTail _ w _).played ∧
      exitStatus (mainTail _ w _) = exitStatus (mainTail _ w _) ∧
      (_ → _ → (mainTail _ w _).hist = (mainTail _ w _).hist)
    rw [mainTail_options o { o with reset := true } w _ rfl rfl,
      mainTail_options o { o with reset := false } w _ rfl rfl]
    simp only [histAfterLoad, traceAfterLoad, ↓reduceIte, Bool.false_eq_true]
    obtain ⟨f1, d, f2, f3⟩ := mainTail_frame o w
      { iErr := 0, avail := FILELIST.zero, executed := FILELIST.zero, hist := some [],
        trace := [] } [Event.reset] (ResetExecutedFilenames w hist)
    refine ⟨?_, ?_, ?_⟩
    · unfold State.played
      rw [f2, f3]
      exact played_append_reset d
    · unfold exitStatus
      rw [f1]
    · intro _ hw
      have hres : ResetExecutedFilenames w hist = some [] := by
        simp [ResetExecutedFilenames, hw]
      rw [hres]
      exact (mainTail_trace o w
        { iErr := 0, avail := FILELIST.zero, executed := FILELIST.zero, hist := some [],
          trace := [] } [Event.reset]).2.1
  · rw [mainRun_stateDirErr _ w hist hdir, mainRun_stateDirErr _ w (some []) hdir]
    refine ⟨rfl, ?_, ?_⟩
    · simp [exitStatus, initState]
    · intro h; exact absurd h (by simp)

theorem C10_reset_as_empty_history_witness :
    (mainRun { continuOptions with reset := true } sampleWorld
        (some "d/a.mp4\nb.mp4\n".toList)).hist = some "d/a.mp4\n".toList ∧
    (mainRun { continuOptions with reset := true } sampleWorld
        (some "d/a.mp4\nb.mp4\n".toList)).hist =
      (mainRun { continuOptions with reset := false } sampleWorld (some [])).hist :=
  ⟨by decide,
   (C10_reset_as_empty_history continuOptions sampleWorld
      (some "d/a.mp4\nb.mp4\n".toList)).2.2 rfl rfl⟩

/-! ## Reading the history file -/

theorem fgetsPiece_append (k : Nat) : ∀ s : List Char,
    (fgetsPiece k s).1 ++ (fgetsPiece k s).2 = s := by
  induction k with
  | zero => intro s; simp [fgetsPiece]
  | succ k ih =>
    intro s
    cases s with
    | nil => simp [fgetsPiece]
    | cons c s =>
      simp only [fgetsPiece]
      split_ifs with h
      · simp
      · simp [ih s]

theorem fgetsPiece_rest_lt (k : Nat) (c : Char) (s : List Char) :
    (fgetsPiece (k + 1) (c :: s)).2.length < (c :: s).length := by
  have h := congrArg List.length (fgetsPiece_append (k + 1) (c :: s))
  have h1 : (fgetsPiece (k + 1) (c :: s)).1 ≠ [] := by
    simp only [fgetsPiece]
    split_ifs <;> simp
  have h2 : 0 < (fgetsPiece (k + 1) (c :: s)).1.length := List.length_pos.mpr h1
  rw [List.length_append] at h
  omega

theorem readExecuted_nil (k : Nat) (fl : FILELIST) : readExecuted k [] fl = fl := by
  cases k <;> simp [readExecuted, fgetsz, fgets]

/-- One iteration of the reading loop on a non-empty stream. -/
theorem readExecuted_succ (k : Nat) (c : Char) (s : List Char) (fl : FILELIST) :
    readExecuted (k + 1) (c :: s) fl =
      readExecuted k (fgetsPiece (LNSZ - 1 - 1) (c :: s)).2
        (if FilenameValid (fgetszTrim (cstr (fgetsPiece (LNSZ - 1 - 1) (c :: s)).1).length
            (cstr (fgetsPiece (LNSZ - 1 - 1) (c :: s)).1))
          then (FilelistAdd true (fgetszTrim (cstr (fgetsPiece (LNSZ - 1 - 1) (c :: s)).1).length
            (cstr (fgetsPiece (LNSZ - 1 - 1) (c :: s)).1)) fl).2
          else fl) := by
  simp [readExecuted, fgetsz, fgets]

/-- The reading loop reaches end of file within `stream.length` iterations:
more fuel does not change its result. -/
theorem readExecuted_fuel : ∀ (n k : Nat) (s : List Char) (fl : FILELIST),
    s.length ≤ n → n ≤ k → readExecuted k s fl = readExecuted n s fl := by
  intro n
  induction n with
  | zero =>
    intro k s fl hs _
    have : s = [] := List.length_eq_zero.mp (by omega)
    subst this
    rw [readExecuted_nil, readExecuted_nil]
  | succ n ih =>
    intro k s fl hs hk
    cases s with
    | nil => rw [readExecuted_nil, readExecuted_nil]
    | cons c s =>
      obtain ⟨k1, rfl⟩ : ∃ k1, k = k1 + 1 := ⟨k - 1, by omega⟩
      rw [readExecuted_succ, readExecuted_succ]
      apply ih
      · have := fgetsPiece_rest_lt (LNSZ - 1 - 1 - 1) c s
        have h498 : LNSZ - 1 - 1 - 1 + 1 = LNSZ - 1 - 1 := by decide
        rw [h498] at this
        simp only [List.length_cons] at this hs
        omega
      · omega

theorem readAll_nil (fl : FILELIST) : readAll [] fl = fl := rfl

theorem readAll_step (s : List Char) (fl : FILELIST) (hs : s ≠ []) :
    readAll s fl =
      readAll (fgetsPiece (LNSZ - 2) s).2
        (if FilenameValid (fgetszTrim (cstr (fgetsPiece (LNSZ - 2) s).1).length
            (cstr (fgetsPiece (LNSZ - 2) s).1))
          then (FilelistAdd true (fgetszTrim (cstr (fgetsPiece (LNSZ - 2) s).1).length
            (cstr (fgetsPiece (LNSZ - 2) s).1)) fl).2
          else fl) := by
  cases s with
  | nil => exact absurd rfl hs
  | cons c s =>
    unfold readAll
    have h1 : (c :: s).length = s.length + 1 := rfl
    rw [h1, readExecuted_succ]
    have h2 : LNSZ - 1 - 1 = LNSZ - 2 := rfl
    rw [h2]
    apply readExecuted_fuel
    · exact le_refl _
    · have := fgetsPiece_rest_lt (LNSZ - 3) c s
      have h3 : LNSZ - 3 + 1 = LNSZ - 2 := by decide
      rw [h3] at this
      simp only [List.length_cons] at this
      omega

theorem fgetsPiece_cons (k : Nat) (c : Char) (s : List Char) (h : c ≠ '\n') :
    fgetsPiece (k + 1) (c :: s) = (c :: (fgetsPiece k s).1, (fgetsPiece k s).2) := by
  simp [fgetsPiece, h]

theorem fgetsPiece_line (f rest : List Char) : ∀ k : Nat, '\n' ∉ f → f.length < k →
    fgetsPiece k (f ++ '\n' :: rest) = (f ++ ['\n'], rest) := by
  induction f with
  | nil =>
    intro k _ hk
    obtain ⟨k1, rfl⟩ : ∃ k1, k = k1 + 1 := ⟨k - 1, by simp at hk; omega⟩
    simp [fgetsPiece]
  | cons c f ih =>
    intro k h hk
    obtain ⟨k1, rfl⟩ : ∃ k1, k = k1 + 1 := ⟨k - 1, by simp at hk; omega⟩
    simp only [List.mem_cons, not_or] at h
    have hc : c ≠ '\n' := fun e => h.1 e.symm
    rw [List.cons_append, fgetsPiece_cons _ _ _ hc, ih k1 h.2 (by simpa using hk)]
    rfl

theorem fgetsPiece_full (f rest : List Char) : '\n' ∉ f →
    fgetsPiece f.length (f ++ rest) = (f, rest) := by
  induction f with
  | nil => intro _; simp [fgetsPiece]
  | cons c f ih =>
    intro h
    simp only [List.mem_cons, not_or] at h
    have hc : c ≠ '\n' := fun e => h.1 e.symm
    rw [List.cons_append, List.length_cons, fgetsPiece_cons _ _ _ hc, ih h.2]

theorem fgetsPiece_eof (f : List Char) : ∀ k : Nat, '\n' ∉ f → f.length ≤ k →
    fgetsPiece k f = (f, []) := by
  induction f with
  | nil => intro k _ _; cases k <;> simp [fgetsPiece]
  | cons c f ih =>
    intro k h hk
    obtain ⟨k1, rfl⟩ : ∃ k1, k = k1 + 1 := ⟨k - 1, by simp at hk; omega⟩
    simp only [List.mem_cons, not_or] at h
    have hc : c ≠ '\n' := fun e => h.1 e.symm
    rw [fgetsPiece_cons _ _ _ hc, ih k1 h.2 (by simpa using hk)]

theorem cstr_self (s : List Char) (h : '\x00' ∉ s) : cstr s = s := by
  unfold cstr
  rw [List.takeWhile_eq_self_iff]
  intro c hc
  simp only [ne_eq, decide_eq_true_eq]
  intro e
  exact h (e ▸ hc)

theorem fgetszTrim_keep (g : List Char) (c : Char) (h1 : c ≠ '\n') (h2 : c ≠ '\r') :
    fgetszTrim (g ++ [c]).length (g ++ [c]) = g ++ [c] := by
  have hl : (g ++ [c]).length = g.length + 1 := by simp
  rw [hl]
  simp only [fgetszTrim]
  have hg : (g ++ [c]).getD g.length ' ' = c := by simp [List.getD_eq_getElem?_getD]
  rw [hg, if_neg (by simp [h1, h2])]

theorem fgetszTrim_newline (f : List Char) :
    fgetszTrim (f ++ ['\n']).length (f ++ ['\n']) = fgetszTrim f.length f := by
  have hl : (f ++ ['\n']).length = f.length + 1 := by simp
  rw [hl]
  simp only [fgetszTrim]
  have hg : (f ++ ['\n']).getD f.length ' ' = '\n' := by simp [List.getD_eq_getElem?_getD]
  rw [hg, if_pos (Or.inl rfl)]
  simp

theorem tolower_eol (c : Char) (h : tolower c ∈ VALIDFILETYPES) : c ≠ '\n' ∧ c ≠ '\r' := by
  constructor
  · intro e; subst e; revert h; decide
  · intro e; subst e; revert h; decide

/-- A valid filename is not empty and does not end with a line terminator. -/
theorem FilenameValid_last (f : List Char) (h : FilenameValid f = true) :
    ∃ g c, f = g ++ [c] ∧ c ≠ '\n' ∧ c ≠ '\r' := by
  have hlen : 2 < f.length := by
    by_contra hc
    rw [FilenameValid_short f (by omega)] at h
    exact absurd h (by decide)
  rcases List.eq_nil_or_concat f with h0 | ⟨g, c, hgc⟩
  · subst h0; simp at hlen
  · rw [List.concat_eq_append] at hgc
    refine ⟨g, c, hgc, ?_⟩
    obtain ⟨_, h2, h3⟩ := (FilenameValid_iff f hlen).mp h
    rw [hgc, afterLastDot_snoc] at h2 h3
    by_cases hd : c = '.'
    · simp [hd] at h2
    · rw [if_neg hd] at h3
      apply tolower_eol
      apply h3.subset
      simp

theorem fgetszTrim_valid (f : List Char) (h : FilenameValid f = true) :
    fgetszTrim f.length f = f := by
  obtain ⟨g, c, rfl, h1, h2⟩ := FilenameValid_last f h
  exact fgetszTrim_keep g c h1 h2

theorem Recordable_ne_nil {f : FILENAME} (h : Recordable f) : f ≠ [] := by
  obtain ⟨g, c, hf, _⟩ := FilenameValid_last f h.1
  rw [hf]; simp

theorem readAll_blank (rest : List Char) (fl : FILELIST) :
    readAll ('\n' :: rest) fl = readAll rest fl := by
  rw [readAll_step _ _ (by simp)]
  have h1 : fgetsPiece (LNSZ - 2) ('\n' :: rest) = (['\n'], rest) := by
    simp [fgetsPiece, LNSZ]
  rw [h1]
  have h2 : FilenameValid (fgetszTrim (cstr ['\n']).length (cstr ['\n'])) = false := by decide
  simp only [h2, Bool.false_eq_true, ↓reduceIte]

/-- Reading back one recorded line: the name is added to the list. -/
theorem readAll_line (f rest : List Char) (fl : FILELIST) (h : Recordable f) :
    readAll (f ++ '\n' :: rest) fl = readAll rest (FilelistAdd true f fl).2 := by
  obtain ⟨hv, hnl, hnul, hlen⟩ := h
  rw [readAll_step _ _ (by simp)]
  by_cases hl : f.length < LNSZ - 2
  · rw [fgetsPiece_line f rest _ hnl hl]
    have hc : cstr (f ++ ['\n']) = f ++ ['\n'] := by
      apply cstr_self
      simp only [List.mem_append, List.mem_singleton, not_or]
      exact ⟨hnul, by decide⟩
    simp only [hc]
    rw [fgetszTrim_newline, fgetszTrim_valid f hv]
    simp only [hv, ↓reduceIte]
  · have hfull : f.length = LNSZ - 2 := by omega
    rw [← hfull, fgetsPiece_full f ('\n' :: rest) hnl]
    simp only [cstr_self f hnul]
    rw [fgetszTrim_valid f hv]
    simp only [hv, ↓reduceIte]
    exact readAll_blank rest _

/-- Reading back a last line that has no newline. -/
theorem readAll_last (f : List Char) (fl : FILELIST) (h : Recordable f) :
    readAll f fl = (FilelistAdd true f fl).2 := by
  have hne := Recordable_ne_nil h
  obtain ⟨hv, hnl, hnul, hlen⟩ := h
  rw [readAll_step _ _ hne, fgetsPiece_eof f _ hnl hlen]
  simp only [cstr_self f hnul]
  rw [fgetszTrim_valid f hv]
  simp only [hv, ↓reduceIte]
  exact readAll_nil _

theorem historyText_cons (p : FILENAME) (l : List FILENAME) :
    historyText (p :: l) = p ++ '\n' :: historyText l := by
  simp [historyText, NL]

theorem historyText_append (l1 l2 : List FILENAME) :
    historyText (l1 ++ l2) = historyText l1 ++ historyText l2 := by
  simp [historyText]

/-- Reading back a history file written by the program: every recorded name
is loaded, in order. -/
theorem readAll_historyText (l : List FILENAME) : ∀ (rest : List Char) (fl : FILELIST),
    fl.WF → (∀ p ∈ l, Recordable p) →
    ∃ fl1 : FILELIST, fl1.WF ∧ fl1.names = fl.names ++ l ∧ fl1.n = fl.n + l.length ∧
      readAll (historyText l ++ rest) fl = readAll rest fl1 := by
  induction l with
  | nil =>
    intro rest fl hwf _
    exact ⟨fl, hwf, by simp, by simp, by simp [historyText]⟩
  | cons p l ih =>
    intro rest fl hwf h
    obtain ⟨_, a2, a3, a4⟩ := FilelistAdd_ok p fl hwf
    obtain ⟨fl1, b1, b2, b3, b4⟩ := ih rest _ a2 (fun q hq => h q (List.mem_cons_of_mem _ hq))
    refine ⟨fl1, b1, ?_, ?_, ?_⟩
    · rw [b2, a3]; simp
    · rw [b3, a4]; simp; omega
    · have e : historyText (p :: l) ++ rest = p ++ '\n' :: (historyText l ++ rest) := by
        rw [historyText_cons]; simp
      rw [e, readAll_line p _ fl (h p (List.mem_cons_self _ _))]
      exact b4

theorem fgetsPiece_prefix (s : List Char) (q : List Char) : ∀ k : Nat,
    fgetsPiece k (q ++ '\n' :: s) =
      ((fgetsPiece k (q ++ ['\n'])).1, (fgetsPiece k (q ++ ['\n'])).2 ++ s) ∧
    EndsNL (fgetsPiece k (q ++ ['\n'])).2 := by
  induction q with
  | nil =>
    intro k
    cases k with
    | zero => exact ⟨by simp [fgetsPiece], Or.inr ⟨[], rfl⟩⟩
    | succ k => exact ⟨by simp [fgetsPiece], Or.inl (by simp [fgetsPiece])⟩
  | cons c q ih =>
    intro k
    cases k with
    | zero => exact ⟨by simp [fgetsPiece], Or.inr ⟨c :: q, rfl⟩⟩
    | succ k =>
      by_cases hc : c = '\n'
      · subst hc
        exact ⟨by simp [fgetsPiece], Or.inr ⟨q, by simp [fgetsPiece]⟩⟩
      · obtain ⟨h1, h2⟩ := ih k
        rw [List.cons_append, List.cons_append, fgetsPiece_cons _ _ _ hc,
          fgetsPiece_cons _ _ _ hc, h1]
        exact ⟨rfl, h2⟩

theorem fgetsPiece_rest_lt2 (s : List Char) (hs : s ≠ []) :
    (fgetsPiece (LNSZ - 2) s).2.length < s.length := by
  cases s with
  | nil => exact absurd rfl hs
  | cons c s => exact fgetsPiece_rest_lt (LNSZ - 3) c s

/-- Reading a text that starts with complete lines: the lines are read first,
whatever follows them. -/
theorem readAll_prefix (s : List Char) : ∀ (n : Nat) (pre : List Char) (fl : FILELIST),
    pre.length ≤ n → EndsNL pre → readAll (pre ++ s) fl = readAll s (readAll pre fl) := by
  intro n
  induction n with
  | zero =>
    intro pre fl hn _
    have : pre = [] := List.length_eq_zero.mp (by omega)
    subst this
    simp [readAll_nil]
  | succ n ih =>
    intro pre fl hn he
    rcases he with h0 | ⟨q, hq⟩
    · subst h0; simp [readAll_nil]
    · subst hq
      have hne : q ++ ['\n'] ≠ [] := by simp
      obtain ⟨h1, h2⟩ := fgetsPiece_prefix s q (LNSZ - 2)
      have hlt := fgetsPiece_rest_lt2 _ hne
      rw [readAll_step (q ++ ['\n'] ++ s) fl (by simp), readAll_step (q ++ ['\n']) fl hne]
      have e : q ++ ['\n'] ++ s = q ++ '\n' :: s := by simp
      rw [e, h1]
      exact ih _ _ (by omega) h2

theorem getD_last_names (fl : FILELIST) (l : List FILENAME) (f : FILENAME)
    (h : fl.names = l ++ [f]) (hn : fl.n = l.length + 1) :
    fl.array.getD (fl.n - 1) [] = f := by
  unfold FILELIST.names at h
  have h1 : (fl.array.take fl.n)[l.length]? = some f := by
    rw [h]; simp
  rw [List.getElem?_take] at h1
  rw [hn] at h1 ⊢
  simp only [Nat.lt_add_one, ↓reduceIte] at h1
  simp [List.getD_eq_getElem?_getD, h1]

/-! ## Repeat-last -/

theorem names_length (fl : FILELIST) (h : fl.WF) : fl.names.length = fl.n := by
  unfold FILELIST.names
  rw [List.length_take, h.2]
  exact Nat.min_eq_left h.1

theorem readAll_WF (s : List Char) (fl : FILELIST) (h : fl.WF) : (readAll s fl).WF :=
  readExecuted_WF _ _ _ h

/-- The run when the repeat-last shortcut fires. -/
theorem mainRun_repeat (o : Options) (w : World) (hist : Option (List Char))
    (hdir : w.stateDirErr = false) (hr : o.repeatLast = true)
    (hn : (loadedHistory o w hist).n ≠ 0) :
    mainRun o w hist =
      { iErr := ERROR_EQSELECT_QUIT, avail := FILELIST.zero,
        executed := loadedHistory o w hist, hist := histAfterLoad o w hist,
        trace := traceAfterLoad o ++
          [Event.play ((loadedHistory o w hist).array.getD
            ((loadedHistory o w hist).n - 1) [])] } := by
  have h1 : (initState w hist).iErr = 0 := by simp [initState, hdir]
  unfold mainRun
  simp only [h1, ↓reduceIte]
  rw [mainLoad_init]
  simp only [hdir, Bool.false_eq_true, ↓reduceIte]
  have h2 : (o.repeatLast && (loadedHistory o w hist).n != 0) = true := by
    simp [hr, hn]
  simp [mainRepeat, h2, mainFind, mainStartOver, mainExecute, ERROR_EQSELECT_QUIT]

/-- The history list loaded from a file whose last line names a recordable
file `f`. -/
theorem loadedHistory_last (o : Options) (w : World) (pre f tail : List Char)
    (hz : o.reset = false) (hread : w.canRead = true)
    (hpre : EndsNL pre) (hf : Recordable f) (htail : tail = [] ∨ tail = NL) :
    loadedHistory o w (some (pre ++ f ++ tail)) =
      (FilelistAdd true f (readAll pre FILELIST.zero)).2 := by
  rw [loadedHistory_some o w _ hz hread]
  change readAll (pre ++ f ++ tail) FILELIST.zero = _
  rw [List.append_assoc, readAll_prefix (f ++ tail) pre.length pre _ (le_refl _) hpre]
  rcases htail with h | h
  · subst h
    rw [List.append_nil]
    exact readAll_last f _ hf
  · subst h
    have e : f ++ NL = f ++ '\n' :: [] := rfl
    rw [e, readAll_line f [] _ hf]
    rfl

/-- C6 (failing input): `longPath` is a valid path of 499 characters without
a newline, the longest that the walk accepts (line 312).  The normal run over
its tree with no history file walks, records the path and launches the player
on it, leaving the history file `longPath ++ "\n"` (lines 512-522).  The run
with `-r` on that history file reads the line with `fgets(szLine, LNSZ-1, ...)`
(line 149), which returns its first 498 characters: the player is launched on
these 498 characters, a name that differs from `longPath`, although the last
line of the history file names the valid media file `longPath`.  No walk, no
reset and no append take place, the exit status is zero and the history file
is unchanged. -/
theorem C6_repeat_last_cut_at_499 :
    FilenameValid longPath = true ∧ longPath.length = LNSZ - 1 ∧ '\n' ∉ longPath ∧
    (mainRun normalOptions longPathWorld none).trace =
      [Event.walk 0 1, Event.append longPath, Event.play longPath] ∧
    (mainRun normalOptions longPathWorld none).hist = some (longPath ++ NL) ∧
    (mainRun repeatOptions longPathWorld (some (longPath ++ NL))).trace =
      [Event.play (longPath.take (LNSZ - 2))] ∧
    (mainRun repeatOptions longPathWorld (some (longPath ++ NL))).commands =
      [playerCommand (longPath.take (LNSZ - 2))] ∧
    playerCommand (longPath.take (LNSZ - 2)) ≠ playerCommand longPath ∧
    exitStatus (mainRun repeatOptions longPathWorld (some (longPath ++ NL))) = 0 ∧
    (mainRun repeatOptions longPathWorld (some (longPath ++ NL))).hist =
      some (longPath ++ NL) ∧
    ¬ RepeatsLast repeatOptions longPathWorld (longPath ++ NL) longPath := by
  set_option maxRecDepth 100000 in decide

/-- Repeat mode on a last line that one read returns whole: with the
repeat-last flag set and the reset flag clear, on a readable history file
whose last line (with or without its newline) is a valid filename `f` of at
most 498 characters, the run launches the player on exactly `f` and does
nothing else (no walk, no reset, no append), exits with status zero and leaves
the history file unchanged, whatever the continuous and leaf flags, the tree
and the random value are. -/
theorem repeat_last_whole_line (o : Options) (w : World) (pre f tail : List Char)
    (hr : o.repeatLast = true) (hz : o.reset = false)
    (hdir : w.stateDirErr = false) (hread : w.canRead = true)
    (hpre : EndsNL pre) (hf : Recordable f) (htail : tail = [] ∨ tail = NL) :
    RepeatsLast o w (pre ++ f ++ tail) f := by
  have hload := loadedHistory_last o w pre f tail hz hread hpre hf htail
  have hwf : (readAll pre FILELIST.zero).WF := readAll_WF _ _ WF_zero
  obtain ⟨_, a2, a3, a4⟩ := FilelistAdd_ok f _ hwf
  have hn : (loadedHistory o w (some (pre ++ f ++ tail))).n ≠ 0 := by
    rw [hload, a4]; simp
  have hlast : (loadedHistory o w (some (pre ++ f ++ tail))).array.getD
      ((loadedHistory o w (some (pre ++ f ++ tail))).n - 1) [] = f := by
    rw [hload]
    exact getD_last_names _ _ f a3 (by rw [a4, names_length _ hwf])
  have hrun := mainRun_repeat o w (some (pre ++ f ++ tail)) hdir hr hn
  rw [hlast] at hrun
  unfold RepeatsLast
  rw [hrun]
  simp [traceAfterLoad, hz, histAfterLoad, exitStatus, State.commands]

theorem repeat_last_whole_line_example :
    EndsNL "bar.avi\n".toList ∧ Recordable "foo.mp4".toList ∧
    RepeatsLast { continu := true, leaf := true, repeatLast := true, reset := false }
      sampleWorld ("bar.avi\n".toList ++ "foo.mp4".toList ++ NL) "foo.mp4".toList :=
  ⟨Or.inr ⟨"bar.avi".toList, rfl⟩, by decide,
   repeat_last_whole_line _ sampleWorld "bar.avi\n".toList "foo.mp4".toList NL rfl rfl rfl rfl
    (Or.inr ⟨"bar.avi".toList, rfl⟩) (by decide) (Or.inr rfl)⟩

/-! ## The walk against a history -/

theorem seqWalk_filter (q : FILENAME → Bool) (r1 r2 : Nat × List FILENAME) :
    seqWalk (r1.1, r1.2.filter q) (r2.1, r2.2.filter q) =
      ((seqWalk r1 r2).1, (seqWalk r1 r2).2.filter q) := by
  unfold seqWalk
  split_ifs <;> simp

/-- The full walk against a history is the full walk against the empty
history, with the executed names filtered out. -/
theorem walkList_filter (l : Bool) (ex : FILENAME → Bool) (t : Listing) :
    ∀ dir : List Char,
      walkList false l ex dir t =
        ((walkList false l (fun _ => false) dir t).1,
          (walkList false l (fun _ => false) dir t).2.filter (fun p => !ex p)) := by
  induction t with
  | nil => intro dir; simp [walkList]
  | cons e ck ok sub rest ihs ihr =>
    intro dir
    rcases walkList_cases false l (fun _ => false) dir e ck ok sub rest with
      ⟨_, hx, _⟩ | ⟨_, _, hc, _⟩ | ⟨hf, _, _, hw⟩ | ⟨hf, he, hok, hw⟩ |
      ⟨hf, he, hok, hw⟩ | ⟨hf, he, hw⟩
    · exact absurd hx (by simp)
    · exact absurd hc (by decide)
    · rw [hw]
      by_cases hx : ex (entryPath dir e.d_name) = true
      · rw [walkList_file_old _ _ _ _ hf hx, ihr dir]
        simp [hx]
      · have hx2 : ex (entryPath dir e.d_name) = false := by simpa using hx
        rw [walkList_file_new _ _ _ _ hf hx2, ihr dir]
        simp [hx2]
    · subst hok
      rw [hw, walkList_dir _ _ hf he, ihs, ihr, seqWalk_filter]
    · subst hok
      rw [hw, walkList_closed _ _ hf he]
      simp
    · rw [hw, walkList_skip _ _ _ hf he, ihr dir]

theorem FilelistExist_zero_fun :
    (fun p => FilelistExist p FILELIST.zero) = (fun _ => false) := by
  funext p
  exact FilelistExist_n_zero p _ rfl

theorem FilelistExist_cleared_fun (fl : FILELIST) :
    (fun p => FilelistExist p { fl with n := 0 }) = (fun _ => false) := by
  funext p
  exact FilelistExist_n_zero p _ rfl

theorem quit_zero_iff (e : Nat) (hq : e ≠ ERROR_EQSELECT_QUIT) :
    (if e = ERROR_EQSELECT_QUIT then 0 else e) = 0 ↔ e = 0 := by
  rw [if_neg hq]

/-- When the root can be opened, the eligible files of a tree are the list of
the full walk against no history, which succeeds iff the root walk does. -/
theorem eligible_walkList (leaf : Bool) (w : World) (h : w.rootOpen = true) :
    eligible leaf w = (walkList false leaf (fun _ => false) [] w.root).2 ∧
    (walkOk leaf w ↔ (walkList false leaf (fun _ => false) [] w.root).1 = 0) := by
  obtain ⟨r1, _, r3, _⟩ := ParseCurrentDirectory_walkList false leaf FILELIST.zero []
    w.root FILELIST.zero WF_zero
  rw [FilelistExist_zero_fun] at r1 r3
  unfold eligible walkOk
  rw [h, r3, r1, names_zero, List.nil_append]
  exact ⟨rfl, quit_zero_iff _ (walkList_full_ne_quit _ _ _ _)⟩

theorem eligible_closed (leaf : Bool) (w : World) (h : w.rootOpen = false) :
    eligible leaf w = [] := by
  unfold eligible
  rw [h, ParseCurrentDirectory_closed]
  exact names_zero

/-- The walk of a run (continuous or not) against a history list `hl`, seen
from the eligible files `x :: xs` that are not in `hl`: it succeeds and its
candidate list starts with `x`; without continuous mode the list is exactly
`x :: xs`. -/
theorem walk_against_history (c leaf : Bool) (w : World) (executed avail : FILELIST)
    (hwf : executed.WF) (ha : avail.WF) (hok : walkOk leaf w)
    (x : FILENAME) (xs : List FILENAME)
    (hx : (eligible leaf w).filter (fun p => decide (p ∉ executed.names)) = x :: xs) :
    ∃ a ys, ParseCurrentDirectory c leaf executed [] w.rootOpen w.root avail = (0, a) ∧
      a.WF ∧ a.names = avail.names ++ x :: ys ∧ a.n = avail.n + (ys.length + 1) ∧
      (c = false → ys = xs) := by
  have hopen : w.rootOpen = true := by
    by_contra hno
    rw [eligible_closed leaf w (by simpa using hno)] at hx
    simp at hx
  obtain ⟨e1, e2⟩ := eligible_walkList leaf w hopen
  rw [e1] at hx
  have hz := e2.mp hok
  have hfun : (fun p => !FilelistExist p executed) = (fun p => decide (p ∉ executed.names)) := by
    funext p
    by_cases hp : p ∈ executed.names
    · simp [hp, (FilelistExist_iff p executed hwf).mpr hp]
    · have : FilelistExist p executed = false := by
        by_contra hc
        exact hp ((FilelistExist_iff p executed hwf).mp (by simpa using hc))
      simp [hp, this]
  have hfull := walkList_filter leaf (fun p => FilelistExist p executed) w.root []
  simp only [hfun, hx, hz] at hfull
  obtain ⟨r1, r2, r3, r4⟩ := ParseCurrentDirectory_walkList c leaf executed [] w.root avail ha
  rw [hopen]
  cases c with
  | false =>
    rw [hfull] at r1 r3 r4
    refine ⟨_, xs, Prod.ext ?_ rfl, r2, r3, by simpa using r4, fun _ => rfl⟩
    rw [r1]; rfl
  | true =>
    obtain ⟨ys, hys⟩ := (walkList_continu_head leaf _ w.root []).2 x xs (by rw [hfull])
    have hcok := walkList_continu_ok leaf (fun p => FilelistExist p executed) w.root []
      (by rw [hfull])
    rw [hys] at r3 r4
    refine ⟨_, ys, Prod.ext ?_ rfl, r2, r3, by simpa using r4, fun h => absurd h (by decide)⟩
    rw [r1]
    rcases hcok with h | h
    · rw [h]; rfl
    · rw [if_pos h]

/-- The walk of a run against a history list that holds every eligible file:
it succeeds and finds no candidate. -/
theorem walk_exhausted (c leaf : Bool) (w : World) (executed avail : FILELIST)
    (hwf : executed.WF) (ha : avail.WF) (hok : walkOk leaf w) (hopen : w.rootOpen = true)
    (hx : ∀ p ∈ eligible leaf w, p ∈ executed.names) :
    ∃ a, ParseCurrentDirectory c leaf executed [] w.rootOpen w.root avail = (0, a) ∧
      a.WF ∧ a.names = avail.names ∧ a.n = avail.n := by
  obtain ⟨e1, e2⟩ := eligible_walkList leaf w hopen
  rw [e1] at hx
  have hz := e2.mp hok
  have hfull := walkList_filter leaf (fun p => FilelistExist p executed) w.root []
  have hnil : (walkList false leaf (fun _ => false) [] w.root).2.filter
      (fun p => !FilelistExist p executed) = [] := by
    rw [List.filter_eq_nil_iff]
    intro p hp
    simp [(FilelistExist_iff p executed hwf).mpr (hx p hp)]
  rw [hnil, hz] at hfull
  have hall : walkList c leaf (fun p => FilelistExist p executed) [] w.root = (0, []) := by
    cases c with
    | false => exact hfull
    | true =>
      rw [(walkList_continu_head leaf _ w.root []).1 (by rw [hfull])]
      exact hfull
  obtain ⟨r1, r2, r3, r4⟩ := ParseCurrentDirectory_walkList c leaf executed [] w.root avail ha
  rw [hall] at r1 r3 r4
  rw [hopen]
  refine ⟨_, Prod.ext ?_ rfl, r2, by simpa using r3, by simpa using r4⟩
  rw [r1]; rfl

/-! ## Exhaustion -/

theorem selectIndex_lt (o : Options) (w : World) (n : Nat) (h : n ≠ 0) :
    selectIndex o w n < n := by
  unfold selectIndex
  split_ifs
  · omega
  · exact Nat.mod_lt _ (by omega)

theorem getD_mem_names (fl : FILELIST) (i : Nat) (hwf : fl.WF) (hi : i < fl.n) :
    fl.array.getD i [] ∈ fl.names := by
  have hlen : i < fl.array.length := by rw [hwf.2]; exact lt_of_lt_of_le hi hwf.1
  unfold FILELIST.names
  rw [List.getD_eq_getElem?_getD, List.getElem?_eq_getElem hlen]
  simp only [Option.getD_some]
  rw [List.mem_take_iff_getElem]
  exact ⟨i, by simp [hi, hlen], rfl⟩

/-- The end of a run whose first walk found nothing and whose second walk,
after the reset, left the non-empty candidate list `a2`. -/
theorem mainRun_startover (o : Options) (w : World) (hist : Option (List Char))
    (hdir : w.stateDirErr = false) (hwrite : w.canWrite = true)
    (hrep : ¬ (o.repeatLast = true ∧ (loadedHistory o w hist).n ≠ 0))
    (a1 a2 : FILELIST)
    (hw1 : ParseCurrentDirectory o.continu o.leaf (loadedHistory o w hist) [] w.rootOpen
      w.root FILELIST.zero = (0, a1))
    (hn1 : a1.n = 0)
    (hw2 : ParseCurrentDirectory o.continu o.leaf { loadedHistory o w hist with n := 0 } []
      w.rootOpen w.root a1 = (0, a2))
    (hn2 : a2.n ≠ 0) :
    mainRun o w hist =
      { iErr := 0, avail := a2, executed := { loadedHistory o w hist with n := 0 },
        hist := some (a2.array.getD (selectIndex o w a2.n) [] ++ NL),
        trace := traceAfterLoad o ++ [Event.walk 0 0, Event.reset, Event.walk 0 a2.n,
          Event.append (a2.array.getD (selectIndex o w a2.n) []),
          Event.play (a2.array.getD (selectIndex o w a2.n) [])] } := by
  rw [mainRun_walk o w hist hdir hrep]
  simp only [mainWalk, hw1, mainStartOver, hn1, and_self, ↓reduceIte, hw2, mainExecute, hn2,
    ne_eq, not_false_eq_true, hwrite, ResetExecutedFilenames, Option.getD_some,
    List.nil_append, List.append_assoc, List.cons_append]

/-- C5 (counterexample): the only eligible files are `a\nb.mp4` and `c.mp4`
and the history file lists both, one per line; the loader reads the lines
`a`, `b.mp4` and `c.mp4`, so the walk still finds `a\nb.mp4`, no exhaustion is
detected and the history is appended to instead of reset. -/
theorem C5_newline_counterexample :
    eligible false newlineWorld = ["a\nb.mp4".toList, "c.mp4".toList] ∧
    walkOk false newlineWorld ∧
    (mainRun normalOptions newlineWorld
        (some (historyText ["a\nb.mp4".toList, "c.mp4".toList]))).trace =
      [Event.walk 0 1, Event.append "a\nb.mp4".toList, Event.play "a\nb.mp4".toList] ∧
    ¬ ExhaustionRoundTrip normalOptions newlineWorld ["a\nb.mp4".toList, "c.mp4".toList] := by
  refine ⟨by decide, by decide, by decide, ?_⟩
  rintro ⟨f, n, _, ht, _⟩
  have h : (mainRun normalOptions newlineWorld
        (some (historyText ["a\nb.mp4".toList, "c.mp4".toList]))).trace =
      [Event.walk 0 1, Event.append "a\nb.mp4".toList, Event.play "a\nb.mp4".toList] := by
    decide
  rw [h] at ht
  simp at ht

/-- The run on a history file that lists recordable names, among them every
eligible file: the state at the end, with the candidate list `a2` of the
second walk. -/
theorem mainRun_exhausted (o : Options) (w : World) (l : List FILENAME)
    (hr : o.repeatLast = false) (hz : o.reset = false)
    (hdir : w.stateDirErr = false) (hread : w.canRead = true) (hwrite : w.canWrite = true)
    (hok : walkOk o.leaf w) (x : FILENAME) (xs : List FILENAME)
    (hx : eligible o.leaf w = x :: xs)
    (hl : ∀ p ∈ eligible o.leaf w, p ∈ l) (hrec : ∀ p ∈ l, Recordable p) :
    ∃ (a2 : FILELIST) (ys : List FILENAME), a2.WF ∧ a2.names = x :: ys ∧ a2.n ≠ 0 ∧
      (o.continu = false → ys = xs) ∧
      (mainRun o w (some (historyText l))).trace =
        [Event.walk 0 0, Event.reset, Event.walk 0 a2.n,
          Event.append (a2.array.getD (selectIndex o w a2.n) []),
          Event.play (a2.array.getD (selectIndex o w a2.n) [])] ∧
      (mainRun o w (some (historyText l))).hist =
        some (historyText [a2.array.getD (selectIndex o w a2.n) []]) ∧
      (mainRun o w (some (historyText l))).iErr = 0 := by
  have hopen : w.rootOpen = true := by
    by_contra hno
    rw [eligible_closed o.leaf w (by simpa using hno)] at hx
    simp at hx
  have hrep : ¬ (o.repeatLast = true ∧ (loadedHistory o w (some (historyText l))).n ≠ 0) := by
    simp [hr]
  obtain ⟨fl1, b1, b2, _, b4⟩ := readAll_historyText l [] FILELIST.zero WF_zero hrec
  have hload : loadedHistory o w (some (historyText l)) = fl1 := by
    rw [loadedHistory_some o w _ hz hread]
    rw [List.append_nil, readAll_nil] at b4
    exact b4
  rw [names_zero, List.nil_append] at b2
  obtain ⟨a1, hw1, c2, c3, c4⟩ := walk_exhausted o.continu o.leaf w fl1 FILELIST.zero b1 WF_zero
    hok hopen (by rw [b2]; exact hl)
  have hcl : ({ fl1 with n := 0 } : FILELIST).WF := ⟨Nat.zero_le _, b1.2⟩
  have hcn : ({ fl1 with n := 0 } : FILELIST).names = [] := by simp [FILELIST.names]
  obtain ⟨a2, ys, hw2, d2, d3, d4, d5⟩ := walk_against_history o.continu o.leaf w
    { fl1 with n := 0 } a1 hcl c2 hok x xs (by rw [hcn, hx]; simp)
  rw [c3, names_zero, List.nil_append] at d3
  have hn2 : a2.n ≠ 0 := by rw [d4]; omega
  have hrun := mainRun_startover o w (some (historyText l)) hdir hwrite hrep a1 a2
    (by rw [hload]; exact hw1) (by rw [c4]; rfl) (by rw [hload]; exact hw2) hn2
  refine ⟨a2, ys, d2, d3, hn2, d5, ?_, ?_, ?_⟩
  · rw [hrun]; simp [traceAfterLoad, hz]
  · rw [hrun]; simp [historyText]
  · rw [hrun]

/-- C5 (amended): in a normal run (no repeat-last, no reset flag) over a tree
that has an eligible file and whose walk meets no directory error, started on
a readable and writable history file that lists, one per line, names that are
valid, free of newlines and at most 498 characters long, among them every
eligible file of the tree: the first walk finds no candidate, the history is
reset, the second walk finds candidates, one eligible file is recorded and
played, the run succeeds, and the history file is left with that one line. -/
theorem C5_exhaustion_round_trip (o : Options) (w : World) (l : List FILENAME)
    (hr : o.repeatLast = false) (hz : o.reset = false)
    (hdir : w.stateDirErr = false) (hread : w.canRead = true) (hwrite : w.canWrite = true)
    (hok : walkOk o.leaf w) (hne : eligible o.leaf w ≠ [])
    (hl : ∀ p ∈ eligible o.leaf w, p ∈ l) (hrec : ∀ p ∈ l, Recordable p) :
    ExhaustionRoundTrip o w l := by
  obtain ⟨x, xs, hx⟩ := List.exists_cons_of_ne_nil hne
  obtain ⟨a2, ys, d2, d3, hn2, d5, ht, hh, he⟩ :=
    mainRun_exhausted o w l hr hz hdir hread hwrite hok x xs hx hl hrec
  have hmem : a2.array.getD (selectIndex o w a2.n) [] ∈ eligible o.leaf w := by
    cases hc : o.continu with
    | true =>
      rw [selectIndex_continu o w _ hc, names_head_getD a2 x ys d3, hx]
      exact List.mem_cons_self _ _
    | false =>
      have := getD_mem_names a2 _ d2 (selectIndex_lt o w a2.n hn2)
      rw [d3, d5 hc, ← hx] at this
      exact this
  refine ⟨_, a2.n, hmem, ht, hh, ?_⟩
  simp [exitStatus, he]

theorem C5_exhaustion_round_trip_witness :
    walkOk false sampleWorld ∧
    eligible false sampleWorld = ["d/a.mp4".toList, "b.mp4".toList] ∧
    ExhaustionRoundTrip normalOptions sampleWorld
      ["b.mp4".toList, "d/a.mp4".toList, "old.avi".toList] :=
  ⟨by decide, by decide,
   C5_exhaustion_round_trip normalOptions sampleWorld
    ["b.mp4".toList, "d/a.mp4".toList, "old.avi".toList] rfl rfl rfl rfl rfl
    (by decide) (by decide) (by decide) (by decide)⟩

/-! ## Cycle-freedom -/

theorem loadedHistory_getD (o : Options) (w : World) (hist : Option (List Char))
    (hz : o.reset = false) (hread : w.canRead = true) :
    loadedHistory o w hist = readAll (hist.getD []) FILELIST.zero := by
  cases hist with
  | none => rw [loadedHistory_none]; rfl
  | some c => rw [loadedHistory_some o w c hz hread]; rfl

theorem nodup_filter_append (l1 l2 : List FILENAME) (h : (l1 ++ l2).Nodup) :
    (l1 ++ l2).filter (fun p => decide (p ∉ l1)) = l2 := by
  rw [List.nodup_append] at h
  obtain ⟨_, _, hdis⟩ := h
  rw [List.filter_append]
  have h1 : l1.filter (fun p => decide (p ∉ l1)) = [] := by
    rw [List.filter_eq_nil_iff]
    intro p hp
    simp [hp]
  have h2 : l2.filter (fun p => decide (p ∉ l1)) = l2 := by
    rw [List.filter_eq_self]
    intro p hp
    simp only [decide_eq_true_eq]
    intro hq
    exact hdis hq hp
  rw [h1, h2, List.nil_append]

theorem nodup_filter_take (l : List FILENAME) (k : Nat) (h : l.Nodup) :
    l.filter (fun p => decide (p ∉ l.take k)) = l.drop k := by
  have := nodup_filter_append (l.take k) (l.drop k) (by rwa [List.take_append_drop])
  rwa [List.take_append_drop] at this

theorem drop_eq_getD_cons (l : List FILENAME) (k : Nat) (h : k < l.length) :
    l.drop k = l.getD k [] :: l.drop (k + 1) := by
  rw [List.drop_eq_getElem_cons h]
  simp [List.getD_eq_getElem?_getD, List.getElem?_eq_getElem h]

theorem take_succ_getD (l : List FILENAME) (k : Nat) (h : k < l.length) :
    l.take (k + 1) = l.take k ++ [l.getD k []] := by
  rw [List.take_succ]
  simp [List.getD_eq_getElem?_getD, List.getElem?_eq_getElem h]

/-- One run of a cycle in continuous mode: started on the history of the first
`k` eligible files, it plays the next one and records it. -/
theorem continu_run_step (o : Options) (w : World) (hist : Option (List Char)) (k : Nat)
    (hc : o.continu = true) (hr : o.repeatLast = false) (hz : o.reset = false)
    (hdir : w.stateDirErr = false) (hread : w.canRead = true) (hwrite : w.canWrite = true)
    (hok : walkOk o.leaf w) (hnd : (eligible o.leaf w).Nodup)
    (hrec : ∀ p ∈ eligible o.leaf w, Recordable p)
    (hk : k < (eligible o.leaf w).length)
    (hh : hist.getD [] = historyText ((eligible o.leaf w).take k)) :
    (mainRun o w hist).played = some ((eligible o.leaf w).getD k []) ∧
    (mainRun o w hist).hist = some (historyText ((eligible o.leaf w).take (k + 1))) := by
  have hrep : ¬ (o.repeatLast = true ∧ (loadedHistory o w hist).n ≠ 0) := by simp [hr]
  obtain ⟨fl1, b1, b2, _, b4⟩ := readAll_historyText ((eligible o.leaf w).take k) []
    FILELIST.zero WF_zero (fun p hp => hrec p (List.mem_of_mem_take hp))
  have hload : loadedHistory o w hist = fl1 := by
    rw [loadedHistory_getD o w hist hz hread, hh]
    rw [List.append_nil, readAll_nil] at b4
    exact b4
  rw [names_zero, List.nil_append] at b2
  obtain ⟨a, ys, hw, d2, d3, d4, _⟩ := walk_against_history o.continu o.leaf w fl1
    FILELIST.zero b1 WF_zero hok ((eligible o.leaf w).getD k [])
    ((eligible o.leaf w).drop (k + 1))
    (by rw [b2, nodup_filter_take _ _ hnd, drop_eq_getD_cons _ _ hk])
  rw [names_zero, List.nil_append] at d3
  have hn : a.n ≠ 0 := by rw [d4]; simp [FILELIST.zero]
  have hrun := mainRun_select o w hist hdir hrep a (by rw [hload]; exact hw) hn
  rw [hwrite] at hrun
  simp only [↓reduceIte] at hrun
  rw [selectIndex_continu o w _ hc, names_head_getD a _ ys d3] at hrun
  constructor
  · apply played_select o _ a.n
    rw [hrun]
    exact Or.inl rfl
  · rw [hrun]
    simp only [histAfterLoad, hz, Bool.false_eq_true, ↓reduceIte, hh]
    rw [take_succ_getD _ _ hk, historyText_append]
    simp [historyText]

theorem histAfterRuns_cycle (o : Options) (w : World) (hist : Option (List Char))
    (hc : o.continu = true) (hr : o.repeatLast = false) (hz : o.reset = false)
    (hdir : w.stateDirErr = false) (hread : w.canRead = true) (hwrite : w.canWrite = true)
    (hok : walkOk o.leaf w) (hnd : (eligible o.leaf w).Nodup)
    (hrec : ∀ p ∈ eligible o.leaf w, Recordable p)
    (h0 : hist = none ∨ hist = some []) :
    ∀ k, k ≤ (eligible o.leaf w).length →
      (histAfterRuns o w hist k).getD [] = historyText ((eligible o.leaf w).take k) ∧
      (0 < k → histAfterRuns o w hist k = some (historyText ((eligible o.leaf w).take k))) := by
  intro k
  induction k with
  | zero =>
    intro _
    refine ⟨?_, fun h => absurd h (by omega)⟩
    rcases h0 with h | h <;> subst h <;> simp [histAfterRuns, historyText]
  | succ k ih =>
    intro hk
    obtain ⟨i1, _⟩ := ih (by omega)
    have := (continu_run_step o w _ k hc hr hz hdir hread hwrite hok hnd hrec (by omega) i1).2
    simp only [histAfterRuns]
    rw [this]
    exact ⟨rfl, fun _ => rfl⟩

theorem nodup_getD_ne (l : List FILENAME) (h : l.Nodup) (j k : Nat) (hjk : j < k)
    (hk : k < l.length) : l.getD j [] ≠ l.getD k [] := by
  have hj : j < l.length := by omega
  rw [List.getD_eq_getElem?_getD, List.getD_eq_getElem?_getD, List.getElem?_eq_getElem hj,
    List.getElem?_eq_getElem hk]
  simp only [Option.getD_some]
  intro e
  have := (List.Nodup.getElem_inj_iff h).mp e
  omega

/-- C1 (counterexample): over the tree that holds `a\nb.mp4` and `c.mp4`, two
distinct eligible files, the first two runs in continuous mode both play
`a\nb.mp4`: the first run records it as the two lines `a` and `b.mp4`, which
the second run does not recognise. -/
theorem C1_newline_counterexample :
    eligible false newlineWorld = ["a\nb.mp4".toList, "c.mp4".toList] ∧
    (eligible false newlineWorld).Nodup ∧
    (nthRun continuOptions newlineWorld none 0).played = some "a\nb.mp4".toList ∧
    (nthRun continuOptions newlineWorld none 1).played = some "a\nb.mp4".toList ∧
    ¬ CycleFree continuOptions newlineWorld none := by
  have h0 : (nthRun continuOptions newlineWorld none 0).played = some "a\nb.mp4".toList := by
    decide
  have h1 : (nthRun continuOptions newlineWorld none 1).played = some "a\nb.mp4".toList := by
    decide
  refine ⟨by decide, by decide, h0, h1, ?_⟩
  rintro ⟨hc, _, _⟩
  obtain ⟨f, _, hf, hne⟩ := hc 1 (by decide)
  have hne0 := hne 0 (by decide)
  rw [h1] at hf
  rw [h0, hf] at hne0
  exact hne0 rfl

/-- C1 (amended): in continuous mode without the repeat-last and reset flags,
over a fixed tree whose walk meets no directory error and whose `N >= 1`
eligible files have pairwise distinct paths that are free of newlines and at
most 498 characters long, with a history file that can be read and written
and is empty at the start: run `k + 1` (for `k < N`) plays an eligible file
that no earlier run played, after `N` runs the history file lists every
eligible file exactly once, and run `N + 1` finds no candidate on its first
walk, resets the history, walks again and plays a file, leaving a history of
exactly one line. -/
theorem C1_cycle_free (o : Options) (w : World) (hist : Option (List Char))
    (hc : o.continu = true) (hr : o.repeatLast = false) (hz : o.reset = false)
    (hdir : w.stateDirErr = false) (hread : w.canRead = true) (hwrite : w.canWrite = true)
    (hok : walkOk o.leaf w) (hne : eligible o.leaf w ≠ [])
    (hnd : (eligible o.leaf w).Nodup)
    (hrec : ∀ p ∈ eligible o.leaf w, Recordable p)
    (h0 : hist = none ∨ hist = some []) :
    CycleFree o w hist := by
  have inv := histAfterRuns_cycle o w hist hc hr hz hdir hread hwrite hok hnd hrec h0
  have hplay : ∀ k, k < (eligible o.leaf w).length →
      (nthRun o w hist k).played = some ((eligible o.leaf w).getD k []) := by
    intro k hk
    exact (continu_run_step o w _ k hc hr hz hdir hread hwrite hok hnd hrec hk
      (inv k (by omega)).1).1
  have hpos : 0 < (eligible o.leaf w).length := List.length_pos.mpr hne
  have hfull : histAfterRuns o w hist (eligible o.leaf w).length =
      some (historyText (eligible o.leaf w)) := by
    rw [(inv _ (le_refl _)).2 hpos, List.take_length]
  refine ⟨?_, ⟨eligible o.leaf w, List.Perm.refl _, hfull⟩, ?_⟩
  · intro k hk
    refine ⟨(eligible o.leaf w).getD k [], ?_, hplay k hk, ?_⟩
    · rw [List.getD_eq_getElem?_getD, List.getElem?_eq_getElem hk]
      exact List.getElem_mem _
    · intro j hj
      rw [hplay j (by omega)]
      intro e
      exact nodup_getD_ne _ hnd j k hj hk (Option.some.inj e)
  · obtain ⟨x, xs, hx⟩ := List.exists_cons_of_ne_nil hne
    obtain ⟨a2, ys, _, _, _, _, ht, hh, _⟩ :=
      mainRun_exhausted o w (eligible o.leaf w) hr hz hdir hread hwrite hok x xs hx
        (fun p hp => hp) hrec
    unfold nthRun
    rw [hfull]
    exact ⟨_, a2.n, ht, hh⟩

theorem C1_cycle_free_witness :
    walkOk false sampleWorld ∧
    eligible false sampleWorld = ["d/a.mp4".toList, "b.mp4".toList] ∧
    CycleFree continuOptions sampleWorld (some []) :=
  ⟨by decide, by decide,
   C1_cycle_free continuOptions sampleWorld (some []) rfl rfl rfl rfl rfl rfl
    (by decide) (by decide) (by decide) (by decide) (Or.inr rfl)⟩

/-! ## What a run can play -/

theorem ParseCurrentDirectory_WF (c l : Bool) (executed : FILELIST) (dir : List Char)
    (ok : Bool) (t : Listing) (avail : FILELIST) (h : avail.WF) :
    (ParseCurrentDirectory c l executed dir ok t avail).2.WF := by
  cases ok with
  | false => rw [ParseCurrentDirectory_closed]; exact h
  | true => exact (ParseCurrentDirectory_walkList c l executed dir t avail h).2.1

theorem played_of_trace (s : State) (pre : List Event) (f : FILENAME)
    (hpre : ∀ e ∈ pre, e.file = none)
    (h : s.trace = pre ++ [Event.append f, Event.play f] ∨ s.trace = pre ++ [Event.play f]) :
    s.played = some f := by
  unfold State.played
  rcases h with h | h <;> rw [h, List.findSome?_append] <;>
    simp [List.findSome?_eq_none_iff.mpr hpre, List.findSome?, Event.file]

theorem played_none_of_trace (s : State) (h : ∀ e ∈ s.trace, e.file = none) :
    s.played = none := by
  unfold State.played
  exact List.findSome?_eq_none_iff.mpr h

theorem traceAfterLoad_file (o : Options) : ∀ e ∈ traceAfterLoad o, e.file = none := by
  intro e he
  unfold traceAfterLoad at he
  split_ifs at he
  · simp only [List.mem_singleton] at he; subst he; rfl
  · simp at he

/-- A file played by a run in which the repeat-last shortcut does not fire is
an element of the candidate list left by a call `ParseCurrentDirectory("")`
that started from an empty candidate list. -/
theorem mainRun_played (o : Options) (w : World) (hist : Option (List Char))
    (hrep : ¬ (o.repeatLast = true ∧ (loadedHistory o w hist).n ≠ 0))
    (f : FILENAME) (hf : (mainRun o w hist).played = some f) :
    ∃ executed avail : FILELIST, avail.WF ∧ avail.names = [] ∧
      f ∈ (ParseCurrentDirectory o.continu o.leaf executed [] w.rootOpen w.root
        avail).2.names := by
  cases hdir : w.stateDirErr with
  | true =>
    rw [mainRun_stateDirErr o w hist hdir] at hf
    simp [State.played, initState] at hf
  | false =>
    rw [mainRun_walk o w hist hdir hrep] at hf
    have hwf1 := ParseCurrentDirectory_WF o.continu o.leaf (loadedHistory o w hist) []
      w.rootOpen w.root FILELIST.zero WF_zero
    have hwf2 := ParseCurrentDirectory_WF o.continu o.leaf
      { loadedHistory o w hist with n := 0 } [] w.rootOpen w.root _ hwf1
    have hpre := traceAfterLoad_file o
    by_cases h1 : (ParseCurrentDirectory o.continu o.leaf (loadedHistory o w hist) []
        w.rootOpen w.root FILELIST.zero).1 = 0
    · by_cases h2 : (ParseCurrentDirectory o.continu o.leaf (loadedHistory o w hist) []
          w.rootOpen w.root FILELIST.zero).2.n = 0
      · by_cases h3 : (ParseCurrentDirectory o.continu o.leaf
            { loadedHistory o w hist with n := 0 } [] w.rootOpen w.root
            (ParseCurrentDirectory o.continu o.leaf (loadedHistory o w hist) []
              w.rootOpen w.root FILELIST.zero).2).1 = 0
        · by_cases h4 : (ParseCurrentDirectory o.continu o.leaf
              { loadedHistory o w hist with n := 0 } [] w.rootOpen w.root
              (ParseCurrentDirectory o.continu o.leaf (loadedHistory o w hist) []
                w.rootOpen w.root FILELIST.zero).2).2.n = 0
          · rw [played_none_of_trace] at hf
            · exact absurd hf (by simp)
            · simp only [mainWalk, mainStartOver, h1, h2, and_self, ↓reduceIte, mainExecute, h3,
                h4, ne_eq, not_true_eq_false]
              intro e he
              simp only [List.mem_append, List.mem_singleton] at he
              rcases he with ((he | he) | he) | he
              · exact hpre e he
              · subst he; rfl
              · subst he; rfl
              · subst he; rfl
          · refine ⟨{ loadedHistory o w hist with n := 0 }, _, hwf1, ?_, ?_⟩
            · unfold FILELIST.names; rw [h2]; simp
            · have hmem := getD_mem_names _ _ hwf2 (selectIndex_lt o w _ h4)
              have hp := played_of_trace
                (mainExecute o w (mainStartOver o w (mainWalk o w
                  { iErr := 0, avail := FILELIST.zero, executed := loadedHistory o w hist,
                    hist := histAfterLoad o w hist, trace := traceAfterLoad o })))
                (traceAfterLoad o ++ [Event.walk 0 0, Event.reset,
                  Event.walk 0 (ParseCurrentDirectory o.continu o.leaf
                    { loadedHistory o w hist with n := 0 } [] w.rootOpen w.root
                    (ParseCurrentDirectory o.continu o.leaf (loadedHistory o w hist) []
                      w.rootOpen w.root FILELIST.zero).2).2.n])
                ((ParseCurrentDirectory o.continu o.leaf
                    { loadedHistory o w hist with n := 0 } [] w.rootOpen w.root
                    (ParseCurrentDirectory o.continu o.leaf (loadedHistory o w hist) []
                      w.rootOpen w.root FILELIST.zero).2).2.array.getD
                  (selectIndex o w (ParseCurrentDirectory o.continu o.leaf
                    { loadedHistory o w hist with n := 0 } [] w.rootOpen w.root
                    (ParseCurrentDirectory o.continu o.leaf (loadedHistory o w hist) []
                      w.rootOpen w.root FILELIST.zero).2).2.n) [])
                (by
                  intro e he
                  simp only [List.mem_append, List.mem_cons, List.mem_singleton,
                    List.not_mem_nil, or_false] at he
                  rcases he with he | he | he | he
                  · exact hpre e he
                  · subst he; rfl
                  · subst he; rfl
                  · subst he; rfl)
                (by
                  simp only [mainWalk, mainStartOver, h1, h2, and_self, ↓reduceIte, mainExecute,
                    h3, h4, ne_eq, not_false_eq_true]
                  cases w.canWrite
                  · right; simp
                  · left; simp)
              rw [hp] at hf
              rw [← Option.some.inj hf]; exact hmem
        · rw [played_none_of_trace] at hf
          · exact absurd hf (by simp)
          · simp only [mainWalk, mainStartOver, h1, h2, and_self, ↓reduceIte, mainExecute, h3]
            intro e he
            simp only [List.mem_append, List.mem_singleton] at he
            rcases he with ((he | he) | he) | he
            · exact hpre e he
            · subst he; rfl
            · subst he; rfl
            · subst he; rfl
      · refine ⟨loadedHistory o w hist, FILELIST.zero, WF_zero, names_zero, ?_⟩
        have hmem := getD_mem_names _ _ hwf1 (selectIndex_lt o w _ h2)
        have hp := played_of_trace
          (mainExecute o w (mainStartOver o w (mainWalk o w
            { iErr := 0, avail := FILELIST.zero, executed := loadedHistory o w hist,
              hist := histAfterLoad o w hist, trace := traceAfterLoad o })))
          (traceAfterLoad o ++ [Event.walk 0 (ParseCurrentDirectory o.continu o.leaf
            (loadedHistory o w hist) [] w.rootOpen w.root FILELIST.zero).2.n])
          ((ParseCurrentDirectory o.continu o.leaf (loadedHistory o w hist) [] w.rootOpen
              w.root FILELIST.zero).2.array.getD
            (selectIndex o w (ParseCurrentDirectory o.continu o.leaf (loadedHistory o w hist)
              [] w.rootOpen w.root FILELIST.zero).2.n) [])
          (by
            intro e he
            simp only [List.mem_append, List.mem_singleton] at he
            rcases he with he | he
            · exact hpre e he
            · subst he; rfl)
          (by
            simp only [mainWalk, mainStartOver, h1, h2, and_false, ↓reduceIte, mainExecute,
              ne_eq, not_false_eq_true]
            cases w.canWrite
            · right; simp
            · left; simp)
        rw [hp] at hf
        rw [← Option.some.inj hf]; exact hmem
    · rw [played_none_of_trace] at hf
      · exact absurd hf (by simp)
      · simp only [mainWalk, mainStartOver, h1, false_and, ↓reduceIte, mainExecute]
        intro e he
        simp only [List.mem_append, List.mem_singleton] at he
        rcases he with he | he
        · exact hpre e he
        · subst he; rfl

/-- C7: with the leaf flag set, for every tree, history and continuous flag:
every path that `ParseCurrentDirectory("")` appends to the candidate list is
the name of an entry located directly in the root directory, taken as a
regular file, valid and absent from the history; the walk does not depend on
what lies below the root's entries (no sub-directory is entered); and a file
selected by a run is such a root entry too. -/
theorem C7_leaf_mode :
    (∀ (continu : Bool) (executed : FILELIST) (opendirOk : Bool) (entries : Listing)
        (avail : FILELIST), avail.WF →
      ∃ added : List FILENAME,
        (ParseCurrentDirectory continu true executed [] opendirOk entries avail).2.names
          = avail.names ++ added ∧
        ∀ p ∈ added, ∃ e ∈ topLevel entries, p = e.d_name ∧ e.d_type &&& DT_REG ≠ 0 ∧
          FilenameValid p = true ∧ FilelistExist p executed = false) ∧
    (∀ (continu : Bool) (executed : FILELIST) (opendirOk : Bool) (entries entries1 : Listing)
        (avail : FILELIST), topLevel entries1 = topLevel entries →
      ParseCurrentDirectory continu true executed [] opendirOk entries1 avail =
        ParseCurrentDirectory continu true executed [] opendirOk entries avail) ∧
    (∀ (o : Options) (w : World) (hist : Option (List Char)), o.leaf = true →
      ¬ (o.repeatLast = true ∧ (loadedHistory o w hist).n ≠ 0) →
      ∀ f, (mainRun o w hist).played = some f →
        ∃ e ∈ topLevel w.root, f = e.d_name ∧ e.d_type &&& DT_REG ≠ 0 ∧
          FilenameValid f = true) := by
  have key : ∀ (continu : Bool) (executed : FILELIST) (opendirOk : Bool) (entries : Listing)
      (avail : FILELIST), avail.WF →
      ∃ added : List FILENAME,
        (ParseCurrentDirectory continu true executed [] opendirOk entries avail).2.names
          = avail.names ++ added ∧
        ∀ p ∈ added, ∃ e ∈ topLevel entries, p = e.d_name ∧ e.d_type &&& DT_REG ≠ 0 ∧
          FilenameValid p = true ∧ FilelistExist p executed = false := by
    intro continu executed opendirOk entries avail h
    cases opendirOk with
    | false =>
      exact ⟨[], by rw [ParseCurrentDirectory_closed]; simp, by simp⟩
    | true =>
      obtain ⟨_, _, r3, _⟩ :=
        ParseCurrentDirectory_walkList continu true executed [] entries avail h
      refine ⟨_, r3, ?_⟩
      intro p hp
      obtain ⟨e, he, hpe, hf, hx⟩ := walkList_leaf continu _ [] entries p hp
      have hpath : entryPath [] e.d_name = e.d_name := by
        simp [entryPath, iDirectoryNameLen]
      rw [hpath] at hpe
      refine ⟨e, he, hpe, isFile_reg hf, ?_, hx⟩
      have := isFile_valid hf
      rw [hpath] at this
      rw [hpe]; exact this
  refine ⟨key, ?_, ?_⟩
  · intro continu executed opendirOk entries entries1 avail h1
    unfold ParseCurrentDirectory
    rw [ParseEntries_leaf_congr continu executed [] entries entries1 avail h1]
  · intro o w hist hl hrep f hf
    obtain ⟨executed, avail, hwf, hnil, hmem⟩ := mainRun_played o w hist hrep f hf
    rw [hl] at hmem
    obtain ⟨added, h1, h2⟩ := key o.continu executed w.rootOpen w.root avail hwf
    rw [h1, hnil, List.nil_append] at hmem
    obtain ⟨e, he, hfe, hreg, hv, _⟩ := h2 f hmem
    exact ⟨e, he, hfe, hreg, hv⟩

theorem C7_leaf_mode_witness :
    FILELIST.zero.WF ∧
    (ParseCurrentDirectory false true FILELIST.zero [] true sampleTree FILELIST.zero).2.names
      = ["b.mp4".toList] ∧
    (mainRun { normalOptions with leaf := true } sampleWorld none).played
      = some "b.mp4".toList ∧
    (∃ added : List FILENAME,
      (ParseCurrentDirectory false true FILELIST.zero [] true sampleTree FILELIST.zero).2.names
        = FILELIST.zero.names ++ added ∧
      ∀ p ∈ added, ∃ e ∈ topLevel sampleTree, p = e.d_name ∧ e.d_type &&& DT_REG ≠ 0 ∧
        FilenameValid p = true ∧ FilelistExist p FILELIST.zero = false) ∧
    (∃ e ∈ topLevel sampleWorld.root, "b.mp4".toList = e.d_name ∧ e.d_type &&& DT_REG ≠ 0 ∧
      FilenameValid "b.mp4".toList = true) :=
  ⟨WF_zero, by decide, by decide,
   C7_leaf_mode.1 false FILELIST.zero true sampleTree FILELIST.zero WF_zero,
   C7_leaf_mode.2.2 { normalOptions with leaf := true } sampleWorld none rfl (by decide)
    "b.mp4".toList (by decide)⟩

/-! ## The index chosen by main -/

theorem selectIndex_eq (o : Options) (w : World) (n : Nat) :
    selectIndex o w n = if o.continu = true ∨ n = 1 then 0 else w.random % n := by
  unfold selectIndex
  by_cases h : o.continu = true ∨ n = 1
  · rw [if_pos h]
    rcases h with h | h <;> simp [h]
  · rw [if_neg h]
    simp only [not_or] at h
    have h1 : o.continu = false := by simpa using h.1
    simp [h1, h.2]

/-- C13: for a non-empty candidate list of `n` names, the index chosen by
`main` is 0 when continuous mode is set or `n = 1`, and `random() mod n`
otherwise; it is below `n`, the name at that index is an element of the
candidate list, and it is the name that `main` records and plays. -/
theorem C13_index_in_range (o : Options) (w : World) (fl : FILELIST)
    (hwf : fl.WF) (hn : fl.n ≠ 0) :
    selectIndex o w fl.n = (if o.continu = true ∨ fl.n = 1 then 0 else w.random % fl.n) ∧
    selectIndex o w fl.n < fl.n ∧
    fl.array.getD (selectIndex o w fl.n) [] ∈ fl.names ∧
    (∀ s : State, s.iErr = 0 → s.avail = fl →
      (mainExecute o w s).trace = s.trace ++
          [Event.append (fl.array.getD (selectIndex o w fl.n) []),
           Event.play (fl.array.getD (selectIndex o w fl.n) [])] ∨
      (mainExecute o w s).trace = s.trace ++
          [Event.play (fl.array.getD (selectIndex o w fl.n) [])]) := by
  refine ⟨selectIndex_eq o w fl.n, selectIndex_lt o w fl.n hn,
    getD_mem_names fl _ hwf (selectIndex_lt o w fl.n hn), ?_⟩
  intro s h0 ha
  subst ha
  simp only [mainExecute, h0, ↓reduceIte, ne_eq, hn, not_false_eq_true]
  cases w.canWrite
  · right; simp
  · left; simp

theorem C13_index_in_range_witness :
    sampleList.WF ∧ sampleList.n = 3 ∧
    selectIndex normalOptions { sampleWorld with random := 7 } sampleList.n = 1 ∧
    sampleList.array.getD 1 [] = "a.mp4".toList ∧
    selectIndex normalOptions { sampleWorld with random := 7 } sampleList.n < sampleList.n :=
  ⟨by decide, by decide, by decide, by decide,
   (C13_index_in_range normalOptions { sampleWorld with random := 7 } sampleList
      (by decide) (by decide)).2.1⟩

/-! ## Sequences of FilelistAdd -/

theorem FilelistAdd_success (b : Bool) (x : FILENAME) (fl : FILELIST)
    (h : (FilelistAdd b x fl).1 = 0) : FilelistAdd b x fl = FilelistAdd true x fl := by
  cases b with
  | true => rfl
  | false =>
    unfold FilelistAdd at h ⊢
    by_cases hge : fl.n ≥ fl.max
    · rw [if_pos hge] at h
      simp [ERROR_EQSELECT_MEM] at h
    · rw [if_neg hge, if_neg hge]

theorem FilelistAddSeq_append (l1 l2 : List (Bool × FILENAME)) : ∀ fl : FILELIST,
    FilelistAddSeq (l1 ++ l2) fl =
      ((FilelistAddSeq l1 fl).1 ++ (FilelistAddSeq l2 (FilelistAddSeq l1 fl).2).1,
        (FilelistAddSeq l2 (FilelistAddSeq l1 fl).2).2) := by
  induction l1 with
  | nil => intro fl; simp [FilelistAddSeq]
  | cons a l1 ih =>
    intro fl
    obtain ⟨b, x⟩ := a
    rw [List.cons_append]
    show ((FilelistAdd b x fl).1 :: (FilelistAddSeq (l1 ++ l2) (FilelistAdd b x fl).2).1,
      (FilelistAddSeq (l1 ++ l2) (FilelistAdd b x fl).2).2) = _
    rw [ih]
    simp [FilelistAddSeq]

theorem FilelistAddSeq_ok (adds : List (Bool × FILENAME)) : ∀ fl : FILELIST, fl.WF →
    (∀ e ∈ (FilelistAddSeq adds fl).1, e = 0) →
    (FilelistAddSeq adds fl).2.WF ∧
    (FilelistAddSeq adds fl).2.names = fl.names ++ adds.map Prod.snd ∧
    (FilelistAddSeq adds fl).2.n = fl.n + adds.length := by
  induction adds with
  | nil => intro fl h _; simp [FilelistAddSeq, h]
  | cons a adds ih =>
    intro fl h hok
    obtain ⟨b, x⟩ := a
    simp only [FilelistAddSeq, List.mem_cons, forall_eq_or_imp] at hok ⊢
    obtain ⟨h1, h2⟩ := hok
    rw [FilelistAdd_success b x fl h1] at h2 ⊢
    obtain ⟨_, a2, a3, a4⟩ := FilelistAdd_ok x fl h
    obtain ⟨r1, r2, r3⟩ := ih _ a2 h2
    refine ⟨r1, ?_, ?_⟩
    · rw [r2, a3]; simp
    · rw [r3, a4]; simp; omega

theorem getD_names (fl : FILELIST) (i : Nat) (hi : i < fl.n) :
    fl.names.getD i [] = fl.array.getD i [] := by
  unfold FILELIST.names
  simp [List.getD_eq_getElem?_getD, List.getElem?_take, hi]

/-- C16: when every call of a sequence of `FilelistAdd` on an initially empty
list succeeds (the names being shorter than `LNSZ`), the count `n` is the
number of calls, slot `i` holds the `i`-th name added, `n <= max` holds after
every call, and `FilelistExist(x)` is true exactly when `x` is equal to one of
the names added. -/
theorem C16_filelist_add_exist (adds : List (Bool × FILENAME))
    (_hlen : ∀ a ∈ adds, a.2.length < LNSZ)
    (hok : ∀ e ∈ (FilelistAddSeq adds FILELIST.zero).1, e = 0) :
    (FilelistAddSeq adds FILELIST.zero).2.n = adds.length ∧
    (∀ i < adds.length,
      (FilelistAddSeq adds FILELIST.zero).2.array.getD i [] = (adds.map Prod.snd).getD i []) ∧
    (∀ k ≤ adds.length,
      (FilelistAddSeq (adds.take k) FILELIST.zero).2.n = k ∧
      (FilelistAddSeq (adds.take k) FILELIST.zero).2.n ≤
        (FilelistAddSeq (adds.take k) FILELIST.zero).2.max) ∧
    (∀ x : FILENAME, FilelistExist x (FilelistAddSeq adds FILELIST.zero).2 = true ↔
      x ∈ adds.map Prod.snd) := by
  obtain ⟨r1, r2, r3⟩ := FilelistAddSeq_ok adds FILELIST.zero WF_zero hok
  rw [names_zero, List.nil_append] at r2
  have hn : (FilelistAddSeq adds FILELIST.zero).2.n = adds.length := by
    rw [r3]; simp [FILELIST.zero]
  refine ⟨hn, ?_, ?_, ?_⟩
  · intro i hi
    rw [← getD_names _ i (by rw [hn]; exact hi), r2]
  · intro k hk
    have hsplit := FilelistAddSeq_append (adds.take k) (adds.drop k) FILELIST.zero
    rw [List.take_append_drop] at hsplit
    have hokk : ∀ e ∈ (FilelistAddSeq (adds.take k) FILELIST.zero).1, e = 0 := by
      intro e he
      apply hok e
      rw [hsplit]
      exact List.mem_append_left _ he
    obtain ⟨p1, _, p3⟩ := FilelistAddSeq_ok (adds.take k) FILELIST.zero WF_zero hokk
    constructor
    · rw [p3]; simp [FILELIST.zero, hk]
    · exact p1.1
  · intro x
    rw [FilelistExist_iff x _ r1, r2]

theorem C16_filelist_add_exist_witness :
    (FilelistAddSeq [(true, "b.mp4".toList), (false, "a.mp4".toList)] FILELIST.zero).2.max
      = 16 ∧
    FilelistExist "A.mp4".toList
      (FilelistAddSeq [(true, "b.mp4".toList), (false, "a.mp4".toList)] FILELIST.zero).2
      = false ∧
    (FilelistExist "a.mp4".toList
      (FilelistAddSeq [(true, "b.mp4".toList), (false, "a.mp4".toList)] FILELIST.zero).2
      = true ↔ "a.mp4".toList ∈
        [(true, "b.mp4".toList), (false, "a.mp4".toList)].map Prod.snd) :=
  ⟨by decide, by decide,
   (C16_filelist_add_exist [(true, "b.mp4".toList), (false, "a.mp4".toList)]
      (by decide) (by decide)).2.2.2 "a.mp4".toList⟩

/-! ## Evaluations -/

/-- C11 (failing input): the root holds the directory `d` and the regular
file `b.mp4`.  When `d` cannot be entered the walk skips it and goes on to
`b.mp4`; when `d` can be entered but its listing cannot be opened, the
recursive call returns `ERROR_EQSELECT_DIR`, the loop of the root stops
before `b.mp4` is examined, the walk fails although the root was opened, and
the run ends with that error. -/
theorem C11_unlistable_subdirectory :
    ParseCurrentDirectory false false FILELIST.zero [] true (unlistableTree false) FILELIST.zero
      = (0, (FilelistAdd true "b.mp4".toList FILELIST.zero).2) ∧
    ParseCurrentDirectory false false FILELIST.zero [] true (unlistableTree true) FILELIST.zero
      = (ERROR_EQSELECT_DIR, FILELIST.zero) ∧
    (mainRun normalOptions { sampleWorld with root := unlistableTree true } none).iErr
      = ERROR_EQSELECT_DIR ∧
    (mainRun normalOptions { sampleWorld with root := unlistableTree true } none).played
      = none ∧
    exitStatus (mainRun normalOptions { sampleWorld with root := unlistableTree true } none)
      = 1 := by
  decide

/-- C18 (failing input): the type tests of lines 320 and 329 are bit masks.
An entry named `x.mp4` of type `DT_LNK`, `DT_SOCK` or `DT_WHT` is taken as a
candidate file like one of type `DT_REG`, and an entry of type `DT_BLK` (or
`DT_SOCK`, `DT_WHT` when its name is not that of a media file) is entered
like a directory when `chdir` accepts it. -/
theorem C18_type_tests_are_masks :
    (∀ d ∈ direntTypes, (d &&& DT_REG != 0) = decide (d ∈ [DT_REG, DT_LNK, DT_SOCK, DT_WHT])) ∧
    (∀ d ∈ direntTypes, (d &&& DT_DIR != 0) = decide (d ∈ [DT_DIR, DT_BLK, DT_SOCK, DT_WHT])) ∧
    (∀ d ∈ [DT_REG, DT_LNK, DT_SOCK, DT_WHT],
      (ParseCurrentDirectory false false FILELIST.zero [] true (typedTree d) FILELIST.zero).2.names
        = ["x.mp4".toList]) ∧
    (∀ d ∈ [DT_DIR, DT_BLK, DT_SOCK, DT_WHT],
      (ParseCurrentDirectory false false FILELIST.zero [] true (typedDirTree d)
        FILELIST.zero).2.names = ["dev/a.mp4".toList]) ∧
    (∀ d ∈ [DT_UNKNOWN, DT_FIFO, DT_CHR],
      (ParseCurrentDirectory false false FILELIST.zero [] true (typedTree d) FILELIST.zero).2.names
        = [] ∧
      (ParseCurrentDirectory false false FILELIST.zero [] true (typedDirTree d)
        FILELIST.zero).2.names = []) := by
  decide

/-- C19 (failing input): `longPath` is a valid path of 499 characters without
newline that the walk adds to the candidate list.  Read back from the history
file `longPath ++ "\n"`, it comes in two pieces: its first 498 characters,
which end in `.mp` and are loaded, and `4`, which is dropped.  The loaded
list does not hold `longPath`. -/
theorem C19_round_trip_cut_at_499 :
    (ParseCurrentDirectory false false FILELIST.zero [] true longPathTree FILELIST.zero).2.names
      = [longPath] ∧
    FilenameValid longPath = true ∧ longPath.length = LNSZ - 1 ∧ '\n' ∉ longPath ∧
    (loadedHistory normalOptions sampleWorld (some (longPath ++ NL))).names
      = [longPath.take (LNSZ - 2)] ∧
    FilelistExist longPath (loadedHistory normalOptions sampleWorld (some (longPath ++ NL)))
      = false := by
  set_option maxRecDepth 100000 in decide

/-! ## The outcomes of a run -/

/-- The end of a run whose first walk found nothing and whose second walk,
after the reset, left the non-empty candidate list `a2`, whether or not the
history file can be written. -/
theorem mainRun_startover_any (o : Options) (w : World) (hist : Option (List Char))
    (hdir : w.stateDirErr = false)
    (hrep : ¬ (o.repeatLast = true ∧ (loadedHistory o w hist).n ≠ 0))
    (a1 a2 : FILELIST)
    (hw1 : ParseCurrentDirectory o.continu o.leaf (loadedHistory o w hist) [] w.rootOpen
      w.root FILELIST.zero = (0, a1))
    (hn1 : a1.n = 0)
    (hw2 : ParseCurrentDirectory o.continu o.leaf { loadedHistory o w hist with n := 0 } []
      w.rootOpen w.root a1 = (0, a2))
    (hn2 : a2.n ≠ 0) :
    mainRun o w hist =
      if w.canWrite then
        { iErr := 0, avail := a2, executed := { loadedHistory o w hist with n := 0 },
          hist := some (a2.array.getD (selectIndex o w a2.n) [] ++ NL),
          trace := traceAfterLoad o ++ [Event.walk 0 0, Event.reset, Event.walk 0 a2.n,
            Event.append (a2.array.getD (selectIndex o w a2.n) []),
            Event.play (a2.array.getD (selectIndex o w a2.n) [])] }
      else
        { iErr := ERROR_EQSELECT_ERRNO, avail := a2,
          executed := { loadedHistory o w hist with n := 0 },
          hist := histAfterLoad o w hist,
          trace := traceAfterLoad o ++ [Event.walk 0 0, Event.reset, Event.walk 0 a2.n,
            Event.play (a2.array.getD (selectIndex o w a2.n) [])] } := by
  rw [mainRun_walk o w hist hdir hrep]
  cases hw : w.canWrite <;>
    simp [mainWalk, hw1, mainStartOver, hn1, hw2, mainExecute, hn2, hw, ResetExecutedFilenames]

/-- The end of a run whose two walks found nothing. -/
theorem mainRun_empty (o : Options) (w : World) (hist : Option (List Char))
    (hdir : w.stateDirErr = false)
    (hrep : ¬ (o.repeatLast = true ∧ (loadedHistory o w hist).n ≠ 0))
    (a1 a2 : FILELIST)
    (hw1 : ParseCurrentDirectory o.continu o.leaf (loadedHistory o w hist) [] w.rootOpen
      w.root FILELIST.zero = (0, a1))
    (hn1 : a1.n = 0)
    (hw2 : ParseCurrentDirectory o.continu o.leaf { loadedHistory o w hist with n := 0 } []
      w.rootOpen w.root a1 = (0, a2))
    (hn2 : a2.n = 0) :
    mainRun o w hist =
      { iErr := ERROR_EQSELECT_EMPTY, avail := a2,
        executed := { loadedHistory o w hist with n := 0 },
        hist := ResetExecutedFilenames w (histAfterLoad o w hist),
        trace := traceAfterLoad o ++ [Event.walk 0 0, Event.reset, Event.walk 0 0] } := by
  rw [mainRun_walk o w hist hdir hrep]
  simp [mainWalk, hw1, mainStartOver, hn1, hw2, mainExecute, hn2]

theorem isEntered_dir {l : Bool} {dir : List Char} {e : Dirent} {ck : Bool}
    (h : isEntered l dir e ck = true) : (e.d_type &&& DT_DIR == 0) = false ∧ ck = true := by
  simp only [isEntered, Bool.and_eq_true, bne_iff_ne, ne_eq] at h
  exact ⟨by simpa using h.1.1.1.2, h.2⟩

theorem accessible_walkList (l : Bool) (ex : FILENAME → Bool) (t : Listing) :
    accessible t = true → ∀ dir : List Char, (walkList false l ex dir t).1 = 0 := by
  induction t with
  | nil => intro _ dir; simp [walkList]
  | cons e ck ok sub rest ihs ihr =>
    intro hacc dir
    simp only [accessible, Bool.and_eq_true, Bool.or_eq_true] at hacc
    obtain ⟨hsub, hrest⟩ := hacc
    rcases walkList_cases false l ex dir e ck ok sub rest with
      ⟨_, _, hw⟩ | ⟨_, _, hc, _⟩ | ⟨_, _, _, hw⟩ | ⟨_, he, _, hw⟩ | ⟨_, he, hok, _⟩ | ⟨_, _, hw⟩
    · rw [hw]; exact ihr hrest dir
    · exact absurd hc (by decide)
    · rw [hw]; exact ihr hrest dir
    · rw [hw]
      have hd := (isEntered_dir he).1
      rcases hsub with hsub | hsub
      · rw [hd] at hsub; exact absurd hsub (by decide)
      · have h0 := ihs hsub.2 (entryPath dir e.d_name)
        unfold seqWalk
        rw [if_neg (by rw [h0]; simp)]
        exact ihr hrest dir
    · have hd := (isEntered_dir he).1
      rcases hsub with hsub | hsub
      · rw [hd] at hsub; exact absurd hsub (by decide)
      · rw [hok] at hsub; simp at hsub
    · rw [hw]; exact ihr hrest dir

theorem accessible_walkOk (leaf : Bool) (w : World) (hopen : w.rootOpen = true)
    (hacc : accessible w.root = true) : walkOk leaf w :=
  (eligible_walkList leaf w hopen).2.mpr (accessible_walkList leaf _ w.root hacc [])

/-- The file at the chosen index of a candidate list that starts with an
eligible file and, without continuous mode, holds only eligible files. -/
theorem selected_mem (o : Options) (w : World) (a : FILELIST) (goal : List FILENAME)
    (x : FILENAME) (xs ys : List FILENAME)
    (hwf : a.WF) (hnames : a.names = x :: ys) (hn : a.n ≠ 0)
    (hys : o.continu = false → ys = xs) (hsub : ∀ p ∈ x :: xs, p ∈ goal) :
    a.array.getD (selectIndex o w a.n) [] ∈ goal := by
  cases hc : o.continu with
  | true =>
    rw [selectIndex_continu o w _ hc, names_head_getD a x ys hnames]
    exact hsub x (List.mem_cons_self _ _)
  | false =>
    have := getD_mem_names a _ hwf (selectIndex_lt o w a.n hn)
    rw [hnames, hys hc] at this
    exact hsub _ this

theorem played_selected (w : World) (pre : List Event) (f : FILENAME)
    (s1 s2 : State) (hpre : ∀ e ∈ pre, e.file = none)
    (h1 : s1.trace = pre ++ [Event.append f, Event.play f])
    (h2 : s2.trace = pre ++ [Event.play f]) :
    (if w.canWrite then s1 else s2).played = some f := by
  cases w.canWrite
  · exact played_of_trace _ pre f hpre (Or.inr h2)
  · exact played_of_trace _ pre f hpre (Or.inl h1)

/-- A run in which the repeat-last shortcut does not fire, over a tree whose
full walk meets no directory error: it ends with `ERROR_EQSELECT_EMPTY`
exactly when the tree has no eligible file, and plays an eligible file
otherwise. -/
theorem mainRun_empty_iff (o : Options) (w : World) (hist : Option (List Char))
    (hdir : w.stateDirErr = false) (hopen : w.rootOpen = true) (hok : walkOk o.leaf w)
    (hrep : ¬ (o.repeatLast = true ∧ (loadedHistory o w hist).n ≠ 0)) :
    ((mainRun o w hist).iErr = ERROR_EQSELECT_EMPTY ↔ eligible o.leaf w = []) ∧
    (eligible o.leaf w ≠ [] →
      ∃ f ∈ eligible o.leaf w, (mainRun o w hist).played = some f) := by
  have hwf := loadedHistory_WF o w hist
  have hpre := traceAfterLoad_file o
  cases hF : (eligible o.leaf w).filter
      (fun p => decide (p ∉ (loadedHistory o w hist).names)) with
  | cons x xs =>
    obtain ⟨a, ys, hw1, d2, d3, d4, d5⟩ := walk_against_history o.continu o.leaf w
      (loadedHistory o w hist) FILELIST.zero hwf WF_zero hok x xs hF
    rw [names_zero, List.nil_append] at d3
    have hn : a.n ≠ 0 := by rw [d4]; omega
    have hsub : ∀ p ∈ x :: xs, p ∈ eligible o.leaf w := by
      intro p hp
      rw [← hF] at hp
      exact (List.mem_filter.mp hp).1
    have hne : eligible o.leaf w ≠ [] := by
      intro h0
      have := hsub x (List.mem_cons_self _ _)
      rw [h0] at this
      simp at this
    have hrun := mainRun_select o w hist hdir hrep a hw1 hn
    constructor
    · constructor
      · intro h
        rw [hrun] at h
        cases hcw : w.canWrite <;> rw [hcw] at h <;>
          simp [ERROR_EQSELECT_EMPTY, ERROR_EQSELECT_ERRNO] at h
      · intro h; exact absurd h hne
    · intro _
      refine ⟨_, selected_mem o w a _ x xs ys d2 d3 hn d5 hsub, ?_⟩
      rw [hrun]
      exact played_selected w (traceAfterLoad o ++ [Event.walk 0 a.n]) _ _ _
        (by
          intro e he
          simp only [List.mem_append, List.mem_singleton] at he
          rcases he with he | he
          · exact hpre e he
          · subst he; rfl)
        rfl rfl
  | nil =>
    have hall : ∀ p ∈ eligible o.leaf w, p ∈ (loadedHistory o w hist).names := by
      intro p hp
      by_contra hnot
      have : p ∈ (eligible o.leaf w).filter
          (fun p => decide (p ∉ (loadedHistory o w hist).names)) :=
        List.mem_filter.mpr ⟨hp, by simpa using hnot⟩
      rw [hF] at this
      simp at this
    obtain ⟨a1, hw1, c2, c3, c4⟩ := walk_exhausted o.continu o.leaf w (loadedHistory o w hist)
      FILELIST.zero hwf WF_zero hok hopen hall
    have hn1 : a1.n = 0 := by rw [c4]; rfl
    have hcl : ({ loadedHistory o w hist with n := 0 } : FILELIST).WF :=
      ⟨Nat.zero_le _, hwf.2⟩
    have hcn : ({ loadedHistory o w hist with n := 0 } : FILELIST).names = [] := by
      simp [FILELIST.names]
    cases hE : eligible o.leaf w with
    | nil =>
      obtain ⟨a2, hw2, _, _, e4⟩ := walk_exhausted o.continu o.leaf w
        { loadedHistory o w hist with n := 0 } a1 hcl c2 hok hopen
        (by rw [hE]; simp)
      have hn2 : a2.n = 0 := by rw [e4]; exact hn1
      rw [mainRun_empty o w hist hdir hrep a1 a2 hw1 hn1 hw2 hn2]
      exact ⟨⟨fun _ => rfl, fun _ => rfl⟩, fun h => absurd rfl h⟩
    | cons x xs =>
      obtain ⟨a2, ys, hw2, d2, d3, d4, d5⟩ := walk_against_history o.continu o.leaf w
        { loadedHistory o w hist with n := 0 } a1 hcl c2 hok x xs (by rw [hcn, hE]; simp)
      rw [c3, names_zero, List.nil_append] at d3
      have hn2 : a2.n ≠ 0 := by rw [d4]; omega
      have hrun := mainRun_startover_any o w hist hdir hrep a1 a2 hw1 hn1 hw2 hn2
      constructor
      · constructor
        · intro h
          rw [hrun] at h
          cases hcw : w.canWrite <;> rw [hcw] at h <;>
            simp [ERROR_EQSELECT_EMPTY, ERROR_EQSELECT_ERRNO] at h
        · intro h; exact absurd h (by simp)
      · intro _
        refine ⟨_, selected_mem o w a2 _ x xs ys d2 d3 hn2 d5 (fun p hp => hp), ?_⟩
        rw [hrun]
        exact played_selected w
          (traceAfterLoad o ++ [Event.walk 0 0, Event.reset, Event.walk 0 a2.n]) _ _ _
          (by
            intro e he
            simp only [List.mem_append, List.mem_cons, List.mem_singleton,
              List.not_mem_nil, or_false] at he
            rcases he with he | he | he | he
            · exact hpre e he
            · subst he; rfl
            · subst he; rfl
            · subst he; rfl)
          (by simp) (by simp)

/-- C12: over a tree whose directories are all accessible, with a usable state
directory, for every history and every flag setting in which the repeat-last
shortcut does not fire: the run ends with `ERROR_EQSELECT_EMPTY` (the "no file
to execute" message and a non-zero exit status) if and only if the walk of
the tree against an empty history finds no candidate; and when the tree has
an eligible file, the run selects one. -/
theorem C12_empty_iff_no_eligible (o : Options) (w : World) (hist : Option (List Char))
    (hdir : w.stateDirErr = false) (hopen : w.rootOpen = true)
    (hacc : accessible w.root = true)
    (hrep : ¬ (o.repeatLast = true ∧ (loadedHistory o w hist).n ≠ 0)) :
    (((mainRun o w hist).iErr = ERROR_EQSELECT_EMPTY ∧
        errorReport (mainRun o w hist).iErr = some Report.noFileToExecute ∧
        exitStatus (mainRun o w hist) = 1) ↔ eligible o.leaf w = []) ∧
    (errorReport (mainRun o w hist).iErr = some Report.noFileToExecute ↔
      eligible o.leaf w = []) ∧
    (eligible o.leaf w ≠ [] →
      ∃ f ∈ eligible o.leaf w, (mainRun o w hist).played = some f) := by
  obtain ⟨h1, h2⟩ := mainRun_empty_iff o w hist hdir hopen
    (accessible_walkOk o.leaf w hopen hacc) hrep
  have hrep2 : ∀ e : Nat, errorReport e = some Report.noFileToExecute ↔
      e = ERROR_EQSELECT_EMPTY := by
    intro e
    unfold errorReport
    constructor
    · intro h
      split_ifs at h with c1 c2 c3 c4
      · simp at h
      · exact c2
      · simp at h
      · simp at h
    · intro h; subst h; decide
  refine ⟨⟨fun h => h1.mp h.1, fun h => ?_⟩, ?_, h2⟩
  · have he := h1.mpr h
    refine ⟨he, (hrep2 _).mpr he, ?_⟩
    unfold exitStatus
    rw [he]; decide
  · rw [hrep2]; exact h1

theorem C12_empty_iff_no_eligible_witness :
    accessible sampleTree = true ∧
    (∃ f ∈ eligible false sampleWorld,
      (mainRun normalOptions sampleWorld (some "d/a.mp4\nb.mp4\n".toList)).played = some f) ∧
    (mainRun normalOptions { sampleWorld with root := typedTree DT_FIFO } none).iErr
      = ERROR_EQSELECT_EMPTY :=
  ⟨by decide,
   (C12_empty_iff_no_eligible normalOptions sampleWorld (some "d/a.mp4\nb.mp4\n".toList)
      rfl rfl (by decide) (by decide)).2.2 (by decide),
   ((C12_empty_iff_no_eligible normalOptions { sampleWorld with root := typedTree DT_FIFO }
      none rfl rfl (by decide) (by decide)).1.mpr (by decide)).1⟩

/-! ## Path lengths -/

theorem entryPath_eq (dir name : List Char) :
    entryPath dir name = if dir = [] then name else dir ++ '/' :: name := by
  unfold entryPath iDirectoryNameLen
  cases dir with
  | nil => simp
  | cons c d => simp [DIRSEP]

theorem entryPath_length (dir name : List Char) :
    (entryPath dir name).length = name.length + iDirectoryNameLen dir := by
  rw [entryPath_eq]
  unfold iDirectoryNameLen
  cases dir with
  | nil => simp
  | cons c d => simp; omega

theorem isFile_length {dir : List Char} {e : Dirent} (h : isFile dir e = true) :
    (entryPath dir e.d_name).length < LNSZ := by
  rw [entryPath_length]
  simp only [isFile, Bool.and_eq_true, decide_eq_true_eq] at h
  exact h.1.1

theorem walkList_paths (c l : Bool) (ex : FILENAME → Bool) (t : Listing) :
    ∀ (dir : List Char), ∀ p ∈ (walkList c l ex dir t).2,
      p.length < LNSZ ∧ p ∈ allPaths dir t := by
  induction t with
  | nil => intro dir p hp; simp [walkList] at hp
  | cons e ck ok sub rest ihs ihr =>
    intro dir p hp
    have hrest : ∀ q, q.length < LNSZ ∧ q ∈ allPaths dir rest →
        q.length < LNSZ ∧ q ∈ allPaths dir (.cons e ck ok sub rest) := by
      rintro q ⟨h1, h2⟩
      exact ⟨h1, by simp [allPaths, h2]⟩
    have hsub : ∀ q, q.length < LNSZ ∧ q ∈ allPaths (entryPath dir e.d_name) sub →
        q.length < LNSZ ∧ q ∈ allPaths dir (.cons e ck ok sub rest) := by
      rintro q ⟨h1, h2⟩
      exact ⟨h1, by simp [allPaths, h2]⟩
    have hhere : isFile dir e = true →
        (entryPath dir e.d_name).length < LNSZ ∧
          entryPath dir e.d_name ∈ allPaths dir (.cons e ck ok sub rest) :=
      fun hf => ⟨isFile_length hf, by simp [allPaths]⟩
    rcases walkList_cases c l ex dir e ck ok sub rest with
      ⟨_, _, hw⟩ | ⟨hf, _, _, hw⟩ | ⟨hf, _, _, hw⟩ | ⟨_, _, _, hw⟩ | ⟨_, _, _, hw⟩ | ⟨_, _, hw⟩
    · rw [hw] at hp; exact hrest p (ihr dir p hp)
    · rw [hw] at hp
      simp only [List.mem_singleton] at hp
      subst hp
      exact hhere hf
    · rw [hw] at hp
      simp only [List.mem_cons] at hp
      rcases hp with hp | hp
      · subst hp; exact hhere hf
      · exact hrest p (ihr dir p hp)
    · rw [hw] at hp
      unfold seqWalk at hp
      split_ifs at hp
      · exact hsub p (ihs _ p hp)
      · simp only [List.mem_append] at hp
        rcases hp with hp | hp
        · exact hsub p (ihs _ p hp)
        · exact hrest p (ihr dir p hp)
    · rw [hw] at hp; simp at hp
    · rw [hw] at hp; exact hrest p (ihr dir p hp)

/-- C14: every path that `ParseCurrentDirectory("")` appends to the candidate
list has at most 499 characters (fewer than `LNSZ`) and is the path of an
entry of the tree, that is its name at the root and `prefix ++ "/" ++ name`
below it; and an entry whose path would have 500 characters or more is
passed over: the loop goes on with the next entry as if the entry were not
there, without adding it, entering it or raising an error. -/
theorem C14_path_bound :
    (∀ (continu leaf : Bool) (executed : FILELIST) (opendirOk : Bool) (entries : Listing)
        (avail : FILELIST), avail.WF →
      ∃ added : List FILENAME,
        (ParseCurrentDirectory continu leaf executed [] opendirOk entries avail).2.names
          = avail.names ++ added ∧
        ∀ p ∈ added, p.length ≤ LNSZ - 1 ∧ p ∈ allPaths [] entries) ∧
    (∀ (dirPath name : List Char),
      entryPath [] name = name ∧
      (dirPath ≠ [] → entryPath dirPath name = dirPath ++ "/".toList ++ name)) ∧
    (∀ (continu leaf : Bool) (executed : FILELIST) (pDirectoryName : List Char) (e : Dirent)
        (chdirOk opendirOk : Bool) (sub rest : Listing) (avail : FILELIST),
      LNSZ ≤ (entryPath pDirectoryName e.d_name).length →
      ParseEntries continu leaf executed pDirectoryName (.cons e chdirOk opendirOk sub rest)
          avail =
        ParseEntries continu leaf executed pDirectoryName rest avail) := by
  refine ⟨?_, ?_, ?_⟩
  · intro continu leaf executed opendirOk entries avail h
    cases opendirOk with
    | false =>
      exact ⟨[], by rw [ParseCurrentDirectory_closed]; simp, by simp⟩
    | true =>
      obtain ⟨_, _, r3, _⟩ :=
        ParseCurrentDirectory_walkList continu leaf executed [] entries avail h
      refine ⟨_, r3, ?_⟩
      intro p hp
      obtain ⟨h1, h2⟩ := walkList_paths continu leaf _ entries [] p hp
      exact ⟨by simp only [LNSZ] at h1 ⊢; omega, h2⟩
  · intro dirPath name
    rw [entryPath_eq, entryPath_eq]
    constructor
    · simp
    · intro h
      rw [if_neg h]
      simp
  · intro continu leaf executed pDirectoryName e chdirOk opendirOk sub rest avail hlen
    rw [entryPath_length] at hlen
    simp only [ParseEntries]
    rw [if_neg (by omega)]

theorem C14_path_bound_witness :
    FILELIST.zero.WF ∧ LNSZ ≤ (entryPath "d".toList longName).length ∧
    (∃ added : List FILENAME,
      (ParseCurrentDirectory false false FILELIST.zero [] true sampleTree FILELIST.zero).2.names
        = FILELIST.zero.names ++ added ∧
      ∀ p ∈ added, p.length ≤ LNSZ - 1 ∧ p ∈ allPaths [] sampleTree) ∧
    ParseEntries false false FILELIST.zero "d".toList
        (.cons ⟨longName, DT_REG⟩ false false .nil .nil) FILELIST.zero =
      ParseEntries false false FILELIST.zero "d".toList .nil FILELIST.zero :=
  ⟨WF_zero, by set_option maxRecDepth 100000 in decide,
   C14_path_bound.1 false false FILELIST.zero true sampleTree FILELIST.zero WF_zero,
   C14_path_bound.2.2 false false FILELIST.zero "d".toList ⟨longName, DT_REG⟩ false false
    .nil .nil FILELIST.zero (by set_option maxRecDepth 100000 in decide)⟩

/-! ## The loaded history -/

theorem trimEol_snoc (g : List Char) (c : Char) :
    trimEol (g ++ [c]) = if c = '\n' ∨ c = '\r' then trimEol g else g ++ [c] := by
  unfold trimEol
  by_cases h : c = '\n' ∨ c = '\r'
  · rw [if_pos h]
    rcases h with h | h <;> subst h <;> simp [List.dropWhile]
  · rw [if_neg h]
    simp only [not_or] at h
    simp [List.dropWhile, h.1, h.2]

/-- The trimming loop of `fgetsz` removes every trailing newline and carriage
return, and nothing else. -/
theorem fgetszTrim_trimEol (s : List Char) : fgetszTrim s.length s = trimEol s := by
  induction s using List.reverseRecOn with
  | nil => simp [fgetszTrim, trimEol]
  | append_singleton g c ih =>
    have hl : (g ++ [c]).length = g.length + 1 := by simp
    have hg : (g ++ [c]).getD g.length ' ' = c := by simp [List.getD_eq_getElem?_getD]
    rw [hl, trimEol_snoc]
    simp only [fgetszTrim, hg]
    by_cases h : c = '\n' ∨ c = '\r'
    · rw [if_pos h, if_pos h]
      simp [ih]
    · rw [if_neg h, if_neg h]

theorem fgetsBuffers_succ (fuel : Nat) (c : Char) (s : List Char) :
    fgetsBuffers (fuel + 1) (c :: s) =
      (fgetsPiece (LNSZ - 2) (c :: s)).1 ::
        fgetsBuffers fuel (fgetsPiece (LNSZ - 2) (c :: s)).2 := by
  have h : LNSZ - 1 - 1 = LNSZ - 2 := rfl
  simp [fgetsBuffers, fgets, h]

theorem readExecuted_buffers (fuel : Nat) : ∀ (s : List Char) (fl : FILELIST), fl.WF →
    (readExecuted fuel s fl).names =
      fl.names ++ ((fgetsBuffers fuel s).map (fun b => trimEol (cstr b))).filter FilenameValid := by
  induction fuel with
  | zero => intro s fl _; simp [readExecuted, fgetsBuffers]
  | succ fuel ih =>
    intro s fl h
    cases s with
    | nil => simp [readExecuted, fgetsBuffers, fgetsz, fgets]
    | cons c s =>
      rw [readExecuted_succ]
      have hb : fgetsBuffers (fuel + 1) (c :: s) =
          (fgetsPiece (LNSZ - 1 - 1) (c :: s)).1 ::
            fgetsBuffers fuel (fgetsPiece (LNSZ - 1 - 1) (c :: s)).2 := by
        simp [fgetsBuffers, fgets]
      rw [hb, fgetszTrim_trimEol]
      simp only [List.map_cons, List.filter_cons]
      by_cases hv : FilenameValid (trimEol (cstr (fgetsPiece (LNSZ - 1 - 1) (c :: s)).1)) = true
      · simp only [hv, ↓reduceIte]
        obtain ⟨_, a2, a3, _⟩ := FilelistAdd_ok
          (trimEol (cstr (fgetsPiece (LNSZ - 1 - 1) (c :: s)).1)) fl h
        rw [ih _ _ a2, a3]
        simp
      · simp only [hv, Bool.false_eq_true, ↓reduceIte]
        exact ih _ _ h

theorem fgetsBuffers_flatten (fuel : Nat) : ∀ s : List Char, s.length ≤ fuel →
    (fgetsBuffers fuel s).flatten = s := by
  induction fuel with
  | zero =>
    intro s hs
    have : s = [] := List.length_eq_zero.mp (by omega)
    subst this
    simp [fgetsBuffers]
  | succ fuel ih =>
    intro s hs
    cases s with
    | nil => simp [fgetsBuffers, fgets]
    | cons c s =>
      have hb := fgetsBuffers_succ fuel c s
      have hlt := fgetsPiece_rest_lt2 (c :: s) (by simp)
      rw [hb, List.flatten_cons, ih _ (by simp only [List.length_cons] at hs hlt; omega)]
      exact fgetsPiece_append _ _

theorem fgetsPiece_shape (k : Nat) : ∀ s : List Char,
    (fgetsPiece k s).1.length ≤ k ∧ '\n' ∉ (fgetsPiece k s).1.dropLast ∧
    ((fgetsPiece k s).2 ≠ [] →
      (fgetsPiece k s).1.getLast? = some '\n' ∨ (fgetsPiece k s).1.length = k) := by
  induction k with
  | zero => intro s; simp [fgetsPiece]
  | succ k ih =>
    intro s
    cases s with
    | nil => simp [fgetsPiece]
    | cons c s =>
      by_cases hc : c = '\n'
      · subst hc
        simp [fgetsPiece]
      · rw [fgetsPiece_cons _ _ _ hc]
        obtain ⟨h1, h2, h3⟩ := ih s
        refine ⟨by simp; omega, ?_, ?_⟩
        · cases hp : (fgetsPiece k s).1 with
          | nil => simp
          | cons d t =>
            rw [hp] at h2
            simp only [List.dropLast_cons₂, List.mem_cons, not_or]
            exact ⟨fun e => hc e.symm, h2⟩
        · intro hne
          rcases h3 hne with h | h
          · left
            cases hp : (fgetsPiece k s).1 with
            | nil => rw [hp] at h; simp at h
            | cons d t =>
              rw [hp] at h
              simp only [List.getLast?_cons_cons]
              exact h
          · right
            simp [h]

theorem fgetsBuffers_shape (fuel : Nat) : ∀ s : List Char,
    (∀ b ∈ fgetsBuffers fuel s, b ≠ [] ∧ b.length ≤ LNSZ - 2 ∧ '\n' ∉ b.dropLast) ∧
    List.Chain' (fun b _ => b.getLast? = some '\n' ∨ b.length = LNSZ - 2)
      (fgetsBuffers fuel s) := by
  induction fuel with
  | zero => intro s; simp [fgetsBuffers]
  | succ fuel ih =>
    intro s
    cases s with
    | nil => simp [fgetsBuffers, fgets]
    | cons c s =>
      have hb := fgetsBuffers_succ fuel c s
      obtain ⟨i1, i2⟩ := ih (fgetsPiece (LNSZ - 2) (c :: s)).2
      obtain ⟨p1, p2, p3⟩ := fgetsPiece_shape (LNSZ - 2) (c :: s)
      have hne : (fgetsPiece (LNSZ - 2) (c :: s)).1 ≠ [] := by
        have h := fgetsPiece_rest_lt2 (c :: s) (by simp)
        have h2 := congrArg List.length (fgetsPiece_append (LNSZ - 2) (c :: s))
        rw [List.length_append] at h2
        intro e
        rw [e] at h2
        simp only [List.length_nil] at h2
        omega
      rw [hb]
      constructor
      · intro b hbm
        simp only [List.mem_cons] at hbm
        rcases hbm with hbm | hbm
        · subst hbm; exact ⟨hne, p1, p2⟩
        · exact i1 b hbm
      · rw [List.chain'_cons']
        refine ⟨?_, i2⟩
        intro y hy
        apply p3
        intro e
        rw [e] at hy
        cases fuel <;> simp [fgetsBuffers, fgets] at hy

theorem mainLoad_iErr (o : Options) (w : World) (s : State) :
    (mainLoad o w s).iErr = s.iErr := by
  unfold mainLoad
  cases o.reset with
  | true => rfl
  | false =>
    cases s.hist with
    | none => rfl
    | some c => cases w.canRead <;> rfl

/-- C15: for every content of a readable history file (reset flag clear), the
list that `main` loads holds, in file order, exactly the pieces read by the
successive `fgets` calls that pass `FilenameValid` once taken as C strings and
stripped of every trailing `'\n'` and `'\r'`.  The pieces are consecutive
parts of the file, not empty, of at most 498 characters, with no newline
except as last character, and each piece that is not the last one ends with a
newline or has 498 characters.  Every loaded entry passes `FilenameValid` and
ends in neither `'\n'` nor `'\r'`; the other pieces are dropped and `iErr` is
not touched; a missing file gives the empty list. -/
theorem C15_loaded_history (o : Options) (w : World) (content : List Char)
    (hz : o.reset = false) (hread : w.canRead = true) :
    (loadedHistory o w (some content)).names =
      ((allBuffers content).map (fun b => trimEol (cstr b))).filter FilenameValid ∧
    ('\x00' ∉ content →
      (loadedHistory o w (some content)).names =
        ((allBuffers content).map trimEol).filter FilenameValid) ∧
    (allBuffers content).flatten = content ∧
    (∀ b ∈ allBuffers content, b ≠ [] ∧ b.length ≤ LNSZ - 2 ∧ '\n' ∉ b.dropLast) ∧
    List.Chain' (fun b _ => b.getLast? = some '\n' ∨ b.length = LNSZ - 2)
      (allBuffers content) ∧
    (∀ x ∈ (loadedHistory o w (some content)).names,
      FilenameValid x = true ∧ ∃ g c, x = g ++ [c] ∧ c ≠ '\n' ∧ c ≠ '\r') ∧
    (loadedHistory o w none).names = [] ∧
    (∀ s : State, (mainLoad o w s).iErr = s.iErr) := by
  have hnames : (loadedHistory o w (some content)).names =
      ((allBuffers content).map (fun b => trimEol (cstr b))).filter FilenameValid := by
    rw [loadedHistory_some o w content hz hread,
      readExecuted_buffers content.length content FILELIST.zero WF_zero, names_zero,
      List.nil_append]
    rfl
  have hflat := fgetsBuffers_flatten content.length content (le_refl _)
  obtain ⟨hshape, hchain⟩ := fgetsBuffers_shape content.length content
  refine ⟨hnames, ?_, hflat, hshape, hchain, ?_, ?_, mainLoad_iErr o w⟩
  · intro hnul
    rw [hnames]
    congr 1
    apply List.map_congr_left
    intro b hb
    have hb0 : '\x00' ∉ b := by
      intro h0
      apply hnul
      rw [← hflat]
      exact List.mem_flatten.mpr ⟨b, hb, h0⟩
    simp only [cstr_self b hb0]
  · intro x hx
    rw [hnames] at hx
    have hv := (List.mem_filter.mp hx).2
    exact ⟨hv, FilenameValid_last x hv⟩
  · rw [loadedHistory_none]; exact names_zero

theorem C15_loaded_history_witness :
    allBuffers "a.mp4\r\n\nnotes.txt\nB.AVI".toList =
      ["a.mp4\r\n".toList, "\n".toList, "notes.txt\n".toList, "B.AVI".toList] ∧
    (loadedHistory normalOptions sampleWorld (some "a.mp4\r\n\nnotes.txt\nB.AVI".toList)).names
      = ["a.mp4".toList, "B.AVI".toList] ∧
    (loadedHistory normalOptions sampleWorld (some "a.mp4\r\n\nnotes.txt\nB.AVI".toList)).names
      = ((allBuffers "a.mp4\r\n\nnotes.txt\nB.AVI".toList).map trimEol).filter FilenameValid :=
  ⟨by decide, by decide,
   (C15_loaded_history normalOptions sampleWorld "a.mp4\r\n\nnotes.txt\nB.AVI".toList rfl rfl).2.1
    (by decide)⟩

end Eqselect
